import Mathlib

/-!
Verification development for the Context Aggregation & Redaction Pipeline of
the `debugger-for-llms` VS Code extension (core: `src/core/dataProcessor.ts`,
`src/core/debugSessionManager.ts`, `src/core/middlewareRegistry.ts`).

The TypeScript sources are shallowly embedded as executable Lean definitions:

* JavaScript runtime values that can flow through the pipeline (the `any`-typed
  variable values, request/response bodies) are embedded as the inductive type
  `JSValue` of JSON-like values (null, undefined, booleans, numbers, strings,
  arrays, objects-as-association-lists with unique keys, in insertion order).
* JavaScript strings are Lean `String`s; the case-insensitive regular
  expressions of the source, which are all literal-word (or small-alternation)
  substring tests and replacements, are embedded as executable functions over
  `List Char` with JavaScript's leftmost, non-overlapping, greedy semantics.
* JavaScript numbers are embedded as `Int` (timestamps, durations, status
  codes) or `Nat` (sizes, caps); `Array.prototype.sort` (stable in
  ECMAScript) is embedded as the stable `List.mergeSort`;
  `a.localeCompare(b)` is embedded as lexicographic string comparison.
* `Map` objects are association lists in insertion order (`Map.set` on an
  existing key keeps its position, which the embedding preserves), and the
  stateful `DataProcessor` / `DebugSessionManager` classes become explicit
  state records threaded through their methods, with `Date.now()` passed in
  as an explicit `now` argument.
* The quirk that `arr.slice(-n)` for `n = 0` returns the whole array (because
  `-0 === 0`) is embedded faithfully by `jsSliceNeg`, as are the `||`-default
  falsiness checks on possibly-empty strings and zero timestamps.
-/

/-- JSON-like JavaScript runtime values as they flow through the pipeline.
Object fields are kept as an association list in insertion order; JavaScript
records have unique keys, and all operations below preserve that. -/
inductive JSValue : Type where
  | vNull : JSValue
  | vUndef : JSValue
  | vBool : Bool → JSValue
  | vNum : Int → JSValue
  | vStr : String → JSValue
  | vArr : List JSValue → JSValue
  | vObj : List (String × JSValue) → JSValue
deriving Repr

namespace JS

/-- JavaScript truthiness of an embedded value (`!value` in the source is
`¬ truthy value`): `null`, `undefined`, `false`, `0` and `""` are falsy. -/
def truthy : JSValue → Bool
  | .vNull => false
  | .vUndef => false
  | .vBool b => b
  | .vNum n => n ≠ 0
  | .vStr s => s ≠ ""
  | .vArr _ => true
  | .vObj _ => true

/-- `typeof value === 'object'` for an embedded value: true for `null`,
arrays and plain objects. -/
def typeofIsObject : JSValue → Bool
  | .vNull => true
  | .vArr _ => true
  | .vObj _ => true
  | _ => false

/-- `arr.slice(-n)` for a non-negative count `n`: the last `n` elements,
except that `n = 0` yields the whole array (`-0 === 0`, so `slice(-0)` is
`slice(0)`). -/
def jsSliceNeg (n : Nat) (xs : List α) : List α :=
  if n = 0 then xs else xs.drop (xs.length - n)

/-- `str.substring(0, n)` on the character list of a string. -/
def jsSubstringTo (n : Nat) (s : String) : String :=
  ⟨s.data.take n⟩

/-- `Map.prototype.set`: replace the value in place if the key is present
(`Map` keeps the original insertion position), otherwise append. -/
def mapSet (k : String) (v : α) : List (String × α) → List (String × α)
  | [] => [(k, v)]
  | (k', v') :: rest => if k' = k then (k, v) :: rest else (k', v') :: mapSet k v rest

/-- `Map.prototype.get` with a `|| []` default, as used on the history map. -/
def mapGetD (m : List (String × α)) (k : String) (d : α) : α :=
  (m.lookup k).getD d

theorem jsSliceNeg_length_le (n : Nat) (hn : n ≠ 0) (xs : List α) :
    (jsSliceNeg n xs).length ≤ n := by
  simp only [jsSliceNeg, if_neg hn, List.length_drop]
  omega

theorem jsSliceNeg_length_le_self (n : Nat) (xs : List α) :
    (jsSliceNeg n xs).length ≤ xs.length := by
  by_cases h : n = 0
  · simp [jsSliceNeg, h]
  · simp only [jsSliceNeg, if_neg h, List.length_drop]
    omega

end JS

/-! ### A stable sort that reduces in the kernel

`Array.prototype.sort` is stable (ECMAScript 2019).  Every comparator the
source passes induces a total preorder via `cmp(a, b) <= 0`, and for a total
preorder all stable sorts compute the same list, so the embedding uses a
structurally recursive stable insertion sort (kernel-reducible, unlike the
well-founded `List.mergeSort`). -/

/-- Insert `x` before the first element `y` with `le x y`; processing the
input right to left makes the overall sort stable. -/
def sInsert (le : α → α → Bool) (x : α) : List α → List α
  | [] => [x]
  | y :: ys => if le x y then x :: y :: ys else y :: sInsert le x ys

/-- Stable insertion sort by a boolean total preorder. -/
def stableSort (le : α → α → Bool) : List α → List α
  | [] => []
  | x :: xs => sInsert le x (stableSort le xs)

theorem sInsert_perm (le : α → α → Bool) (x : α) (l : List α) :
    (sInsert le x l).Perm (x :: l) := by
  induction l with
  | nil => simp [sInsert]
  | cons y ys ih =>
    simp only [sInsert]
    split
    · exact List.Perm.refl _
    · exact (ih.cons y).trans (List.Perm.swap x y ys)

theorem stableSort_perm (le : α → α → Bool) (l : List α) :
    (stableSort le l).Perm l := by
  induction l with
  | nil => simp [stableSort]
  | cons x xs ih =>
    exact (sInsert_perm le x (stableSort le xs)).trans (ih.cons x)

theorem sInsert_pairwise (le : α → α → Bool)
    (htotal : ∀ a b, le a b || le b a) (htrans : ∀ a b c, le a b → le b c → le a c)
    (x : α) : ∀ l : List α, l.Pairwise (fun a b => le a b = true) →
    (sInsert le x l).Pairwise (fun a b => le a b = true) := by
  intro l
  induction l with
  | nil => intro _; simp [sInsert]
  | cons y ys ih =>
    intro hl
    obtain ⟨hy, hys⟩ := List.pairwise_cons.mp hl
    by_cases hxy : le x y = true
    · simp only [sInsert, if_pos hxy]
      refine List.pairwise_cons.mpr ⟨?_, List.pairwise_cons.mpr ⟨hy, hys⟩⟩
      intro b hb
      rcases List.mem_cons.mp hb with rfl | hb'
      · exact hxy
      · exact htrans x y b hxy (hy b hb')
    · simp only [sInsert, if_neg hxy]
      refine List.pairwise_cons.mpr ⟨?_, ih hys⟩
      intro b hb
      rcases List.mem_cons.mp ((sInsert_perm le x ys).mem_iff.mp hb) with rfl | hb'
      · have hxt := htotal b y
        simp only [hxy, Bool.false_or] at hxt
        exact hxt
      · exact hy b hb'

theorem stableSort_pairwise (le : α → α → Bool)
    (htotal : ∀ a b, le a b || le b a) (htrans : ∀ a b c, le a b → le b c → le a c)
    (l : List α) : (stableSort le l).Pairwise (fun a b => le a b = true) := by
  induction l with
  | nil => simp [stableSort]
  | cons x xs ih => exact sInsert_pairwise le htotal htrans x (stableSort le xs) ih

/-! ### Strings, case-insensitive containment, and the sensitive-pattern set -/

/-- Boolean substring containment on character lists: `w` occurs contiguously
in `l`. This is the semantics of `String.prototype.includes` and of a
`/word/.test(s)` regular-expression test for a literal word. -/
def containsSub (l w : List Char) : Bool :=
  l.tails.any (fun t => w.isPrefixOf t)

/-- Lowercasing a character list, the embedding of the `i` regex flag. -/
def lowerL (l : List Char) : List Char :=
  l.map Char.toLower

/-- `/w/i.test(s)` for a lowercase literal word `w`. -/
def includesCI (s : String) (w : String) : Bool :=
  containsSub (lowerL s.data) w.data

/-- Case-sensitive `s.includes(w)`. -/
def includesStr (s : String) (w : String) : Bool :=
  containsSub s.data w.data

/-- The sensitive patterns of `DataProcessor.getSensitivePatterns` are all
case-insensitive literal-word tests except `/api[_-]?key/i`, which is a
three-way alternation. -/
inductive Pat : Type where
  | lit : String → Pat
  | apiKey : Pat
deriving DecidableEq, Repr

/-- `pattern.test(s)` for a sensitive pattern (`/api[_-]?key/i` matches
exactly the strings containing `api_key`, `api-key` or `apikey`
case-insensitively). -/
def Pat.test (p : Pat) (s : String) : Bool :=
  match p with
  | .lit w => includesCI s w
  | .apiKey => includesCI s "api_key" || includesCI s "api-key" || includesCI s "apikey"

/-! ### Core data model (src/types/interfaces.ts) -/

/-- The `eventType` union `'breakpoint' | 'exception' | 'step' | 'console'`. -/
inductive EventType : Type where
  | breakpoint | exception | step | console
deriving DecidableEq, Repr

structure SourceLocation : Type where
  file : String
  line : Int
  column : Int
deriving DecidableEq, Repr

structure StackFrame : Type where
  name : String
  file : String
  line : Int
  column : Int
  scope : String
deriving DecidableEq, Repr

/-- `VariableSnapshot`. The `scope` union type is not enforced at runtime
(collected data arrives through `any`-typed casts), so it is embedded as a
plain string; `value` is an arbitrary runtime value. -/
structure VariableSnapshot : Type where
  name : String
  value : JSValue
  type : String
  scope : String
  isRedacted : Bool
  valueType : Option String := none
  isComplex : Option Bool := none
  size : Option Nat := none
deriving Repr

structure LogEntry : Type where
  level : String
  message : String
  timestamp : Int
  source : Option String := none
  correlationId : Option String := none
deriving DecidableEq, Repr

/-- `NetworkData`; absent optional bodies are `JSValue.vUndef`. -/
structure NetworkData : Type where
  method : String
  url : String
  headers : List (String × String)
  requestBody : JSValue := .vUndef
  responseStatus : Int
  responseBody : JSValue := .vUndef
  duration : Int
  timestamp : Int
  domain : Option String := none
  isExternal : Option Bool := none
  category : Option String := none
deriving Repr

structure ExceptionInfo : Type where
  name : String
  message : String
  stack : String
  source : Option String := none
deriving DecidableEq, Repr

/-- `DebugContext` (also `ProcessedContext` and `FilteredContext`, which the
source declares as aliases of it). -/
structure DebugContext : Type where
  sessionId : String
  timestamp : Int
  eventType : EventType
  sourceLocation : SourceLocation
  stackTrace : List StackFrame
  «variables» : List VariableSnapshot
  consoleOutput : List LogEntry
  networkActivity : List NetworkData
  exception : Option ExceptionInfo := none
deriving Repr

/-- `RawDebugContext extends Partial<DebugContext>`: every field optional. -/
structure RawDebugContext : Type where
  sessionId : Option String := none
  timestamp : Option Int := none
  eventType : Option EventType := none
  sourceLocation : Option SourceLocation := none
  stackTrace : Option (List StackFrame) := none
  «variables» : Option (List VariableSnapshot) := none
  consoleOutput : Option (List LogEntry) := none
  networkActivity : Option (List NetworkData) := none
  exception : Option ExceptionInfo := none
deriving Repr

structure RetentionPolicy : Type where
  maxAge : Int
  maxSize : Nat
deriving DecidableEq, Repr

/-! ### URL hostname extraction

`new URL(url).hostname` as used by `extractDomain` / `isExternalRequest`.
The embedding parses hierarchical `scheme://[userinfo@]host[:port]/...`
URLs: the authority runs to the first `/`, `?` or `#`, userinfo is stripped
at the last `@`, the port at the first following `:`, and the hostname is
lowercased.  A URL without a `scheme://` part is treated as unparsable
(the `catch` branch of the source). -/

/-- Split a character list at the first occurrence of `sep`, returning the
part before and the part after the separator. -/
def breakOnSub (sep : List Char) : List Char → Option (List Char × List Char)
  | [] => if sep.isEmpty then some ([], []) else none
  | c :: cs =>
    if sep.isPrefixOf (c :: cs) then some ([], (c :: cs).drop sep.length)
    else
      match breakOnSub sep cs with
      | some (pre, post) => some (c :: pre, post)
      | none => none

/-- Hostname of a hierarchical URL, or `none` when `new URL` would throw. -/
def parseHostname (url : String) : Option String :=
  match breakOnSub "://".data url.data with
  | none => none
  | some (scheme, rest) =>
    if scheme.isEmpty then none
    else
      let authority := rest.takeWhile (fun c => !(c = '/' || c = '?' || c = '#'))
      let hostport := (authority.reverse.takeWhile (fun c => c ≠ '@')).reverse
      some ⟨lowerL (hostport.takeWhile (fun c => c ≠ ':'))⟩

/-- `extractDomain` (identical in `DataProcessor` and `MiddlewareRegistry`):
`new URL(url).hostname` with `'unknown'` on parse failure. -/
def extractDomain (url : String) : String :=
  (parseHostname url).getD "unknown"

/-! ### DataProcessor: privacy settings and sensitivity classification -/

namespace DataProcessor

/-- `PrivacySettings` (src/core/dataProcessor.ts). The `sensitivityLevel`
union is embedded as a string, matching the `switch` with a `default` arm in
`getSensitivePatterns`. -/
structure PrivacySettings : Type where
  redactSensitiveVariables : Bool
  redactFileContents : Bool
  redactNetworkData : Bool
  maxVariableValueLength : Nat
  maxStackFrames : Nat
  maxConsoleEntries : Nat
  sensitivityLevel : String
deriving DecidableEq, Repr

/-- The `debuggerForLLMs.privacy` workspace configuration section:
`config.get(key, default)` yields the stored value when present and the
default otherwise, so each option is embedded as an `Option`. -/
structure PrivacyConfig : Type where
  redactSensitiveVariables : Option Bool := none
  redactFileContents : Option Bool := none
  redactNetworkData : Option Bool := none
  maxVariableValueLength : Option Nat := none
  maxStackFrames : Option Nat := none
  maxConsoleEntries : Option Nat := none
  sensitivityLevel : Option String := none
deriving DecidableEq, Repr

/-- `getPrivacySettings`: read each option with its hard-coded default. -/
def getPrivacySettings (config : PrivacyConfig) : PrivacySettings where
  redactSensitiveVariables := config.redactSensitiveVariables.getD true
  redactFileContents := config.redactFileContents.getD false
  redactNetworkData := config.redactNetworkData.getD true
  maxVariableValueLength := config.maxVariableValueLength.getD 1000
  maxStackFrames := config.maxStackFrames.getD 20
  maxConsoleEntries := config.maxConsoleEntries.getD 50
  sensitivityLevel := config.sensitivityLevel.getD "medium"

def basePatterns : List Pat :=
  [.lit "password", .lit "secret", .lit "token", .lit "key", .lit "auth",
   .lit "credential", .apiKey]

def mediumPatterns : List Pat :=
  basePatterns ++ [.lit "email", .lit "phone", .lit "ssn", .lit "social"]

def highPatterns : List Pat :=
  mediumPatterns ++ [.lit "name", .lit "address", .lit "id", .lit "user", .lit "account"]

/-- `getSensitivePatterns`: tiered pattern sets, defaulting to medium. -/
def getSensitivePatterns (sensitivityLevel : String) : List Pat :=
  if sensitivityLevel = "high" then highPatterns
  else if sensitivityLevel = "medium" then mediumPatterns
  else if sensitivityLevel = "low" then basePatterns
  else mediumPatterns

/-- `isSensitiveVariable`: the name, or a string value, matches some active
pattern. -/
def isSensitiveVariable (name : String) (value : JSValue) (sensitivityLevel : String) : Bool :=
  let sensitivePatterns := getSensitivePatterns sensitivityLevel
  let nameIsSensitive := sensitivePatterns.any (fun p => p.test name)
  let valueIsSensitive :=
    match value with
    | .vStr s => sensitivePatterns.any (fun p => p.test s)
    | _ => false
  nameIsSensitive || valueIsSensitive

/-- `isComplexValue`: a non-null non-array object. -/
def isComplexValue : JSValue → Bool
  | .vObj _ => true
  | _ => false

/-- `determineValueType` (`Date`/`RegExp` instances are not representable
among the embedded JSON-like runtime values, so those two `instanceof`
branches cannot fire). -/
def determineValueType : JSValue → String
  | .vNull => "null"
  | .vUndef => "undefined"
  | .vArr _ => "array"
  | .vBool _ => "boolean"
  | .vNum _ => "number"
  | .vStr _ => "string"
  | .vObj _ => "object"

mutual

/-- `JSON.stringify` on embedded values: `undefined` serializes to nothing
(`none`), `undefined` object members are skipped, `undefined` array elements
become `null`. String escaping is not modelled (no claim exercises strings
containing quotes or backslashes). -/
def jsonStringify : JSValue → Option String
  | .vNull => some "null"
  | .vUndef => none
  | .vBool b => some (cond b "true" "false")
  | .vNum n => some (toString n)
  | .vStr s => some ("\"" ++ s ++ "\"")
  | .vArr xs => some ("[" ++ String.intercalate "," (jsonStringifyArr xs) ++ "]")
  | .vObj fields => some ("\x7b" ++ String.intercalate "," (jsonStringifyObj fields) ++ "\x7d")

def jsonStringifyArr : List JSValue → List String
  | [] => []
  | x :: xs => (jsonStringify x).getD "null" :: jsonStringifyArr xs

def jsonStringifyObj : List (String × JSValue) → List String
  | [] => []
  | (k, v) :: rest =>
    match jsonStringify v with
    | none => jsonStringifyObj rest
    | some s => ("\"" ++ k ++ "\":" ++ s) :: jsonStringifyObj rest

end

/-! ### DataProcessor: complex-value sanitization and variable filtering -/

mutual

/-- `sanitizeComplexValue`: arrays keep their first 10 elements, recursing
into object-typeof elements; objects keep their first 20 keys, redacting
sensitive members; everything else is returned unchanged (`null` falls
through both guards).  The source slices and then maps; slicing after the
pointwise map is the same list. -/
def sanitizeComplexValue (settings : PrivacySettings) : JSValue → JSValue
  | .vArr xs => .vArr ((sanitizeArrItems settings xs).take 10)
  | .vObj fields => .vObj ((sanitizeObjFields settings fields).take 20)
  | v => v

def sanitizeArrItems (settings : PrivacySettings) : List JSValue → List JSValue
  | [] => []
  | x :: xs =>
    (if JS.typeofIsObject x then sanitizeComplexValue settings x else x) ::
      sanitizeArrItems settings xs

def sanitizeObjFields (settings : PrivacySettings) :
    List (String × JSValue) → List (String × JSValue)
  | [] => []
  | (k, v) :: rest =>
    (if isSensitiveVariable k v settings.sensitivityLevel then (k, JSValue.vStr "[REDACTED]")
     else (k, v)) :: sanitizeObjFields settings rest

end

/-- `calculateValueSize`: `JSON.stringify(value).length`; for `undefined` the
serialization is `undefined`, taking `.length` throws, and the `catch` branch
returns `String(value).length`, the length of `"undefined"`. -/
def calculateValueSize (value : JSValue) : Nat :=
  match jsonStringify value with
  | some s => s.data.length
  | none => "undefined".data.length

/-- `enhanceVariable`: annotate with inferred type, complexity and size. -/
def enhanceVariable (v : VariableSnapshot) : VariableSnapshot :=
  { v with
    valueType := some (determineValueType v.value)
    isComplex := some (isComplexValue v.value)
    size := some (calculateValueSize v.value) }

/-- The per-variable body of `filterVariables`: redact when classified
sensitive, then truncate over-long string values, then sanitize complex
values unless already redacted (the three sequential mutations of the
`filtered` local). -/
def filterOneVariable (settings : PrivacySettings) (v : VariableSnapshot) : VariableSnapshot :=
  let f1 :=
    if isSensitiveVariable v.name v.value settings.sensitivityLevel then
      { v with value := JSValue.vStr "[REDACTED]", isRedacted := true }
    else v
  let f2 :=
    match f1.value with
    | .vStr s =>
      if s.data.length > settings.maxVariableValueLength then
        let truncated := JS.jsSubstringTo settings.maxVariableValueLength s ++ "... [TRUNCATED]"
        { f1 with value := JSValue.vStr truncated }
      else f1
    | _ => f1
  if isComplexValue f2.value && !f2.isRedacted then
    { f2 with value := sanitizeComplexValue settings f2.value }
  else f2

/-- `filterVariables`. -/
def filterVariables (settings : PrivacySettings) (vars : List VariableSnapshot) :
    List VariableSnapshot :=
  if !settings.redactSensitiveVariables then vars
  else vars.map (filterOneVariable settings)

/-! ### DataProcessor: log-message scrubbing

`sanitizeLogMessage` runs, for every active sensitive pattern `p`,
`sanitized.replace(new RegExp('(' + p.source + ')[=:]\\s*[^\\s]+', 'gi'), '$1=[REDACTED]')`.

The embedding implements that global regex replacement directly: scan left to
right; at each position try to match the pattern word case-insensitively,
then a `=` or `:` separator, then optional whitespace, then a maximal
nonempty run of non-whitespace characters; on a match, emit the original
word text (`$1`), `=[REDACTED]`, and continue after the match; otherwise
emit one character and continue. -/

/-- Whitespace for the `\s` character class (space, tab, LF, CR, VT, FF; the
exotic Unicode members of `\s` are not modelled). -/
def isWs (c : Char) : Bool :=
  c = ' ' || c = '\t' || c = '\n' || c = '\r' || c = '\x0b' || c = '\x0c'

/-- Try to match a sensitive pattern word at the head of `l`
case-insensitively, returning the matched original characters and the rest.
For `/api[_-]?key/i` the greedy optional separator branch is tried first,
exactly as the backtracking regex engine does. -/
def patWordMatch : Pat → List Char → Option (List Char × List Char)
  | .lit w, l =>
    if (l.take w.data.length).map Char.toLower = w.data then
      some (l.take w.data.length, l.drop w.data.length)
    else none
  | .apiKey, l =>
    if (l.take 3).map Char.toLower = "api".data then
      if ((l.drop 3).head? = some '_' || (l.drop 3).head? = some '-')
          && ((l.drop 4).take 3).map Char.toLower = "key".data then
        some (l.take 7, l.drop 7)
      else if ((l.drop 3).take 3).map Char.toLower = "key".data then
        some (l.take 6, l.drop 6)
      else none
    else none

/-- After the matched word: one `[=:]` separator, `\s*`, then a nonempty
maximal `[^\s]+` run; returns what follows the match. -/
def sepValSplit (r : List Char) : Option (List Char) :=
  match r with
  | [] => none
  | c :: r' =>
    if c = '=' || c = ':' then
      let r2 := r'.dropWhile isWs
      if (r2.takeWhile (fun x => !isWs x)).isEmpty then none
      else some (r2.dropWhile (fun x => !isWs x))
    else none

theorem patWordMatch_append {p : Pat} {l w r : List Char}
    (h : patWordMatch p l = some (w, r)) : l = w ++ r := by
  cases p with
  | lit v =>
    simp only [patWordMatch] at h
    split at h
    · simp only [Option.some.injEq, Prod.mk.injEq] at h
      rw [← h.1, ← h.2, List.take_append_drop]
    · exact absurd h (by simp)
  | apiKey =>
    simp only [patWordMatch] at h
    split at h
    · split at h
      · simp only [Option.some.injEq, Prod.mk.injEq] at h
        rw [← h.1, ← h.2, List.take_append_drop]
      · split at h
        · simp only [Option.some.injEq, Prod.mk.injEq] at h
          rw [← h.1, ← h.2, List.take_append_drop]
        · exact absurd h (by simp)
    · exact absurd h (by simp)

theorem sepValSplit_length {r rest : List Char} (h : sepValSplit r = some rest) :
    rest.length < r.length := by
  match r with
  | [] => simp [sepValSplit] at h
  | c :: r' =>
    simp only [sepValSplit] at h
    split at h
    · split at h
      · exact absurd h (by simp)
      · simp only [Option.some.injEq] at h
        have h1 : rest.length ≤ (r'.dropWhile isWs).length := by
          rw [← h]; exact ((r'.dropWhile isWs).dropWhile_sublist _).length_le
        have h2 : (r'.dropWhile isWs).length ≤ r'.length :=
          (r'.dropWhile_sublist _).length_le
        simp only [List.length_cons]
        omega
    · exact absurd h (by simp)

/-- The global replacement pass for one sensitive pattern (one iteration of
the `for (const pattern of sensitivePatterns)` loop). -/
def sanPat (p : Pat) : List Char → List Char
  | [] => []
  | c :: cs =>
    match hm : patWordMatch p (c :: cs) with
    | some (w, r) =>
      match hs : sepValSplit r with
      | some rest => (w ++ '=' :: "[REDACTED]".data) ++ sanPat p rest
      | none => c :: sanPat p cs
    | none => c :: sanPat p cs
termination_by l => l.length
decreasing_by
  · have h1 := patWordMatch_append hm
    have h2 := sepValSplit_length hs
    have h3 : r.length ≤ (c :: cs).length := by
      rw [h1, List.length_append]; omega
    simp only [List.length_cons] at h3 ⊢
    omega
  · simp
  · simp

/-- `sanitizeLogMessage`: fold the per-pattern global replacement over the
active pattern list (in the source, sequential reassignment of `sanitized`). -/
def sanitizeLogMessage (settings : PrivacySettings) (message : String) : String :=
  if !settings.redactSensitiveVariables then message
  else ⟨(getSensitivePatterns settings.sensitivityLevel).foldl
          (fun acc p => sanPat p acc) message.data⟩

/-- `filterConsoleOutput`: keep the last `maxConsoleEntries` entries
(`slice(-n)`, with the `-0` quirk) and scrub each message. -/
def filterConsoleOutput (settings : PrivacySettings) (consoleOutput : List LogEntry) :
    List LogEntry :=
  (JS.jsSliceNeg settings.maxConsoleEntries consoleOutput).map
    (fun e => { e with message := sanitizeLogMessage settings e.message })

/-! ### DataProcessor: network and stack-trace filtering -/

/-- The sensitive-header tests of `sanitizeHeaders` (all case-insensitive
substring patterns). -/
def sensitiveHeaderTest (k : String) : Bool :=
  includesCI k "authorization" || includesCI k "cookie" || includesCI k "x-api-key" ||
    includesCI k "x-auth" || includesCI k "bearer"

/-- `sanitizeHeaders`: rebuild the header record, redacting sensitive keys. -/
def sanitizeHeaders (headers : List (String × String)) : List (String × String) :=
  headers.map (fun kv => if sensitiveHeaderTest kv.1 then (kv.1, "[REDACTED]") else kv)

/-- `sanitizeRequestBody`: falsy bodies unchanged; object-typeof bodies are
rebuilt from `Object.entries` with sensitive members redacted at the
`'medium'` level (an array body becomes a plain object keyed by element
indices, exactly as `Object.entries` enumerates it). -/
def sanitizeRequestBody (body : JSValue) : JSValue :=
  if !JS.truthy body then body
  else
    match body with
    | .vObj fields =>
      .vObj (fields.map (fun kv =>
        if isSensitiveVariable kv.1 kv.2 "medium" then (kv.1, JSValue.vStr "[REDACTED]") else kv))
    | .vArr xs =>
      .vObj (xs.enum.map (fun ix =>
        if isSensitiveVariable (toString ix.1) ix.2 "medium" then
          (toString ix.1, JSValue.vStr "[REDACTED]")
        else (toString ix.1, ix.2)))
    | _ => body

/-- `sanitizeResponseBody`: only an object with a truthy `token` member is
rewritten, by the spread `{ ...body, token: '[REDACTED]' }`. -/
def sanitizeResponseBody (body : JSValue) : JSValue :=
  if !JS.truthy body then body
  else
    match body with
    | .vObj fields =>
      if JS.truthy ((fields.lookup "token").getD JSValue.vUndef) then
        .vObj (fields.map (fun kv =>
          if kv.1 = "token" then (kv.1, JSValue.vStr "[REDACTED]") else kv))
      else body
    | _ => body

/-- `filterNetworkActivity`. -/
def filterNetworkActivity (settings : PrivacySettings) (networkActivity : List NetworkData) :
    List NetworkData :=
  if !settings.redactNetworkData then networkActivity
  else
    networkActivity.map (fun a =>
      { a with
        headers := sanitizeHeaders a.headers
        requestBody := sanitizeRequestBody a.requestBody
        responseBody := sanitizeResponseBody a.responseBody })

/-! ### DataProcessor: file-path sanitization

`sanitizeFilePath` applies, in order, the three global replacements
`/\/Users\/[^\/]+/g → '/Users/[USER]'`, `/\/home\/[^\/]+/g → '/home/[USER]'`
and `/C:\\Users\\[^\\]+/g → 'C:\\Users\\[USER]'`.  Each is the same scanner
shape: at a position, match the literal prefix followed by a nonempty
maximal run of non-separator characters; replace the whole match by the
prefix plus `[USER]`; otherwise advance one character. -/

/-- One global `replace` of `PRE[^sep]+` by `PRE ++ marker`, where the
nonempty prefix is `p0 :: ps`. -/
def segRewrite (p0 : Char) (ps : List Char) (sep : Char) (marker : List Char) :
    List Char → List Char
  | [] => []
  | c :: cs =>
    if (p0 :: ps).isPrefixOf (c :: cs)
        && !(((c :: cs).drop (ps.length + 1)).takeWhile (fun x => x != sep)).isEmpty then
      ((p0 :: ps) ++ marker) ++
        segRewrite p0 ps sep marker (((c :: cs).drop (ps.length + 1)).dropWhile (fun x => x != sep))
    else c :: segRewrite p0 ps sep marker cs
termination_by l => l.length
decreasing_by
  · have h1 : ((((c :: cs).drop (ps.length + 1)).dropWhile (fun x => x != sep))).length ≤
        ((c :: cs).drop (ps.length + 1)).length :=
      (List.dropWhile_sublist _).length_le
    simp only [List.length_drop, List.length_cons] at h1 ⊢
    omega
  · simp

/-- `sanitizeFilePath`: the three sequential path rewrites. -/
def sanitizeFilePath (filePath : String) : String :=
  let pass1 := segRewrite '/' "Users/".data '/' "[USER]".data filePath.data
  let pass2 := segRewrite '/' "home/".data '/' "[USER]".data pass1
  let pass3 := segRewrite 'C' ":\\Users\\".data '\\' "[USER]".data pass2
  ⟨pass3⟩

/-- `filterStackTrace`: keep the first `maxStackFrames` frames; sanitize file
paths only when `redactFileContents` is on. -/
def filterStackTrace (settings : PrivacySettings) (stackTrace : List StackFrame) :
    List StackFrame :=
  let filtered := stackTrace.take settings.maxStackFrames
  if !settings.redactFileContents then filtered
  else filtered.map (fun f => { f with file := sanitizeFilePath f.file })

/-- `filterSourceLocation`. -/
def filterSourceLocation (settings : PrivacySettings) (loc : SourceLocation) : SourceLocation :=
  if !settings.redactFileContents then loc
  else { loc with file := sanitizeFilePath loc.file }

/-- `applyPrivacyFilters`: the settings are read from the configuration at
call time and govern all five field filters. -/
def applyPrivacyFilters (config : PrivacyConfig) (context : DebugContext) : DebugContext :=
  let privacySettings := getPrivacySettings config
  { context with
    «variables» := filterVariables privacySettings context.variables
    consoleOutput := filterConsoleOutput privacySettings context.consoleOutput
    networkActivity := filterNetworkActivity privacySettings context.networkActivity
    stackTrace := filterStackTrace privacySettings context.stackTrace
    sourceLocation := filterSourceLocation privacySettings context.sourceLocation }

/-! ### DataProcessor: stack-trace, variable, console and network processing -/

/-- `isUserCode`: `userCodePatterns.some(p => p.test(filePath))` where the
patterns are the negative lookaheads `/^(?!.*node_modules)/`,
`/^(?!.*\.vscode)/` and `/^(?!.*internal)/`.  Each lookahead test succeeds
exactly when the path does NOT contain the marker (paths are single-line, so
`.*` scans the whole string), and `some` disjoins the three tests. -/
def isUserCode (filePath : String) : Bool :=
  !includesStr filePath "node_modules" || !includesStr filePath ".vscode" ||
    !includesStr filePath "internal"

/-- `enhanceFrameScope` (`frame.scope || 'unknown'` treats the empty string
as absent). -/
def enhanceFrameScope (frame : StackFrame) : String :=
  if includesStr frame.file "node_modules" then "external_library"
  else if includesStr frame.file "internal" || includesStr frame.file "builtin" then
    "runtime_internal"
  else if isUserCode frame.file then "user_code"
  else if frame.scope = "" then "unknown" else frame.scope

/-- The comparator of `processStackTrace` as a stable-sort precedence: the
comparator returns a negative value exactly when `a` is user code and `b` is
not, so `a` may stay before `b` unless `b` is user code and `a` is not. -/
def stackLe (a b : StackFrame) : Bool :=
  !(!isUserCode a.file && isUserCode b.file)

/-- `processStackTrace`: stable-sort user code first, then annotate scopes. -/
def processStackTrace (stackTrace : List StackFrame) : List StackFrame :=
  (stableSort stackLe stackTrace).map (fun frame => { frame with scope := enhanceFrameScope frame })

/-- Name order of the per-scope sort (`a.name.localeCompare(b.name)` embedded
as lexicographic comparison). -/
def nameLe (a b : VariableSnapshot) : Bool :=
  decide (a.name ≤ b.name)

/-- `processVariables`: group by scope (`local`, `closure`, `global` in that
fixed object-literal order), sort each group by name, annotate, and
concatenate.  A variable whose scope is none of the three is in no group. -/
def processVariables (vars : List VariableSnapshot) : List VariableSnapshot :=
  (stableSort nameLe (vars.filter (fun v => v.scope = "local"))).map enhanceVariable ++
    (stableSort nameLe (vars.filter (fun v => v.scope = "closure"))).map enhanceVariable ++
      (stableSort nameLe (vars.filter (fun v => v.scope = "global"))).map enhanceVariable

/-- `processConsoleOutput`: stable-sort by timestamp, default the source, and
attach `console_<index>_<timestamp>` correlation ids. -/
def processConsoleOutput (consoleOutput : List LogEntry) : List LogEntry :=
  ((stableSort (fun a b => decide (a.timestamp ≤ b.timestamp)) consoleOutput).enum).map
    (fun ie =>
      { ie.2 with
        source := some (match ie.2.source with
          | some s => if s = "" then "console" else s
          | none => "console")
        correlationId := some ("console_" ++ toString ie.1 ++ "_" ++ toString ie.2.timestamp) })

/-- Prefix test on strings (the anchored part of the source's URL regexes). -/
def strStarts (s pre : String) : Bool :=
  pre.data.isPrefixOf s.data

/-- `DataProcessor.isExternalRequest` (distinct from the registry's): any of
the four URL regexes matches — `^https?://` not immediately followed by a
loopback literal, or `^https?://` with `.com`, `.org` or `.net` anywhere
after the scheme. -/
def dpIsExternalRequest (url : String) : Bool :=
  let schemeOk := strStarts url "http://" || strStarts url "https://"
  let afterScheme : String :=
    if strStarts url "http://" then ⟨url.data.drop 7⟩ else ⟨url.data.drop 8⟩
  (schemeOk && !(strStarts afterScheme "localhost" || strStarts afterScheme "127.0.0.1" ||
      strStarts afterScheme "0.0.0.0")) ||
    (schemeOk && includesStr url ".com") ||
      (schemeOk && includesStr url ".org") ||
        (schemeOk && includesStr url ".net")

/-- `DataProcessor.categorizeNetworkRequest` (first matching rule wins). -/
def categorizeNetworkRequest (activity : NetworkData) : String :=
  let url : String := ⟨lowerL activity.url.data⟩
  if includesStr url "/api/" then "api"
  else if includesStr url "/graphql" then "graphql"
  else if includesStr url "/auth" then "authentication"
  else if includesStr url "/upload" || includesStr url "/download" then "file_transfer"
  else if activity.method = "GET" && includesStr url "/static/" then "static_resource"
  else "general"

/-- `processNetworkActivity`: stable-sort by timestamp and derive domain,
externality and category. -/
def processNetworkActivity (networkActivity : List NetworkData) : List NetworkData :=
  (stableSort (fun a b => decide (a.timestamp ≤ b.timestamp)) networkActivity).map
    (fun activity =>
      { activity with
        domain := some (extractDomain activity.url)
        isExternal := some (dpIsExternalRequest activity.url)
        category := some (categorizeNetworkRequest activity) })

/-! ### DataProcessor: state, history and retention -/

structure DataAggregationStats : Type where
  totalVariables : Nat
  redactedVariables : Nat
  stackFrameCount : Nat
  consoleEntryCount : Nat
  networkRequestCount : Nat
  processingTime : Int
deriving DecidableEq, Repr

/-- The mutable state of a `DataProcessor` instance: the per-session history
map and the aggregation statistics. -/
structure ProcState : Type where
  contextHistory : List (String × List DebugContext) := []
  aggregationStats : List DataAggregationStats := []
deriving Repr

/-- `maxHistorySize` of `DataProcessor`. -/
def maxHistorySize : Nat := 100

/-- `addToHistory`: append to the session's history; a `shift()` drops the
oldest entry when the bound is exceeded. -/
def addToHistory (context : DebugContext)
    (history : List (String × List DebugContext)) : List (String × List DebugContext) :=
  let sessionHistory := JS.mapGetD history context.sessionId []
  let pushed := sessionHistory ++ [context]
  let bounded := if pushed.length > maxHistorySize then pushed.tail else pushed
  JS.mapSet context.sessionId bounded history

/-- `recordAggregationStats`: push the per-event stats, keeping only the last
500 once more than 1000 accumulate. -/
def recordAggregationStats (context : DebugContext) (processingTime : Int)
    (stats : List DataAggregationStats) : List DataAggregationStats :=
  let entry : DataAggregationStats :=
    { totalVariables := context.variables.length
      redactedVariables := (context.variables.filter (fun v => v.isRedacted)).length
      stackFrameCount := context.stackTrace.length
      consoleEntryCount := context.consoleOutput.length
      networkRequestCount := context.networkActivity.length
      processingTime := processingTime }
  let pushed := stats ++ [entry]
  if pushed.length > 1000 then JS.jsSliceNeg 500 pushed else pushed

/-- `processContext`: fill every missing field with its safe default (`||`
treats the empty session id and a zero timestamp as absent), normalize each
collection, append to the session history, and record stats.  `Date.now()`
at entry is `now`; the measured elapsed time is the `processingTime`
argument. -/
def processContext (now processingTime : Int) (rawContext : RawDebugContext)
    (st : ProcState) : DebugContext × ProcState :=
  let processedContext : DebugContext :=
    { sessionId := match rawContext.sessionId with
        | some s => if s = "" then "unknown" else s
        | none => "unknown"
      timestamp := match rawContext.timestamp with
        | some t => if t = 0 then now else t
        | none => now
      eventType := rawContext.eventType.getD .breakpoint
      sourceLocation := rawContext.sourceLocation.getD { file := "unknown", line := 0, column := 0 }
      stackTrace := processStackTrace (rawContext.stackTrace.getD [])
      «variables» := processVariables (rawContext.variables.getD [])
      consoleOutput := processConsoleOutput (rawContext.consoleOutput.getD [])
      networkActivity := processNetworkActivity (rawContext.networkActivity.getD [])
      exception := rawContext.exception }
  (processedContext,
    { contextHistory := addToHistory processedContext st.contextHistory
      aggregationStats := recordAggregationStats processedContext processingTime
        st.aggregationStats })

/-- `getContextHistory`. -/
def getContextHistory (st : ProcState) (sessionId : String) : List DebugContext :=
  JS.mapGetD st.contextHistory sessionId []

/-- `getAggregationStats`. -/
def getAggregationStats (st : ProcState) : List DataAggregationStats :=
  st.aggregationStats

/-- The `for (const [sessionId, contexts] of this.contextHistory.entries())`
loop of `cleanupOldData`.  The loop deletes empty sessions from the map while
iterating, and reads `this.contextHistory.size` for the per-session budget at
the moment each session is processed, so the embedding threads the already
processed prefix (`done`) and the untouched remainder (`pending`): the live
size when a session is processed is `done.length + 1 + pending.length`. -/
def cleanupLoop (now : Int) (policy : RetentionPolicy) :
    List (String × List DebugContext) → List (String × List DebugContext) →
      List (String × List DebugContext)
  | done, [] => done
  | done, (sessionId, contexts) :: pending =>
    let cutoffTime := now - policy.maxAge
    let filteredContexts := contexts.filter (fun c => decide (c.timestamp > cutoffTime))
    if filteredContexts.length = 0 then cleanupLoop now policy done pending
    else
      let size := done.length + 1 + pending.length
      let sizeLimit := policy.maxSize / size
      cleanupLoop now policy (done ++ [(sessionId, JS.jsSliceNeg sizeLimit filteredContexts)])
        pending

/-- `cleanupOldData`: age/size eviction over the history map, and the stats
filter `Date.now() - stat.processingTime < maxAge` (note: it subtracts the
per-event processing duration, not a capture timestamp). -/
def cleanupOldData (now : Int) (policy : RetentionPolicy) (st : ProcState) : ProcState :=
  { contextHistory := cleanupLoop now policy [] st.contextHistory
    aggregationStats :=
      st.aggregationStats.filter (fun stat => decide (now - stat.processingTime < policy.maxAge)) }

end DataProcessor

/-! ### DebugSessionManager (src/core/debugSessionManager.ts) -/

namespace DebugSessionManager

/-- The session-history update of `processAndAnalyzeContext` (and of
`onConsoleOutput`): push, then keep only the last 50 entries. -/
def pushSessionHistory (contextHistory : List DebugContext) (context : DebugContext) :
    List DebugContext :=
  let pushed := contextHistory ++ [context]
  if pushed.length > 50 then JS.jsSliceNeg 50 pushed else pushed

/-- `shouldAnalyzeContext`: the escalation gate. -/
def shouldAnalyzeContext (context : DebugContext) (highPriority : Bool) : Bool :=
  if context.eventType = .exception || highPriority then true
  else if context.eventType = .breakpoint &&
      (context.variables.length > 0 || context.exception.isSome) then true
  else if context.eventType = .step then context.exception.isSome
  else false

end DebugSessionManager

/-! ### MiddlewareRegistry (src/core/middlewareRegistry.ts) -/

namespace MiddlewareRegistry

structure MiddlewareConfig : Type where
  enabled : Bool
  captureRequestBody : Bool
  captureResponseBody : Bool
  maxBodySize : Nat
  excludeUrls : List String
  includeHeaders : List String
deriving DecidableEq, Repr

/-- `getDefaultConfig`. -/
def getDefaultConfig : MiddlewareConfig where
  enabled := true
  captureRequestBody := true
  captureResponseBody := true
  maxBodySize := 10000
  excludeUrls := ["chrome-extension://", "vscode-webview://", "data:", "blob:"]
  includeHeaders := ["content-type", "authorization", "x-api-key", "user-agent"]

structure NetworkRequest : Type where
  method : String
  url : String
  headers : List (String × String)
  body : JSValue := .vUndef
deriving Repr

structure NetworkResponse : Type where
  status : Int
  headers : List (String × String)
  body : JSValue := .vUndef
  duration : Int
deriving Repr

/-- `filterHeaders`: keep only allow-listed header names, and redact the
kept ones whose lowercased name contains an authorization/key/token term. -/
def filterHeaders (config : MiddlewareConfig) (headers : List (String × String)) :
    List (String × String) :=
  headers.filterMap (fun kv =>
    let lowerKey : String := ⟨lowerL kv.1.data⟩
    if config.includeHeaders.contains lowerKey then
      if includesStr lowerKey "authorization" || includesStr lowerKey "key" ||
          includesStr lowerKey "token" then
        some (kv.1, "[REDACTED]")
      else some kv
    else none)

mutual

/-- `redactSensitiveData`: recursively rebuild arrays and objects, redacting
members whose lowercased key contains a password/token/secret/key term and
recursing into object-typeof member values. -/
def redactSensitiveData : JSValue → JSValue
  | .vArr xs => .vArr (redactArr xs)
  | .vObj fields => .vObj (redactObjFields fields)
  | v => v

def redactArr : List JSValue → List JSValue
  | [] => []
  | x :: xs => redactSensitiveData x :: redactArr xs

def redactObjFields : List (String × JSValue) → List (String × JSValue)
  | [] => []
  | (k, v) :: rest =>
    let lowerKey : String := ⟨lowerL k.data⟩
    (if includesStr lowerKey "password" || includesStr lowerKey "token" ||
        includesStr lowerKey "secret" || includesStr lowerKey "key" then
      (k, JSValue.vStr "[REDACTED]")
    else if JS.typeofIsObject v then (k, redactSensitiveData v)
    else (k, v)) :: redactObjFields rest

end

/-- `filterBody`: drop uncaptured or falsy bodies (`return undefined`),
replace over-sized bodies by a truncation marker, redact object-typeof
bodies, and pass other bodies through. -/
def filterBody (config : MiddlewareConfig) (isRequest : Bool) (body : JSValue) : JSValue :=
  let shouldCapture := if isRequest then config.captureRequestBody else config.captureResponseBody
  if !shouldCapture || !JS.truthy body then .vUndef
  else
    let bodyStr : String :=
      match body with
      | .vStr s => s
      | _ => (DataProcessor.jsonStringify body).getD ""
    if bodyStr.data.length > config.maxBodySize then
      .vStr ("[TRUNCATED: Body too large (" ++ toString bodyStr.data.length ++ " bytes)]")
    else if JS.typeofIsObject body then redactSensitiveData body
    else body

/-- `MiddlewareRegistry.isExternalRequest`: excluded URL prefixes are never
external; otherwise the URL must parse and its hostname must not be a
loopback literal. -/
def isExternalRequest (config : MiddlewareConfig) (url : String) : Bool :=
  if config.excludeUrls.any (fun pre => DataProcessor.strStarts url pre) then false
  else
    match parseHostname url with
    | some host => !(host = "localhost" || host = "127.0.0.1" || host = "0.0.0.0")
    | none => false

/-- `categorizeRequest` (first matching rule wins; method is uppercased). -/
def categorizeRequest (request : NetworkRequest) : String :=
  let url : String := ⟨lowerL request.url.data⟩
  let method : String := ⟨request.method.data.map Char.toUpper⟩
  if includesStr url "/api/" then "api"
  else if includesStr url "/graphql" then "graphql"
  else if includesStr url "/auth" || includesStr url "/login" then "authentication"
  else if method = "POST" && includesStr url "/upload" then "file_upload"
  else if method = "GET" && (includesStr url ".js" || includesStr url ".css" ||
      includesStr url ".png") then "static_resource"
  else if includesStr url "/websocket" || includesStr url "/ws/" then "websocket"
  else "general"

/-- `collectNetworkData`: the `NetworkData` record built for a collected
request/response pair (buffering and listener notification leave the record
itself unchanged). -/
def collectNetworkData (config : MiddlewareConfig) (now : Int)
    (request : NetworkRequest) (response : NetworkResponse) : NetworkData where
  method := request.method
  url := request.url
  headers := filterHeaders config request.headers
  requestBody := filterBody config true request.body
  responseStatus := response.status
  responseBody := filterBody config false response.body
  duration := response.duration
  timestamp := now
  domain := some (extractDomain request.url)
  isExternal := some (isExternalRequest config request.url)
  category := some (categorizeRequest request)

end MiddlewareRegistry

/-! ### Definitions supporting the claim statements -/

/-- The escalation predicate as §4.5 of the spec words it, for comparison
with the code's `shouldAnalyzeContext`: true unconditionally for exception
events or `highPriority`; for breakpoints carrying a variable or an
exception; for steps only with an exception attached; false otherwise. -/
def specShouldEscalate (context : DebugContext) (highPriority : Bool) : Bool :=
  context.eventType = .exception || highPriority ||
    (context.eventType = .breakpoint &&
      (context.variables.length > 0 || context.exception.isSome)) ||
      (context.eventType = .step && context.exception.isSome)

/-- The "is user code" predicate as §4.2 of the spec words it: a file path
not matching any known library/internal path marker. -/
def specIsUserCode (filePath : String) : Bool :=
  !(includesStr filePath "node_modules" || includesStr filePath ".vscode" ||
    includesStr filePath "internal")

/-- The privacy defaults as §6 of the spec words them: every redaction
toggle true, caps 1000/20/50, medium sensitivity. -/
def specDefaultPrivacySettings : DataProcessor.PrivacySettings where
  redactSensitiveVariables := true
  redactFileContents := true
  redactNetworkData := true
  maxVariableValueLength := 1000
  maxStackFrames := 20
  maxConsoleEntries := 50
  sensitivityLevel := "medium"

/-- A raw context carrying only a session id (every other field takes its
ingest default). -/
def rawOnlySession : RawDebugContext := { sessionId := some "s" }

/-- The processor state after 51 ingests for one session. -/
def stateAfter51 : DataProcessor.ProcState :=
  (List.range 51).foldl (fun st _ => (DataProcessor.processContext 1000 1 rawOnlySession st).2)
    {}

/-- Folding a sequence of ingest operations (each with its own clock readings
and raw event) from the empty processor state. -/
def runIngests (ops : List (Int × Int × RawDebugContext)) : DataProcessor.ProcState :=
  ops.foldl (fun st op => (DataProcessor.processContext op.1 op.2.1 op.2.2 st).2) {}

/-- A stack frame inside `node_modules` and one in user source, for the
stack-ordering scenario. -/
def libFrame : StackFrame :=
  { name := "libFn", file := "proj/node_modules/lib.js", line := 1, column := 1, scope := "" }

def appFrame : StackFrame :=
  { name := "appFn", file := "proj/src/app.ts", line := 2, column := 1, scope := "" }

/-- Scope rank of the canonical variable ordering: `local`, `closure`,
`global` groups in that order. -/
def scopeRank (scope : String) : Nat :=
  if scope = "local" then 0 else if scope = "closure" then 1 else 2

/-- The canonical output order of `processVariables`: strictly increasing
scope rank, or equal scopes in name order. -/
def scopeNameOrder (u v : VariableSnapshot) : Prop :=
  scopeRank u.scope < scopeRank v.scope ∨ (u.scope = v.scope ∧ u.name ≤ v.name)

/-- A variable whose scope is one of the three recognized groups. -/
def keptScope (v : VariableSnapshot) : Bool :=
  v.scope = "local" || v.scope = "closure" || v.scope = "global"

/-- A fresh-enough context and two stale ones for the retention scenario. -/
def freshCtx : DebugContext :=
  { sessionId := "s1", timestamp := 100, eventType := .breakpoint,
    sourceLocation := { file := "f", line := 0, column := 0 },
    stackTrace := [], «variables» := [], consoleOutput := [], networkActivity := [] }

def staleCtx (sid : String) : DebugContext :=
  { sessionId := sid, timestamp := 0, eventType := .breakpoint,
    sourceLocation := { file := "f", line := 0, column := 0 },
    stackTrace := [], «variables» := [], consoleOutput := [], networkActivity := [] }

/-- Three sessions: one with three fresh contexts, two with only stale data.
With `maxSize = 2` the first cleanup computes a zero per-session budget for
`s1` (`2 / 3 = 0`, and `slice(-0)` keeps everything) and deletes the other
two sessions; a second cleanup sees a single live session and a budget of 2. -/
def retentionState : DataProcessor.ProcState where
  contextHistory :=
    [("s1", [freshCtx, freshCtx, freshCtx]), ("s2", [staleCtx "s2"]), ("s3", [staleCtx "s3"])]
  aggregationStats := []

def retentionPolicyC8 : RetentionPolicy := { maxAge := 100, maxSize := 2 }

/-- The C3 scenario's request/response pair. -/
def reqC3 : MiddlewareRegistry.NetworkRequest :=
  { method := "POST", url := "https://api.example.com/users",
    headers := [("Authorization", "Bearer abc")] }

def respC3 : MiddlewareRegistry.NetworkResponse :=
  { status := 200, headers := [], duration := 5 }

def recordC3 : NetworkData :=
  MiddlewareRegistry.collectNetworkData MiddlewareRegistry.getDefaultConfig 99 reqC3 respC3

/-- Privacy settings with a 5-character value cap (all other options at their
defaults), and two variables with equal 5-character prefixes but different
lengths, for the truncation-marker claim. -/
def settingsCap5 : DataProcessor.PrivacySettings :=
  { DataProcessor.getPrivacySettings {} with maxVariableValueLength := 5 }

def varLen6 : VariableSnapshot :=
  { name := "x", value := .vStr "abcdef", type := "string", scope := "local", isRedacted := false }

def varLen7 : VariableSnapshot :=
  { name := "x", value := .vStr "abcdefg", type := "string", scope := "local", isRedacted := false }

/-- An aggregation-stats entry whose `processingTime` is a small per-event
duration, together with a realistic wall clock and retention policy. -/
def statSmall : DataProcessor.DataAggregationStats :=
  { totalVariables := 3, redactedVariables := 1, stackFrameCount := 2,
    consoleEntryCount := 0, networkRequestCount := 0, processingTime := 5 }

def statsState : DataProcessor.ProcState := { contextHistory := [], aggregationStats := [statSmall] }

/-! ### Claim theorems -/

/-- C6: `shouldEscalate(context, highPriority)` is true exactly for
exception events or high priority, breakpoints with at least one variable or
an attached exception, and steps with an attached exception; false in every
other case. -/
theorem c6_shouldEscalate_matches_spec (context : DebugContext) (highPriority : Bool) :
    DebugSessionManager.shouldAnalyzeContext context highPriority =
      specShouldEscalate context highPriority := by
  unfold DebugSessionManager.shouldAnalyzeContext specShouldEscalate
  cases context.eventType <;> cases highPriority <;>
    cases hx : context.exception.isSome <;>
      simp [hx] <;> omega

/-- C3 counterexample: on the scenario's network pair — POST
`https://api.example.com/users` with `Authorization: Bearer abc` — the
collected record's category is `general`, not `api` as claimed: the URL does
not contain the `/api/` path segment the categorizer tests for. -/
theorem c3_category_counterexample :
    recordC3.category = some "general" ∧ some "general" ≠ some "api" := by
  constructor
  · rfl
  · decide

/-- C3 amended: the scenario's record redacts the `Authorization` header,
derives domain `api.example.com` and external status, and is categorized
`general` (the categorizer's `/api/` rule does not fire on this URL). -/
theorem c3_record_fields :
    recordC3.headers = [("Authorization", "[REDACTED]")] ∧
      recordC3.domain = some "api.example.com" ∧
        recordC3.isExternal = some true ∧
          recordC3.category = some "general" := by
  refine ⟨rfl, rfl, rfl, rfl⟩

/-- C4 counterexample: with every privacy option missing, the pipeline's
settings differ from the spec's documented defaults — `redactFileContents`
falls back to `false`, not `true`. -/
theorem c4_defaults_counterexample :
    DataProcessor.getPrivacySettings {} ≠ specDefaultPrivacySettings ∧
      (DataProcessor.getPrivacySettings {}).redactFileContents = false := by
  constructor
  · decide
  · rfl

/-- C4 amended: when every privacy option is missing, the pipeline falls
back to `redactSensitiveVariables = true`, `redactFileContents = false`,
`redactNetworkData = true`, caps 1000/20/50, and medium sensitivity. -/
theorem c4_missing_options_fall_back (config : DataProcessor.PrivacyConfig)
    (h1 : config.redactSensitiveVariables = none)
    (h2 : config.redactFileContents = none)
    (h3 : config.redactNetworkData = none)
    (h4 : config.maxVariableValueLength = none)
    (h5 : config.maxStackFrames = none)
    (h6 : config.maxConsoleEntries = none)
    (h7 : config.sensitivityLevel = none) :
    DataProcessor.getPrivacySettings config =
      { redactSensitiveVariables := true, redactFileContents := false,
        redactNetworkData := true, maxVariableValueLength := 1000,
        maxStackFrames := 20, maxConsoleEntries := 50, sensitivityLevel := "medium" } := by
  simp [DataProcessor.getPrivacySettings, h1, h2, h3, h4, h5, h6, h7]

/-- C4 witness: the all-missing configuration concretely yields the code's
defaults. -/
theorem c4_missing_options_witness :
    DataProcessor.getPrivacySettings {} =
      { redactSensitiveVariables := true, redactFileContents := false,
        redactNetworkData := true, maxVariableValueLength := 1000,
        maxStackFrames := 20, maxConsoleEntries := 50, sensitivityLevel := "medium" } :=
  c4_missing_options_fall_back {} rfl rfl rfl rfl rfl rfl rfl

/-- C5 counterexample: two variables with different original lengths (6 and
7) but a common 5-character prefix produce the same filtered output under a
5-character cap, so the truncation marker cannot record the original length
(the code appends a constant `'... [TRUNCATED]'`). -/
theorem c5_marker_counterexample :
    DataProcessor.filterVariables settingsCap5 [varLen6] =
      DataProcessor.filterVariables settingsCap5 [varLen7] ∧
      ("abcdef" : String).data.length ≠ ("abcdefg" : String).data.length := by
  constructor
  · rfl
  · decide

/-- C9: whenever the retention policy's `maxAge` is below `now` minus every
recorded processing duration (true for any realistic age, since
`processingTime` is a small per-event duration), `cleanupOldData` empties
the aggregation stats: the age check subtracts `processingTime` from the
wall clock instead of comparing a capture timestamp. -/
theorem c9_stats_cleanup_empties (now : Int) (policy : RetentionPolicy)
    (st : DataProcessor.ProcState) (M : Int)
    (hM : ∀ stat ∈ st.aggregationStats, stat.processingTime ≤ M)
    (hage : policy.maxAge < now - M) :
    DataProcessor.getAggregationStats (DataProcessor.cleanupOldData now policy st) = [] := by
  simp only [DataProcessor.getAggregationStats, DataProcessor.cleanupOldData]
  rw [List.filter_eq_nil_iff]
  intro stat hmem
  have := hM stat hmem
  simp only [decide_eq_true_eq]
  omega

/-- C9 witness: a state holding one stats entry with a 5 ms processing time,
a wall clock of 1000000 and a one-minute `maxAge` concretely empty out. -/
theorem c9_stats_cleanup_witness :
    DataProcessor.getAggregationStats
        (DataProcessor.cleanupOldData 1000000 { maxAge := 60000, maxSize := 1000 } statsState) =
      [] ∧ DataProcessor.getAggregationStats statsState ≠ [] := by
  constructor
  · exact c9_stats_cleanup_empties 1000000 { maxAge := 60000, maxSize := 1000 } statsState 5
      (by decide) (by decide)
  · decide

/-- C7 (code bug): `isUserCode` disjoins three negated containment tests, so
a `node_modules` path passes as user code and `processStackTrace` leaves the
library frame ranked before the user frame; the spec's predicate (not
matching any marker) classifies it as library code. -/
theorem c7_stack_order_diverges :
    DataProcessor.processStackTrace [libFrame, appFrame] =
      [{ libFrame with scope := "external_library" }, { appFrame with scope := "user_code" }] ∧
      DataProcessor.isUserCode libFrame.file = true ∧
        specIsUserCode libFrame.file = false := by
  refine ⟨?_, rfl, rfl⟩
  rfl

/-- C8 (code bug): running `cleanupOldData` twice with the same policy, the
same clock and no intervening ingestion shrinks `s1`'s history from 3 to 2:
the first pass computes budget `2 / 3 = 0` for `s1` (and `slice(-0)` keeps
everything) while deleting the two stale sessions, so the second pass sees a
bigger per-session budget of `2 / 1 = 2` and actually truncates. -/
theorem c8_cleanup_not_idempotent :
    (DataProcessor.getContextHistory
        (DataProcessor.cleanupOldData 150 retentionPolicyC8 retentionState) "s1").length = 3 ∧
      (DataProcessor.getContextHistory
          (DataProcessor.cleanupOldData 150 retentionPolicyC8
            (DataProcessor.cleanupOldData 150 retentionPolicyC8 retentionState)) "s1").length =
        2 := by
  refine ⟨rfl, rfl⟩

/-! ### C1: history bounds -/

theorem mapGetD_length_le {β : Type} {m : List (String × List β)} {B : Nat}
    (h : ∀ e ∈ m, e.2.length ≤ B) (k : String) : (JS.mapGetD m k ([] : List β)).length ≤ B := by
  induction m with
  | nil => simp [JS.mapGetD, List.lookup]
  | cons e rest ih =>
    simp only [JS.mapGetD, List.lookup]
    by_cases hk : k = e.1
    · have : (k == e.1) = true := by simp [hk]
      rw [this]
      exact h e (List.mem_cons_self e rest)
    · have : (k == e.1) = false := by simp [hk]
      rw [this]
      exact ih (fun e' he' => h e' (List.mem_cons_of_mem e he'))

theorem mem_mapSet {β : Type} {e : String × β} {k : String} {v : β} :
    ∀ {m : List (String × β)}, e ∈ JS.mapSet k v m → e = (k, v) ∨ e ∈ m := by
  intro m
  induction m with
  | nil => intro h; simp [JS.mapSet] at h; exact Or.inl h
  | cons e' rest ih =>
    intro h
    simp only [JS.mapSet] at h
    split at h
    · rcases List.mem_cons.mp h with rfl | hm
      · exact Or.inl rfl
      · exact Or.inr (List.mem_cons_of_mem e' hm)
    · rcases List.mem_cons.mp h with he | hm
      · exact Or.inr (List.mem_cons.mpr (Or.inl he))
      · rcases ih hm with h1 | h2
        · exact Or.inl h1
        · exact Or.inr (List.mem_cons_of_mem e' h2)

theorem lookup_mapSet_self {β : Type} (k : String) (v : β) :
    ∀ m : List (String × β), (JS.mapSet k v m).lookup k = some v := by
  intro m
  induction m with
  | nil => simp [JS.mapSet, List.lookup]
  | cons e rest ih =>
    simp only [JS.mapSet]
    split
    · simp [List.lookup]
    · rename_i hne
      simp only [List.lookup]
      have : (k == e.1) = false := by
        simp only [beq_eq_false_iff_ne, ne_eq]
        intro hk; exact hne hk.symm
      rw [this]
      exact ih

theorem addToHistory_bound {m : List (String × List DebugContext)}
    (h : ∀ e ∈ m, e.2.length ≤ DataProcessor.maxHistorySize) (c : DebugContext) :
    ∀ e ∈ DataProcessor.addToHistory c m, e.2.length ≤ DataProcessor.maxHistorySize := by
  intro e he
  simp only [DataProcessor.addToHistory] at he
  rcases mem_mapSet he with rfl | hm
  · dsimp only
    have hold := mapGetD_length_le h c.sessionId
    split
    · simp only [List.length_tail, List.length_append, List.length_cons, List.length_nil]
      omega
    · rename_i hle
      simp only [Nat.not_lt, List.length_append, List.length_cons, List.length_nil] at hle ⊢
      omega
  · exact h e hm

theorem processContext_history_bound (now pt : Int) (raw : RawDebugContext)
    (st : DataProcessor.ProcState)
    (h : ∀ e ∈ st.contextHistory, e.2.length ≤ DataProcessor.maxHistorySize) :
    ∀ e ∈ (DataProcessor.processContext now pt raw st).2.contextHistory,
      e.2.length ≤ DataProcessor.maxHistorySize := by
  exact addToHistory_bound h _

set_option maxRecDepth 100000 in
/-- C1 counterexample: after 51 ingests for one session, the aggregator's
per-session history holds 51 entries — more than the claimed bound of 50
(the `DataProcessor` bound is `maxHistorySize = 100`). -/
theorem c1_fifty_bound_counterexample :
    (DataProcessor.getContextHistory stateAfter51 "s").length = 51 ∧ ¬(51 ≤ 50) := by
  constructor
  · rfl
  · decide

/-- C1 amended: after any sequence of ingests the aggregator's per-session
history holds at most 100 entries (`maxHistorySize`), the oldest entry being
shifted out on overflow; the 50-entry bound holds for the session manager's
separate per-session history. -/
theorem c1_history_bounds :
    (∀ (ops : List (Int × Int × RawDebugContext)) (sid : String),
      (DataProcessor.getContextHistory (runIngests ops) sid).length ≤ 100) ∧
      (∀ (c : DebugContext) (m : List (String × List DebugContext)),
        (JS.mapGetD m c.sessionId []).length = DataProcessor.maxHistorySize →
        JS.mapGetD (DataProcessor.addToHistory c m) c.sessionId [] =
          (JS.mapGetD m c.sessionId []).tail ++ [c]) ∧
        (∀ (hist : List DebugContext) (c : DebugContext),
          (DebugSessionManager.pushSessionHistory hist c).length ≤ 50) := by
  refine ⟨?_, ?_, ?_⟩
  · intro ops sid
    have key : ∀ (st : DataProcessor.ProcState),
        (∀ e ∈ st.contextHistory, e.2.length ≤ DataProcessor.maxHistorySize) →
        ∀ e ∈ (ops.foldl (fun st op =>
            (DataProcessor.processContext op.1 op.2.1 op.2.2 st).2) st).contextHistory,
          e.2.length ≤ DataProcessor.maxHistorySize := by
      induction ops with
      | nil => intro st h; simpa using h
      | cons op rest ih =>
        intro st h
        simp only [List.foldl_cons]
        exact ih _ (processContext_history_bound op.1 op.2.1 op.2.2 st h)
    have hb := key {} (by simp [DataProcessor.ProcState])
    exact mapGetD_length_le hb sid
  · intro c m hlen
    have hgt : ((List.lookup c.sessionId m).getD [] ++ [c]).length >
        DataProcessor.maxHistorySize := by
      simp only [JS.mapGetD] at hlen
      simp only [List.length_append, List.length_cons, List.length_nil]
      omega
    have hne : (List.lookup c.sessionId m).getD ([] : List DebugContext) ≠ [] := by
      intro hnil
      simp only [JS.mapGetD] at hlen
      rw [hnil] at hlen
      simp [DataProcessor.maxHistorySize] at hlen
    obtain ⟨x, xs, hx⟩ := List.exists_cons_of_ne_nil hne
    simp only [DataProcessor.addToHistory, JS.mapGetD, lookup_mapSet_self, Option.getD_some]
    rw [if_pos hgt, hx]
    simp
  · intro hist c
    simp only [DebugSessionManager.pushSessionHistory]
    split
    · rename_i hgt
      have := JS.jsSliceNeg_length_le 50 (by decide) (hist ++ [c])
      omega
    · rename_i hle
      simp only [Nat.not_lt] at hle
      omega

/-! ### C10: variable regrouping -/

theorem filters_scope_perm (vars : List VariableSnapshot) :
    (vars.filter (fun v => v.scope = "local") ++
        (vars.filter (fun v => v.scope = "closure") ++
          vars.filter (fun v => v.scope = "global"))).Perm (vars.filter keptScope) := by
  induction vars with
  | nil => simp
  | cons x xs ih =>
    by_cases hl : x.scope = "local"
    · have hc : ¬ x.scope = "closure" := by rw [hl]; decide
      have hg : ¬ x.scope = "global" := by rw [hl]; decide
      have hk : keptScope x = true := by simp [keptScope, hl]
      simp only [List.filter_cons, hk, if_true,
        show (decide (x.scope = "closure")) = false by simp [hc],
        show (decide (x.scope = "global")) = false by simp [hg],
        show (decide (x.scope = "local")) = true by simp [hl],
        Bool.false_eq_true, if_false, List.cons_append]
      exact ih.cons x
    · by_cases hc : x.scope = "closure"
      · have hg : ¬ x.scope = "global" := by rw [hc]; decide
        have hk : keptScope x = true := by simp [keptScope, hc]
        simp only [List.filter_cons, hk, if_true,
          show (decide (x.scope = "closure")) = true by simp [hc],
          show (decide (x.scope = "global")) = false by simp [hg],
          show (decide (x.scope = "local")) = false by simp [hl],
          Bool.false_eq_true, if_false, List.cons_append]
        exact List.perm_middle.trans (ih.cons x)
      · by_cases hg : x.scope = "global"
        · have hk : keptScope x = true := by simp [keptScope, hg]
          simp only [List.filter_cons, hk, if_true,
            show (decide (x.scope = "closure")) = false by simp [hc],
            show (decide (x.scope = "global")) = true by simp [hg],
            show (decide (x.scope = "local")) = false by simp [hl],
            Bool.false_eq_true, if_false, List.cons_append]
          refine List.Perm.trans ?_ (ih.cons x)
          exact List.Perm.trans ((List.Perm.refl _).append List.perm_middle) List.perm_middle
        · have hk : keptScope x = false := by simp [keptScope, hl, hc, hg]
          simp only [List.filter_cons, hk,
            show (decide (x.scope = "closure")) = false by simp [hc],
            show (decide (x.scope = "global")) = false by simp [hg],
            show (decide (x.scope = "local")) = false by simp [hl],
            Bool.false_eq_true, if_false]
          exact ih

theorem enhanceVariable_scope (v : VariableSnapshot) :
    (DataProcessor.enhanceVariable v).scope = v.scope := rfl

theorem enhanceVariable_name (v : VariableSnapshot) :
    (DataProcessor.enhanceVariable v).name = v.name := rfl

theorem nameLe_total (a b : VariableSnapshot) :
    DataProcessor.nameLe a b || DataProcessor.nameLe b a := by
  simp only [DataProcessor.nameLe, Bool.or_eq_true, decide_eq_true_eq]
  exact le_total a.name b.name

theorem nameLe_trans (a b c : VariableSnapshot) (hab : DataProcessor.nameLe a b)
    (hbc : DataProcessor.nameLe b c) : DataProcessor.nameLe a c := by
  simp only [DataProcessor.nameLe, decide_eq_true_eq] at hab hbc ⊢
  exact le_trans hab hbc

theorem mem_scope_block {vars : List VariableSnapshot} {s : String} {v : VariableSnapshot}
    (h : v ∈ (stableSort DataProcessor.nameLe
        (vars.filter (fun u => u.scope = s))).map DataProcessor.enhanceVariable) :
    v.scope = s := by
  obtain ⟨u, hu, rfl⟩ := List.mem_map.mp h
  have hu2 : u ∈ vars.filter (fun u => u.scope = s) :=
    (stableSort_perm DataProcessor.nameLe (vars.filter (fun u => u.scope = s))).mem_iff.mp hu
  have hu3 := List.of_mem_filter hu2
  rw [enhanceVariable_scope]
  simpa using hu3

theorem scope_block_pairwise (vars : List VariableSnapshot) (s : String) :
    ((stableSort DataProcessor.nameLe
        (vars.filter (fun u => u.scope = s))).map DataProcessor.enhanceVariable).Pairwise
      scopeNameOrder := by
  rw [List.pairwise_map]
  have hsorted := stableSort_pairwise DataProcessor.nameLe nameLe_total nameLe_trans
    (vars.filter (fun u => u.scope = s))
  refine hsorted.imp_of_mem ?_
  intro a b ha hb hab
  have ha2 : a ∈ vars.filter (fun u => u.scope = s) :=
    (stableSort_perm DataProcessor.nameLe (vars.filter (fun u => u.scope = s))).mem_iff.mp ha
  have hb2 : b ∈ vars.filter (fun u => u.scope = s) :=
    (stableSort_perm DataProcessor.nameLe (vars.filter (fun u => u.scope = s))).mem_iff.mp hb
  have hsa : a.scope = s := by have h := List.of_mem_filter ha2; simpa using h
  have hsb : b.scope = s := by have h := List.of_mem_filter hb2; simpa using h
  right
  constructor
  · rw [enhanceVariable_scope, enhanceVariable_scope, hsa, hsb]
  · rw [enhanceVariable_name, enhanceVariable_name]
    simpa [DataProcessor.nameLe] using hab

/-- C10: `processVariables` returns exactly the annotated input variables
whose scope is `local`, `closure` or `global` (a permutation of the filtered
annotated input — variables with any other scope are silently dropped),
ordered by scope group (`local` before `closure` before `global`) and by
name within each group. -/
theorem c10_processVariables_spec (vars : List VariableSnapshot) :
    (DataProcessor.processVariables vars).Perm
        ((vars.filter keptScope).map DataProcessor.enhanceVariable) ∧
      (∀ v ∈ DataProcessor.processVariables vars, keptScope v = true) ∧
        (DataProcessor.processVariables vars).Pairwise scopeNameOrder := by
  have hperm : (DataProcessor.processVariables vars).Perm
      ((vars.filter keptScope).map DataProcessor.enhanceVariable) := by
    unfold DataProcessor.processVariables
    rw [List.append_assoc]
    have h1 := (stableSort_perm DataProcessor.nameLe
      (vars.filter (fun v => v.scope = "local"))).map DataProcessor.enhanceVariable
    have h2 := (stableSort_perm DataProcessor.nameLe
      (vars.filter (fun v => v.scope = "closure"))).map DataProcessor.enhanceVariable
    have h3 := (stableSort_perm DataProcessor.nameLe
      (vars.filter (fun v => v.scope = "global"))).map DataProcessor.enhanceVariable
    refine (h1.append (h2.append h3)).trans ?_
    rw [← List.map_append, ← List.map_append]
    exact (filters_scope_perm vars).map DataProcessor.enhanceVariable
  refine ⟨hperm, ?_, ?_⟩
  · intro v hv
    have hv2 := hperm.mem_iff.mp hv
    obtain ⟨u, hu, rfl⟩ := List.mem_map.mp hv2
    have hk := List.of_mem_filter hu
    have : keptScope u = true := hk
    simpa [keptScope, enhanceVariable_scope] using this
  · unfold DataProcessor.processVariables
    rw [List.append_assoc, List.pairwise_append]
    refine ⟨scope_block_pairwise vars "local", ?_, ?_⟩
    · rw [List.pairwise_append]
      refine ⟨scope_block_pairwise vars "closure", scope_block_pairwise vars "global", ?_⟩
      intro a ha b hb
      have hsa := mem_scope_block ha
      have hsb := mem_scope_block hb
      left
      rw [hsa, hsb]
      simp [scopeRank]
    · intro a ha b hb
      have hsa := mem_scope_block ha
      rcases List.mem_append.mp hb with hb' | hb'
      · have hsb := mem_scope_block hb'
        left
        rw [hsa, hsb]
        simp [scopeRank]
      · have hsb := mem_scope_block hb'
        left
        rw [hsa, hsb]
        simp [scopeRank]

/-! ### C5: truncation marker shape and redaction precedence -/

/-- C5 amended: a sensitive value becomes the constant redaction marker
first and (for a cap of at least the marker's 10 characters) is not
additionally truncated; a non-sensitive over-long string value becomes its
first cap characters followed by the constant `'... [TRUNCATED]'` marker —
the original length is not recorded — and its `isRedacted` flag is
untouched. -/
theorem c5_truncation_amended :
    (∀ (settings : DataProcessor.PrivacySettings) (v : VariableSnapshot),
      DataProcessor.isSensitiveVariable v.name v.value settings.sensitivityLevel = true →
      10 ≤ settings.maxVariableValueLength →
      (DataProcessor.filterOneVariable settings v).value = JSValue.vStr "[REDACTED]" ∧
        (DataProcessor.filterOneVariable settings v).isRedacted = true) ∧
      (∀ (settings : DataProcessor.PrivacySettings) (v : VariableSnapshot) (s : String),
        DataProcessor.isSensitiveVariable v.name v.value settings.sensitivityLevel = false →
        v.value = JSValue.vStr s →
        s.data.length > settings.maxVariableValueLength →
        (DataProcessor.filterOneVariable settings v).value =
          JSValue.vStr (JS.jsSubstringTo settings.maxVariableValueLength s ++ "... [TRUNCATED]") ∧
          (DataProcessor.filterOneVariable settings v).isRedacted = v.isRedacted) := by
  constructor
  · intro settings v hsens hcap
    have hlt : ¬ (("[REDACTED]" : String).data.length > settings.maxVariableValueLength) := by
      have h10 : ("[REDACTED]" : String).data.length = 10 := rfl
      omega
    simp only [DataProcessor.filterOneVariable, hsens, eq_self_iff_true, if_true, if_neg hlt]
    simp [DataProcessor.isComplexValue]
  · intro settings v s hsens hval hlong
    rw [hval] at hsens
    simp only [DataProcessor.filterOneVariable, hsens, Bool.false_eq_true, if_false, hval,
      if_pos hlong]
    simp [DataProcessor.isComplexValue]

/-- C5 witness: a non-sensitive 8-character value under a 5-character cap
concretely becomes `abcde... [TRUNCATED]`, and a sensitive variable under
the default cap concretely becomes the redaction marker. -/
theorem c5_truncation_witness :
    (DataProcessor.filterOneVariable (DataProcessor.getPrivacySettings {})
        { name := "password", value := .vStr "hunter2", type := "string", scope := "local",
          isRedacted := false }).value = JSValue.vStr "[REDACTED]" ∧
      (DataProcessor.filterOneVariable settingsCap5
          { name := "x", value := .vStr "abcdefgh", type := "string", scope := "local",
            isRedacted := false }).value = JSValue.vStr "abcde... [TRUNCATED]" := by
  constructor
  · exact (c5_truncation_amended.1 (DataProcessor.getPrivacySettings {})
      { name := "password", value := .vStr "hunter2", type := "string", scope := "local",
        isRedacted := false } (by decide) (by decide)).1
  · have h := (c5_truncation_amended.2 settingsCap5
      { name := "x", value := .vStr "abcdefgh", type := "string", scope := "local",
        isRedacted := false } "abcdefgh" (by decide) rfl (by decide)).1
    exact h

/-! ### C2 groundwork: substring containment -/

theorem containsSub_iff {l w : List Char} : containsSub l w = true ↔ w <:+: l := by
  simp only [containsSub, List.any_eq_true, List.mem_tails, List.isPrefixOf_iff_prefix]
  rw [List.infix_iff_prefix_suffix]
  constructor
  · rintro ⟨t, ht, hw⟩
    exact ⟨t, hw, ht⟩
  · rintro ⟨t, hw, ht⟩
    exact ⟨t, ht, hw⟩

theorem containsSub_false_iff {l w : List Char} : containsSub l w = false ↔ ¬ w <:+: l := by
  rw [← containsSub_iff]
  cases containsSub l w <;> simp

/-- Splitting an infix of a concatenation: it lies in the left part, in the
right part, or straddles the boundary. -/
theorem infix_append_split {w a b : List Char} (h : w <:+: a ++ b) :
    w <:+: a ∨ w <:+: b ∨
      ∃ w₁ w₂, w = w₁ ++ w₂ ∧ w₂ ≠ [] ∧ w₁ <:+ a ∧ w₂ <+: b := by
  obtain ⟨s, t, hst⟩ := h
  have hst' : s ++ (w ++ t) = a ++ b := by rw [← hst]; simp [List.append_assoc]
  rcases List.append_eq_append_iff.mp hst' with ⟨a', ha, hb⟩ | ⟨c', hs, hb⟩
  · rcases List.append_eq_append_iff.mp hb with ⟨x, hax, htx⟩ | ⟨y, hw, hby⟩
    · left
      exact ⟨s, x, by rw [ha, hax]; simp [List.append_assoc]⟩
    · by_cases hy : y = []
      · left
        subst hy
        rw [List.append_nil] at hw
        exact ⟨s, [], by rw [ha, ← hw]; simp⟩
      · right; right
        exact ⟨a', y, hw, hy, ⟨s, ha.symm⟩, ⟨t, hby.symm⟩⟩
  · right; left
    exact ⟨c', t, by rw [hb]; simp [List.append_assoc]⟩

theorem not_infix_append_parts {w a b : List Char} (ha : ¬ w <:+: a) (hb : ¬ w <:+: b)
    (hhead : ∀ c, b.head? = some c → c ∉ w) : ¬ w <:+: a ++ b := by
  intro h
  rcases infix_append_split h with h1 | h2 | ⟨w₁, w₂, hw, hw2, hsuf, hpre⟩
  · exact ha h1
  · exact hb h2
  · obtain ⟨t, hbt⟩ := hpre
    cases w₂ with
    | nil => exact hw2 rfl
    | cons c rest =>
      have hc : b.head? = some c := by rw [← hbt]; rfl
      refine hhead c hc ?_
      rw [hw]
      exact List.mem_append_right w₁ (List.mem_cons_self c rest)

/-- Appending a marker suffix to a truncated prefix of `s` introduces no new
case-insensitive word occurrence, as long as the word avoids the suffix and
the suffix's first character. -/
theorem includesCI_take_append_false {w s : String} {cap : Nat} {sfx : List Char}
    (hs : includesCI s w = false)
    (hsfx : ¬ w.data <:+: lowerL sfx)
    (hhead : ∀ c, (lowerL sfx).head? = some c → c ∉ w.data) :
    includesCI ⟨s.data.take cap ++ sfx⟩ w = false := by
  simp only [includesCI] at hs ⊢
  rw [containsSub_false_iff] at hs ⊢
  show ¬ w.data <:+: lowerL (s.data.take cap ++ sfx)
  have hsplit : lowerL (s.data.take cap ++ sfx) = (lowerL s.data).take cap ++ lowerL sfx := by
    simp [lowerL, List.map_append, List.map_take]
  rw [hsplit]
  refine not_infix_append_parts ?_ hsfx hhead
  intro h1
  exact hs (h1.trans (List.take_prefix cap (lowerL s.data)).isInfix)

theorem getSensitivePatterns_subset {level : String} {p : Pat}
    (hp : p ∈ DataProcessor.getSensitivePatterns level) : p ∈ DataProcessor.highPatterns := by
  unfold DataProcessor.getSensitivePatterns at hp
  have hmh : DataProcessor.mediumPatterns ⊆ DataProcessor.highPatterns := by
    intro q hq
    unfold DataProcessor.highPatterns
    exact List.mem_append_left _ hq
  have hbm : DataProcessor.basePatterns ⊆ DataProcessor.mediumPatterns := by
    intro q hq
    unfold DataProcessor.mediumPatterns
    exact List.mem_append_left _ hq
  split_ifs at hp
  · exact hp
  · exact hmh hp
  · exact hmh (hbm hp)
  · exact hmh hp

theorem patTest_truncate_false {p : Pat} (hp : p ∈ DataProcessor.highPatterns) {s : String}
    {cap : Nat} (h : p.test s = false) :
    p.test ⟨s.data.take cap ++ "... [TRUNCATED]".data⟩ = false := by
  fin_cases hp <;>
    simp only [Pat.test, Bool.or_eq_false_iff] at h ⊢ <;>
    [skip; skip; skip; skip; skip; skip;
     exact ⟨⟨includesCI_take_append_false h.1.1 (by decide) (by decide),
            includesCI_take_append_false h.1.2 (by decide) (by decide)⟩,
            includesCI_take_append_false h.2 (by decide) (by decide)⟩;
     skip; skip; skip; skip; skip; skip; skip; skip; skip] <;>
    exact includesCI_take_append_false h (by decide) (by decide)

theorem anyTest_truncate_false {level : String} {s : String} {cap : Nat}
    (h : (DataProcessor.getSensitivePatterns level).any (fun p => p.test s) = false) :
    (DataProcessor.getSensitivePatterns level).any
      (fun p => p.test ⟨s.data.take cap ++ "... [TRUNCATED]".data⟩) = false := by
  rw [List.any_eq_false] at h ⊢
  intro p hp
  have hres := @patTest_truncate_false p (getSensitivePatterns_subset hp) s cap
    (by simpa using h p hp)
  simp [hres]

theorem anyTest_redacted_false (level : String) :
    (DataProcessor.getSensitivePatterns level).any (fun p => p.test "[REDACTED]") = false := by
  unfold DataProcessor.getSensitivePatterns
  split_ifs <;> decide

/-! ### C2: idempotence of the header, body and complex-value sanitizers -/

theorem sanitizeHeaders_idem (headers : List (String × String)) :
    DataProcessor.sanitizeHeaders (DataProcessor.sanitizeHeaders headers) =
      DataProcessor.sanitizeHeaders headers := by
  induction headers with
  | nil => rfl
  | cons kv rest ih =>
    simp only [DataProcessor.sanitizeHeaders, List.map_cons] at ih ⊢
    rw [ih]
    by_cases h : DataProcessor.sensitiveHeaderTest kv.1 = true
    · simp [h]
    · simp [h]

theorem typeofIsObject_sanitizeComplexValue (settings : DataProcessor.PrivacySettings)
    (v : JSValue) :
    JS.typeofIsObject (DataProcessor.sanitizeComplexValue settings v) = JS.typeofIsObject v := by
  cases v <;> rfl

theorem sanitizeArrItems_take (settings : DataProcessor.PrivacySettings) (n : Nat) :
    ∀ xs : List JSValue, DataProcessor.sanitizeArrItems settings (xs.take n) =
      (DataProcessor.sanitizeArrItems settings xs).take n := by
  intro xs
  induction xs generalizing n with
  | nil => simp [DataProcessor.sanitizeArrItems]
  | cons x rest ih =>
    cases n with
    | zero => simp [DataProcessor.sanitizeArrItems]
    | succ m =>
      simp only [List.take_succ_cons, DataProcessor.sanitizeArrItems, ih]

theorem sanitizeObjFields_take (settings : DataProcessor.PrivacySettings) (n : Nat) :
    ∀ l : List (String × JSValue), DataProcessor.sanitizeObjFields settings (l.take n) =
      (DataProcessor.sanitizeObjFields settings l).take n := by
  intro l
  induction l generalizing n with
  | nil => simp [DataProcessor.sanitizeObjFields]
  | cons kv rest ih =>
    cases n with
    | zero => simp [DataProcessor.sanitizeObjFields]
    | succ m =>
      obtain ⟨k, v⟩ := kv
      simp only [List.take_succ_cons, DataProcessor.sanitizeObjFields, ih]

theorem sanitizeObjFields_idem (settings : DataProcessor.PrivacySettings) :
    ∀ l : List (String × JSValue), DataProcessor.sanitizeObjFields settings
      (DataProcessor.sanitizeObjFields settings l) = DataProcessor.sanitizeObjFields settings l := by
  intro l
  induction l with
  | nil => rfl
  | cons kv rest ih =>
    obtain ⟨k, v⟩ := kv
    by_cases h : DataProcessor.isSensitiveVariable k v settings.sensitivityLevel = true
    · have e1 : DataProcessor.sanitizeObjFields settings ((k, v) :: rest) =
          (k, JSValue.vStr "[REDACTED]") :: DataProcessor.sanitizeObjFields settings rest := by
        simp [DataProcessor.sanitizeObjFields, h]
      rw [e1]
      simp only [DataProcessor.sanitizeObjFields, ih]
      split <;> rfl
    · have e1 : DataProcessor.sanitizeObjFields settings ((k, v) :: rest) =
          (k, v) :: DataProcessor.sanitizeObjFields settings rest := by
        simp [DataProcessor.sanitizeObjFields, h]
      rw [e1]
      simp only [DataProcessor.sanitizeObjFields, ih]
      simp [h]

mutual

theorem sanitizeComplexValue_idem (settings : DataProcessor.PrivacySettings) :
    (v : JSValue) → DataProcessor.sanitizeComplexValue settings
      (DataProcessor.sanitizeComplexValue settings v) =
        DataProcessor.sanitizeComplexValue settings v
  | .vNull => rfl
  | .vUndef => rfl
  | .vBool _ => rfl
  | .vNum _ => rfl
  | .vStr _ => rfl
  | .vArr xs => by
    show DataProcessor.sanitizeComplexValue settings
        (.vArr ((DataProcessor.sanitizeArrItems settings xs).take 10)) = _
    simp only [DataProcessor.sanitizeComplexValue, JSValue.vArr.injEq]
    rw [sanitizeArrItems_take, List.take_take, sanitizeArrItems_idem settings xs]
    simp
  | .vObj fields => by
    show DataProcessor.sanitizeComplexValue settings
        (.vObj ((DataProcessor.sanitizeObjFields settings fields).take 20)) = _
    simp only [DataProcessor.sanitizeComplexValue, JSValue.vObj.injEq]
    rw [sanitizeObjFields_take, List.take_take, sanitizeObjFields_idem settings fields]
    simp

theorem sanitizeArrItems_idem (settings : DataProcessor.PrivacySettings) :
    (xs : List JSValue) → DataProcessor.sanitizeArrItems settings
      (DataProcessor.sanitizeArrItems settings xs) = DataProcessor.sanitizeArrItems settings xs
  | [] => rfl
  | x :: rest => by
    simp only [DataProcessor.sanitizeArrItems, sanitizeArrItems_idem settings rest]
    by_cases h : JS.typeofIsObject x = true
    · simp only [h, if_true, typeofIsObject_sanitizeComplexValue, h,
        sanitizeComplexValue_idem settings x]
    · simp only [h, Bool.false_eq_true, if_false, if_neg h]

end

/-- Pointwise form of the request-body member redaction (the lambda inside
`sanitizeRequestBody`'s `Object.entries` map). -/
def mRedact (kv : String × JSValue) : String × JSValue :=
  if DataProcessor.isSensitiveVariable kv.1 kv.2 "medium" then (kv.1, JSValue.vStr "[REDACTED]")
  else kv

/-- Pointwise form of the response-body token spread `\x7b ...body, token: '[REDACTED]' \x7d`. -/
def tRedact (kv : String × JSValue) : String × JSValue :=
  if kv.1 = "token" then (kv.1, JSValue.vStr "[REDACTED]") else kv

theorem mRedact_idem (kv : String × JSValue) : mRedact (mRedact kv) = mRedact kv := by
  by_cases h : DataProcessor.isSensitiveVariable kv.1 kv.2 "medium" = true
  · have h1 : mRedact kv = (kv.1, JSValue.vStr "[REDACTED]") := by simp [mRedact, h]
    rw [h1]
    unfold mRedact
    split <;> rfl
  · have h1 : mRedact kv = kv := by simp [mRedact, h]
    rw [h1, h1]

theorem tRedact_idem (kv : String × JSValue) : tRedact (tRedact kv) = tRedact kv := by
  by_cases h : kv.1 = "token"
  · have h1 : tRedact kv = (kv.1, JSValue.vStr "[REDACTED]") := by simp [tRedact, h]
    rw [h1]
    simp [tRedact, h]
  · have h1 : tRedact kv = kv := by simp [tRedact, h]
    rw [h1, h1]

theorem map_mRedact_idem (l : List (String × JSValue)) :
    (l.map mRedact).map mRedact = l.map mRedact := by
  rw [List.map_map]
  exact List.map_congr_left fun a _ => mRedact_idem a

theorem map_tRedact_idem (l : List (String × JSValue)) :
    (l.map tRedact).map tRedact = l.map tRedact := by
  rw [List.map_map]
  exact List.map_congr_left fun a _ => tRedact_idem a

theorem sanitizeRequestBody_idem (body : JSValue) :
    DataProcessor.sanitizeRequestBody (DataProcessor.sanitizeRequestBody body) =
      DataProcessor.sanitizeRequestBody body := by
  have e2 : ∀ L : List (String × JSValue),
      DataProcessor.sanitizeRequestBody (.vObj L) = .vObj (L.map mRedact) := fun _ => rfl
  cases body with
  | vNull => rfl
  | vUndef => rfl
  | vBool b => cases b <;> rfl
  | vNum n =>
    have e : DataProcessor.sanitizeRequestBody (.vNum n) = .vNum n := by
      unfold DataProcessor.sanitizeRequestBody
      split <;> rfl
    rw [e, e]
  | vStr s =>
    have e : DataProcessor.sanitizeRequestBody (.vStr s) = .vStr s := by
      unfold DataProcessor.sanitizeRequestBody
      split <;> rfl
    rw [e, e]
  | vArr xs =>
    have e1 : DataProcessor.sanitizeRequestBody (.vArr xs) =
        .vObj ((xs.enum.map (fun ix => ((toString ix.1 : String), ix.2))).map mRedact) := by
      rw [List.map_map]
      rfl
    rw [e1, e2, map_mRedact_idem]
  | vObj fields =>
    rw [e2, e2, map_mRedact_idem]

theorem lookup_map_tRedact (l : List (String × JSValue)) :
    (l.map tRedact).lookup "token" =
      (l.lookup "token").map (fun _ => JSValue.vStr "[REDACTED]") := by
  induction l with
  | nil => rfl
  | cons kv rest ih =>
    obtain ⟨k, v⟩ := kv
    by_cases h : k = "token"
    · subst h
      simp [tRedact, List.lookup]
    · have e : tRedact (k, v) = (k, v) := by simp [tRedact, h]
      have hb : ("token" == k) = false := beq_eq_false_iff_ne.mpr fun hh => h hh.symm
      rw [List.map_cons, e]
      simp only [List.lookup, hb, ih]

theorem sanitizeResponseBody_idem (body : JSValue) :
    DataProcessor.sanitizeResponseBody (DataProcessor.sanitizeResponseBody body) =
      DataProcessor.sanitizeResponseBody body := by
  cases body with
  | vNull => rfl
  | vUndef => rfl
  | vBool b => cases b <;> rfl
  | vNum n =>
    have e : DataProcessor.sanitizeResponseBody (.vNum n) = .vNum n := by
      unfold DataProcessor.sanitizeResponseBody
      split <;> rfl
    rw [e, e]
  | vStr s =>
    have e : DataProcessor.sanitizeResponseBody (.vStr s) = .vStr s := by
      unfold DataProcessor.sanitizeResponseBody
      split <;> rfl
    rw [e, e]
  | vArr xs => rfl
  | vObj fields =>
    have e0 : ∀ L : List (String × JSValue), DataProcessor.sanitizeResponseBody (.vObj L) =
        if JS.truthy ((L.lookup "token").getD JSValue.vUndef) then .vObj (L.map tRedact)
        else .vObj L := fun _ => rfl
    by_cases ht : JS.truthy ((fields.lookup "token").getD JSValue.vUndef) = true
    · rw [e0, if_pos ht, e0]
      cases hlk : fields.lookup "token" with
      | none =>
        rw [hlk] at ht
        exact absurd ht (by simp [JS.truthy])
      | some v =>
        rw [lookup_map_tRedact, hlk]
        rw [if_pos (by simp [JS.truthy]), map_tRedact_idem]
    · rw [e0, if_neg ht, e0, if_neg ht]

theorem filterNetworkActivity_idem (settings : DataProcessor.PrivacySettings)
    (acts : List NetworkData) :
    DataProcessor.filterNetworkActivity settings (DataProcessor.filterNetworkActivity settings acts) =
      DataProcessor.filterNetworkActivity settings acts := by
  by_cases h : settings.redactNetworkData = true
  · unfold DataProcessor.filterNetworkActivity
    simp only [h, Bool.not_true, Bool.false_eq_true, if_false, List.map_map]
    refine List.map_congr_left fun a _ => ?_
    show ({ { a with
        headers := DataProcessor.sanitizeHeaders a.headers
        requestBody := DataProcessor.sanitizeRequestBody a.requestBody
        responseBody := DataProcessor.sanitizeResponseBody a.responseBody } with
      headers := DataProcessor.sanitizeHeaders (DataProcessor.sanitizeHeaders a.headers)
      requestBody := DataProcessor.sanitizeRequestBody (DataProcessor.sanitizeRequestBody a.requestBody)
      responseBody := DataProcessor.sanitizeResponseBody (DataProcessor.sanitizeResponseBody a.responseBody) } :
        NetworkData) = _
    rw [sanitizeHeaders_idem, sanitizeRequestBody_idem, sanitizeResponseBody_idem]
  · unfold DataProcessor.filterNetworkActivity
    simp [h]

/-- Unfolding of `isSensitiveVariable` at a string value. -/
theorem isSens_vStr_eq (name s lev : String) :
    DataProcessor.isSensitiveVariable name (.vStr s) lev =
      (((DataProcessor.getSensitivePatterns lev).any fun p => p.test name) ||
        ((DataProcessor.getSensitivePatterns lev).any fun p => p.test s)) := rfl

theorem filterOneVariable_idem (settings : DataProcessor.PrivacySettings) (v : VariableSnapshot) :
    DataProcessor.filterOneVariable settings (DataProcessor.filterOneVariable settings v) =
      DataProcessor.filterOneVariable settings v := by
  have h10 : ("[REDACTED]" : String).data.length = 10 := by decide
  by_cases hs : DataProcessor.isSensitiveVariable v.name v.value settings.sensitivityLevel = true
  · by_cases hcap : ("[REDACTED]" : String).data.length > settings.maxVariableValueLength
    · -- redacted, then the marker itself is truncated (cap below 10)
      have hcap' : settings.maxVariableValueLength < 10 := by rw [h10] at hcap; omega
      have hFv : DataProcessor.filterOneVariable settings v =
          { v with
            value := JSValue.vStr (JS.jsSubstringTo settings.maxVariableValueLength "[REDACTED]" ++ "... [TRUNCATED]")
            isRedacted := true } := by
        simp only [DataProcessor.filterOneVariable, DataProcessor.isComplexValue, hs, hcap,
          eq_self_iff_true, if_true, if_false, Bool.false_eq_true, Bool.false_and, Bool.true_and,
          Bool.not_false, Bool.not_true, Bool.and_false]
      rw [hFv]
      have hvalt : (DataProcessor.getSensitivePatterns settings.sensitivityLevel).any
          (fun p => p.test
            (JS.jsSubstringTo settings.maxVariableValueLength "[REDACTED]" ++ "... [TRUNCATED]")) =
            false :=
        @anyTest_truncate_false settings.sensitivityLevel "[REDACTED]"
          settings.maxVariableValueLength (anyTest_redacted_false settings.sensitivityLevel)
      have hlen2 : (("[REDACTED]" : String).data.take settings.maxVariableValueLength).length =
          settings.maxVariableValueLength := by
        rw [List.length_take, h10]
        exact Nat.min_eq_left (Nat.le_of_lt hcap')
      have htlen : (JS.jsSubstringTo settings.maxVariableValueLength "[REDACTED]" ++
          ("... [TRUNCATED]" : String)).data.length > settings.maxVariableValueLength := by
        show (("[REDACTED]" : String).data.take settings.maxVariableValueLength ++
          ("... [TRUNCATED]" : String).data).length > settings.maxVariableValueLength
        rw [List.length_append, hlen2,
          show ("... [TRUNCATED]" : String).data.length = 15 from by decide]
        omega
      have htake : (JS.jsSubstringTo settings.maxVariableValueLength "[REDACTED]" ++
          ("... [TRUNCATED]" : String)).data.take settings.maxVariableValueLength =
            ("[REDACTED]" : String).data.take settings.maxVariableValueLength := by
        show (("[REDACTED]" : String).data.take settings.maxVariableValueLength ++
          ("... [TRUNCATED]" : String).data).take settings.maxVariableValueLength = _
        exact List.take_left' hlen2
      have heq : JS.jsSubstringTo settings.maxVariableValueLength
          (JS.jsSubstringTo settings.maxVariableValueLength "[REDACTED]" ++ "... [TRUNCATED]") ++
            ("... [TRUNCATED]" : String) =
          JS.jsSubstringTo settings.maxVariableValueLength "[REDACTED]" ++ "... [TRUNCATED]" :=
        congrArg (fun l => (⟨l ++ ("... [TRUNCATED]" : String).data⟩ : String)) htake
      by_cases hn : (DataProcessor.getSensitivePatterns settings.sensitivityLevel).any
          (fun p => p.test v.name) = true
      · have hsw : DataProcessor.isSensitiveVariable v.name
            (JSValue.vStr (JS.jsSubstringTo settings.maxVariableValueLength "[REDACTED]" ++
              "... [TRUNCATED]")) settings.sensitivityLevel = true := by
          rw [isSens_vStr_eq, hn]
          rfl
        simp only [DataProcessor.filterOneVariable, DataProcessor.isComplexValue, hsw, hcap,
          eq_self_iff_true, if_true, if_false, Bool.false_eq_true, Bool.false_and, Bool.true_and,
          Bool.not_false, Bool.not_true, Bool.and_false]
      · have hn' : (DataProcessor.getSensitivePatterns settings.sensitivityLevel).any
            (fun p => p.test v.name) = false := by simpa using hn
        have hsw : DataProcessor.isSensitiveVariable v.name
            (JSValue.vStr (JS.jsSubstringTo settings.maxVariableValueLength "[REDACTED]" ++
              "... [TRUNCATED]")) settings.sensitivityLevel = false := by
          rw [isSens_vStr_eq, hn', hvalt]
          decide
        simp only [DataProcessor.filterOneVariable, DataProcessor.isComplexValue, hsw, htlen, heq,
          eq_self_iff_true, if_true, if_false, Bool.false_eq_true, Bool.false_and, Bool.true_and,
          Bool.not_false, Bool.not_true, Bool.and_false]
    · -- redacted, marker fits below the cap
      have hFv : DataProcessor.filterOneVariable settings v =
          { v with value := JSValue.vStr "[REDACTED]", isRedacted := true } := by
        simp only [DataProcessor.filterOneVariable, DataProcessor.isComplexValue, hs, hcap,
          eq_self_iff_true, if_true, if_false, Bool.false_eq_true, Bool.false_and, Bool.true_and,
          Bool.not_false, Bool.not_true, Bool.and_false]
      rw [hFv]
      by_cases hn : (DataProcessor.getSensitivePatterns settings.sensitivityLevel).any
          (fun p => p.test v.name) = true
      · have hsw : DataProcessor.isSensitiveVariable v.name (JSValue.vStr "[REDACTED]")
            settings.sensitivityLevel = true := by
          rw [isSens_vStr_eq, hn]
          rfl
        simp only [DataProcessor.filterOneVariable, DataProcessor.isComplexValue, hsw, hcap,
          eq_self_iff_true, if_true, if_false, Bool.false_eq_true, Bool.false_and, Bool.true_and,
          Bool.not_false, Bool.not_true, Bool.and_false]
      · have hn' : (DataProcessor.getSensitivePatterns settings.sensitivityLevel).any
            (fun p => p.test v.name) = false := by simpa using hn
        have hsw : DataProcessor.isSensitiveVariable v.name (JSValue.vStr "[REDACTED]")
            settings.sensitivityLevel = false := by
          rw [isSens_vStr_eq, hn', anyTest_redacted_false]
          decide
        simp only [DataProcessor.filterOneVariable, DataProcessor.isComplexValue, hsw, hcap,
          eq_self_iff_true, if_true, if_false, Bool.false_eq_true, Bool.false_and, Bool.true_and,
          Bool.not_false, Bool.not_true, Bool.and_false]
  · have hs0 : DataProcessor.isSensitiveVariable v.name v.value settings.sensitivityLevel =
        false := by simpa using hs
    cases hval : v.value with
    | vStr s =>
      have hs1 : DataProcessor.isSensitiveVariable v.name (.vStr s) settings.sensitivityLevel =
          false := by rw [← hval]; exact hs0
      obtain ⟨hn, hvs⟩ := Bool.or_eq_false_iff.mp ((isSens_vStr_eq _ _ _).symm.trans hs1)
      by_cases hlen : s.data.length > settings.maxVariableValueLength
      · have hFv : DataProcessor.filterOneVariable settings v =
            { v with
              value := JSValue.vStr (JS.jsSubstringTo settings.maxVariableValueLength s ++ "... [TRUNCATED]") } := by
          simp only [DataProcessor.filterOneVariable, DataProcessor.isComplexValue, hval, hs1,
            hlen, eq_self_iff_true, if_true, if_false, Bool.false_eq_true, Bool.false_and,
            Bool.true_and, Bool.not_false, Bool.not_true, Bool.and_false]
        rw [hFv]
        have hvalt : (DataProcessor.getSensitivePatterns settings.sensitivityLevel).any
            (fun p => p.test
              (JS.jsSubstringTo settings.maxVariableValueLength s ++ "... [TRUNCATED]")) =
              false :=
          @anyTest_truncate_false settings.sensitivityLevel s settings.maxVariableValueLength hvs
        have hsw : DataProcessor.isSensitiveVariable v.name
            (JSValue.vStr (JS.jsSubstringTo settings.maxVariableValueLength s ++
              "... [TRUNCATED]")) settings.sensitivityLevel = false := by
          rw [isSens_vStr_eq, hn, hvalt]
          decide
        have hlen2 : (s.data.take settings.maxVariableValueLength).length =
            settings.maxVariableValueLength := by
          rw [List.length_take]
          exact Nat.min_eq_left (Nat.le_of_lt hlen)
        have htlen : (JS.jsSubstringTo settings.maxVariableValueLength s ++
            ("... [TRUNCATED]" : String)).data.length > settings.maxVariableValueLength := by
          show (s.data.take settings.maxVariableValueLength ++
            ("... [TRUNCATED]" : String).data).length > settings.maxVariableValueLength
          rw [List.length_append, hlen2,
            show ("... [TRUNCATED]" : String).data.length = 15 from by decide]
          omega
        have htake : (JS.jsSubstringTo settings.maxVariableValueLength s ++
            ("... [TRUNCATED]" : String)).data.take settings.maxVariableValueLength =
              s.data.take settings.maxVariableValueLength := by
          show (s.data.take settings.maxVariableValueLength ++
            ("... [TRUNCATED]" : String).data).take settings.maxVariableValueLength = _
          exact List.take_left' hlen2
        have heq : JS.jsSubstringTo settings.maxVariableValueLength
            (JS.jsSubstringTo settings.maxVariableValueLength s ++ "... [TRUNCATED]") ++
              ("... [TRUNCATED]" : String) =
            JS.jsSubstringTo settings.maxVariableValueLength s ++ "... [TRUNCATED]" :=
          congrArg (fun l => (⟨l ++ ("... [TRUNCATED]" : String).data⟩ : String)) htake
        simp only [DataProcessor.filterOneVariable, DataProcessor.isComplexValue, hsw, htlen, heq,
          eq_self_iff_true, if_true, if_false, Bool.false_eq_true, Bool.false_and, Bool.true_and,
          Bool.not_false, Bool.not_true, Bool.and_false]
      · have hFv : DataProcessor.filterOneVariable settings v = v := by
          simp only [DataProcessor.filterOneVariable, DataProcessor.isComplexValue, hval, hs1,
            hlen, eq_self_iff_true, if_true, if_false, Bool.false_eq_true, Bool.false_and,
            Bool.true_and, Bool.not_false, Bool.not_true, Bool.and_false]
        rw [hFv, hFv]
    | vObj fields =>
      have hs1 : DataProcessor.isSensitiveVariable v.name (.vObj fields)
          settings.sensitivityLevel = false := by rw [← hval]; exact hs0
      have hn : (DataProcessor.getSensitivePatterns settings.sensitivityLevel).any
          (fun p => p.test v.name) = false := by
        simpa [DataProcessor.isSensitiveVariable] using hs1
      by_cases hr : v.isRedacted = true
      · have hFv : DataProcessor.filterOneVariable settings v = v := by
          simp only [DataProcessor.filterOneVariable, DataProcessor.isComplexValue, hval, hs1, hr,
            eq_self_iff_true, if_true, if_false, Bool.false_eq_true, Bool.false_and, Bool.true_and,
            Bool.not_false, Bool.not_true, Bool.and_false]
        rw [hFv, hFv]
      · have hr2 : v.isRedacted = false := by simpa using hr
        have hFv : DataProcessor.filterOneVariable settings v =
            { v with
              value := JSValue.vObj ((DataProcessor.sanitizeObjFields settings fields).take 20) } := by
          simp only [DataProcessor.filterOneVariable, DataProcessor.isComplexValue,
            DataProcessor.sanitizeComplexValue, hval, hs1, hr2, eq_self_iff_true, if_true,
            if_false, Bool.false_eq_true, Bool.false_and, Bool.true_and, Bool.not_false,
            Bool.not_true, Bool.and_false]
        rw [hFv]
        have hsw : DataProcessor.isSensitiveVariable v.name
            (JSValue.vObj ((DataProcessor.sanitizeObjFields settings fields).take 20))
              settings.sensitivityLevel = false := by
          simp [DataProcessor.isSensitiveVariable, hn]
        have hsan2 : DataProcessor.sanitizeObjFields settings
            ((DataProcessor.sanitizeObjFields settings fields).take 20) =
              (DataProcessor.sanitizeObjFields settings fields).take 20 := by
          rw [sanitizeObjFields_take, sanitizeObjFields_idem]
        simp only [DataProcessor.filterOneVariable, DataProcessor.isComplexValue,
          DataProcessor.sanitizeComplexValue, hsw, hr2, hsan2, List.take_take, min_self,
          eq_self_iff_true, if_true, if_false, Bool.false_eq_true, Bool.false_and, Bool.true_and,
          Bool.not_false, Bool.not_true, Bool.and_false]
    | vNull =>
      have hs1 : DataProcessor.isSensitiveVariable v.name .vNull settings.sensitivityLevel =
          false := by rw [← hval]; exact hs0
      have hFv : DataProcessor.filterOneVariable settings v = v := by
        simp only [DataProcessor.filterOneVariable, DataProcessor.isComplexValue, hval, hs1,
          eq_self_iff_true, if_true, if_false, Bool.false_eq_true, Bool.false_and, Bool.true_and,
          Bool.not_false, Bool.not_true, Bool.and_false]
      rw [hFv, hFv]
    | vUndef =>
      have hs1 : DataProcessor.isSensitiveVariable v.name .vUndef settings.sensitivityLevel =
          false := by rw [← hval]; exact hs0
      have hFv : DataProcessor.filterOneVariable settings v = v := by
        simp only [DataProcessor.filterOneVariable, DataProcessor.isComplexValue, hval, hs1,
          eq_self_iff_true, if_true, if_false, Bool.false_eq_true, Bool.false_and, Bool.true_and,
          Bool.not_false, Bool.not_true, Bool.and_false]
      rw [hFv, hFv]
    | vBool b =>
      have hs1 : DataProcessor.isSensitiveVariable v.name (.vBool b) settings.sensitivityLevel =
          false := by rw [← hval]; exact hs0
      have hFv : DataProcessor.filterOneVariable settings v = v := by
        simp only [DataProcessor.filterOneVariable, DataProcessor.isComplexValue, hval, hs1,
          eq_self_iff_true, if_true, if_false, Bool.false_eq_true, Bool.false_and, Bool.true_and,
          Bool.not_false, Bool.not_true, Bool.and_false]
      rw [hFv, hFv]
    | vNum n =>
      have hs1 : DataProcessor.isSensitiveVariable v.name (.vNum n) settings.sensitivityLevel =
          false := by rw [← hval]; exact hs0
      have hFv : DataProcessor.filterOneVariable settings v = v := by
        simp only [DataProcessor.filterOneVariable, DataProcessor.isComplexValue, hval, hs1,
          eq_self_iff_true, if_true, if_false, Bool.false_eq_true, Bool.false_and, Bool.true_and,
          Bool.not_false, Bool.not_true, Bool.and_false]
      rw [hFv, hFv]
    | vArr xs =>
      have hs1 : DataProcessor.isSensitiveVariable v.name (.vArr xs) settings.sensitivityLevel =
          false := by rw [← hval]; exact hs0
      have hFv : DataProcessor.filterOneVariable settings v = v := by
        simp only [DataProcessor.filterOneVariable, DataProcessor.isComplexValue, hval, hs1,
          eq_self_iff_true, if_true, if_false, Bool.false_eq_true, Bool.false_and, Bool.true_and,
          Bool.not_false, Bool.not_true, Bool.and_false]
      rw [hFv, hFv]

/-! ### C2: fixed-point theory for the path scanner `segRewrite`

`sanitizeFilePath` composes three `segRewrite` passes.  The development
below characterises the outputs of a pass by an inductive fixed-point shape
(`SegFix`) — scanner-step failures at every position, except at emitted
sites `prefix ++ marker ++ tail` which rewrite to themselves — and shows
that each pass produces that shape, that the shape is preserved by the
other passes (under decidable non-interference conditions on the concrete
patterns), and that the shape implies being a fixed point. -/

/-- The head-match condition of `segRewrite` at a position. -/
def segStep (p0 : Char) (ps : List Char) (sep : Char) (l : List Char) : Bool :=
  (p0 :: ps).isPrefixOf l && !((l.drop (ps.length + 1)).takeWhile (fun x => x != sep)).isEmpty

theorem segRewrite_cons (p0 : Char) (ps : List Char) (sep : Char) (marker : List Char)
    (c : Char) (cs : List Char) :
    DataProcessor.segRewrite p0 ps sep marker (c :: cs) =
      if segStep p0 ps sep (c :: cs) then
        ((p0 :: ps) ++ marker) ++
          DataProcessor.segRewrite p0 ps sep marker (((c :: cs).drop (ps.length + 1)).dropWhile (fun x => x != sep))
      else c :: DataProcessor.segRewrite p0 ps sep marker cs := by
  simp only [DataProcessor.segRewrite]
  rfl

theorem segRewrite_cons_match {p0 : Char} {ps : List Char} {sep : Char} {marker : List Char}
    {c : Char} {cs : List Char} (h : segStep p0 ps sep (c :: cs) = true) :
    DataProcessor.segRewrite p0 ps sep marker (c :: cs) =
      ((p0 :: ps) ++ marker) ++
        DataProcessor.segRewrite p0 ps sep marker (((c :: cs).drop (ps.length + 1)).dropWhile (fun x => x != sep)) := by
  rw [segRewrite_cons, if_pos h]

theorem segRewrite_cons_nomatch {p0 : Char} {ps : List Char} {sep : Char} {marker : List Char}
    {c : Char} {cs : List Char} (h : segStep p0 ps sep (c :: cs) = false) :
    DataProcessor.segRewrite p0 ps sep marker (c :: cs) = c :: DataProcessor.segRewrite p0 ps sep marker cs := by
  rw [segRewrite_cons, if_neg (by simp [h])]

/-- Head shape: the list is empty or starts with the separator. -/
def headIs (d : Char) (l : List Char) : Prop :=
  l = [] ∨ l.head? = some d

theorem takeWhile_append_all {q : Char → Bool} {u : List Char} (y : List Char)
    (h : ∀ a ∈ u, q a = true) : (u ++ y).takeWhile q = u ++ y.takeWhile q := by
  induction u with
  | nil => rfl
  | cons c u' ih =>
    simp only [List.cons_append, List.takeWhile_cons, h c (by simp), if_true]
    rw [ih (fun a ha => h a (by simp [ha]))]

theorem dropWhile_append_all {q : Char → Bool} {u : List Char} (y : List Char)
    (h : ∀ a ∈ u, q a = true) : (u ++ y).dropWhile q = y.dropWhile q := by
  induction u with
  | nil => rfl
  | cons c u' ih =>
    simp only [List.cons_append, List.dropWhile_cons, h c (by simp), if_true]
    exact ih (fun a ha => h a (by simp [ha]))

theorem takeWhile_of_headIs {d : Char} {l : List Char} (h : headIs d l) :
    l.takeWhile (fun x => x != d) = [] := by
  cases h with
  | inl h => simp [h]
  | inr h =>
    cases l with
    | nil => rfl
    | cons c l' =>
      simp only [List.head?_cons, Option.some.injEq] at h
      simp [List.takeWhile_cons, h]

theorem dropWhile_of_headIs {d : Char} {l : List Char} (h : headIs d l) :
    l.dropWhile (fun x => x != d) = l := by
  cases h with
  | inl h => simp [h]
  | inr h =>
    cases l with
    | nil => rfl
    | cons c l' =>
      simp only [List.head?_cons, Option.some.injEq] at h
      simp [List.dropWhile_cons, h]

theorem takeWhile_nil_headIs {d : Char} {l : List Char}
    (h : l.takeWhile (fun x => x != d) = []) : headIs d l := by
  cases l with
  | nil => exact Or.inl rfl
  | cons c l' =>
    simp only [List.takeWhile_cons] at h
    by_cases hc : (c != d) = true
    · simp [hc] at h
    · right
      have : c = d := by simpa using hc
      simp [this]

theorem prefix_append_short {l u y : List Char} (h : l <+: u ++ y)
    (hl : l.length ≤ u.length) : l <+: u := by
  have h1 : l = (u ++ y).take l.length := by
    obtain ⟨r, hr⟩ := h
    rw [← hr, List.take_left' rfl]
  rw [List.take_append_eq_append_take, Nat.sub_eq_zero_of_le hl, List.take_zero,
    List.append_nil] at h1
  rw [h1]
  exact List.take_prefix _ _

theorem prefix_append_long {l u y : List Char} (h : l <+: u ++ y)
    (hl : u.length ≤ l.length) : u = l.take u.length ∧ l.drop u.length <+: y := by
  obtain ⟨r, hr⟩ := h
  constructor
  · have := congrArg (List.take u.length) hr
    rw [List.take_append_eq_append_take, Nat.sub_eq_zero_of_le hl, List.take_zero,
      List.append_nil, List.take_left] at this
    exact this.symm
  · have := congrArg (List.drop u.length) hr
    rw [List.drop_append_eq_append_drop, Nat.sub_eq_zero_of_le hl, List.drop_zero,
      List.drop_left] at this
    exact ⟨r, this⟩

theorem isPrefixOf_append_false_of_take {Q u : List Char} (y : List Char)
    (h : Q.take u.length ≠ u.take Q.length) : Q.isPrefixOf (u ++ y) = false := by
  by_contra hb
  have hpre : Q <+: u ++ y := List.isPrefixOf_iff_prefix.mp (by simpa using hb)
  by_cases hl : Q.length ≤ u.length
  · have h2 : Q <+: u := prefix_append_short hpre hl
    obtain ⟨r, hr⟩ := h2
    apply h
    rw [List.take_of_length_le hl, ← hr, List.take_left' rfl]
  · have h2 := prefix_append_long hpre (Nat.le_of_not_le hl)
    apply h
    rw [← h2.1, List.take_of_length_le (by omega)]

theorem isPrefixOf_append_shaped_false {Q u y : List Char} {d : Char}
    (hy : headIs d y) (hlen : u.length < Q.length)
    (hcase : u = Q.take u.length → (Q.drop u.length).head? ≠ some d) :
    Q.isPrefixOf (u ++ y) = false := by
  by_contra hb
  have hpre : Q <+: u ++ y := List.isPrefixOf_iff_prefix.mp (by simpa using hb)
  have h2 := prefix_append_long hpre (Nat.le_of_lt hlen)
  have hne : Q.drop u.length ≠ [] := by
    intro hnil
    have := congrArg List.length hnil
    simp only [List.length_drop, List.length_nil] at this
    omega
  obtain ⟨e, es, he⟩ := List.exists_cons_of_ne_nil hne
  have hyy := h2.2
  rw [he] at hyy
  cases hy with
  | inl h0 =>
    rw [h0] at hyy
    exact absurd hyy.length_le (by simp)
  | inr h0 =>
    cases y with
    | nil => simp at h0
    | cons b bs =>
      simp only [List.head?_cons, Option.some.injEq] at h0
      rw [List.cons_prefix_cons] at hyy
      exact hcase h2.1 (by rw [he]; simp [hyy.1, h0])

theorem segRewrite_headIs {p0 : Char} {ps : List Char} {sep : Char} {marker : List Char}
    (d : Char) {t : List Char} (h : headIs d t) :
    headIs d (DataProcessor.segRewrite p0 ps sep marker t) := by
  cases h with
  | inl h =>
    rw [h]
    exact Or.inl (by simp [DataProcessor.segRewrite])
  | inr h =>
    cases t with
    | nil => exact Or.inl (by simp [DataProcessor.segRewrite])
    | cons c ts =>
      have hc : c = d := by simpa using h
      by_cases hs : segStep p0 ps sep (c :: ts) = true
      · rw [segRewrite_cons_match hs]
        have hp : (p0 :: ps).isPrefixOf (c :: ts) = true := by
          unfold segStep at hs
          rw [Bool.and_eq_true] at hs
          exact hs.1
        have hpre : (p0 :: ps) <+: (c :: ts) := List.isPrefixOf_iff_prefix.mp hp
        have hp0 : p0 = c := (List.cons_prefix_cons.mp hpre).1
        exact Or.inr (by simp [hp0, hc])
      · rw [segRewrite_cons_nomatch (by simpa using hs)]
        exact Or.inr (by simp [hc])

theorem segRewrite_scanThrough {p0 : Char} {ps : List Char} {sep : Char} {marker : List Char}
    {u y : List Char}
    (h : ∀ j, j < u.length → segStep p0 ps sep (u.drop j ++ y) = false) :
    DataProcessor.segRewrite p0 ps sep marker (u ++ y) =
      u ++ DataProcessor.segRewrite p0 ps sep marker y := by
  induction u with
  | nil => rfl
  | cons c u' ih =>
    have h0 : segStep p0 ps sep (c :: (u' ++ y)) = false := by simpa using h 0 (by simp)
    rw [List.cons_append, segRewrite_cons_nomatch h0,
      ih (fun j hj => by simpa using h (j + 1) (by simpa using Nat.succ_lt_succ hj))]
    rfl

/-- Fixed-point shape for `segRewrite` outputs: the scanner step fails at
every position, except at emitted sites `prefix ++ marker ++ tail` whose
tail is empty or separator-headed. -/
inductive SegFix (p0 : Char) (ps : List Char) (sep : Char) (marker : List Char) :
    List Char → Prop where
  | nil : SegFix p0 ps sep marker []
  | cons (c : Char) (cs : List Char) (hstep : segStep p0 ps sep (c :: cs) = false)
      (hfix : SegFix p0 ps sep marker cs) : SegFix p0 ps sep marker (c :: cs)
  | site (t : List Char) (hshape : headIs sep t) (hfix : SegFix p0 ps sep marker t) :
      SegFix p0 ps sep marker (((p0 :: ps) ++ marker) ++ t)

theorem SegFix_append_chain {p0 : Char} {ps : List Char} {sep : Char} {marker : List Char}
    {u w : List Char}
    (h : ∀ j, j < u.length → segStep p0 ps sep (u.drop j ++ w) = false)
    (hw : SegFix p0 ps sep marker w) : SegFix p0 ps sep marker (u ++ w) := by
  induction u with
  | nil => exact hw
  | cons c u' ih =>
    have h0 : segStep p0 ps sep (c :: (u' ++ w)) = false := by simpa using h 0 (by simp)
    exact SegFix.cons c (u' ++ w) h0
      (ih (fun j hj => by simpa using h (j + 1) (by simpa using Nat.succ_lt_succ hj)))

theorem segRewrite_prefix_pullback {q0 : Char} {qs : List Char}
    {p0 : Char} {ps : List Char} {sep : Char} {marker : List Char}
    (Hlen : qs.length ≤ ps.length + 1) :
    ∀ n (x : List Char), x.length ≤ n → ∀ k, 0 < k →
      ((q0 :: qs).drop k) <+: DataProcessor.segRewrite p0 ps sep marker x →
      ((q0 :: qs).drop k) <+: x := by
  intro n
  induction n with
  | zero =>
    intro x hx k hk h
    have hx0 : x = [] := List.length_eq_zero.mp (Nat.le_zero.mp hx)
    subst hx0
    simpa [DataProcessor.segRewrite] using h
  | succ m ih =>
    intro x hx k hk h
    cases x with
    | nil => simpa [DataProcessor.segRewrite] using h
    | cons c cs =>
      by_cases hs : segStep p0 ps sep (c :: cs) = true
      · rw [segRewrite_cons_match hs] at h
        have hwlen : ((q0 :: qs).drop k).length ≤ ps.length + 1 := by
          simp only [List.length_drop, List.length_cons]
          omega
        have h1 : ((q0 :: qs).drop k) <+: (p0 :: ps) ++ marker :=
          prefix_append_short h (by simp only [List.length_append, List.length_cons]; omega)
        have h2 : ((q0 :: qs).drop k) <+: (p0 :: ps) :=
          prefix_append_short h1 (by simpa using hwlen)
        have hp : (p0 :: ps).isPrefixOf (c :: cs) = true := by
          unfold segStep at hs
          rw [Bool.and_eq_true] at hs
          exact hs.1
        exact h2.trans (List.isPrefixOf_iff_prefix.mp hp)
      · rw [segRewrite_cons_nomatch (by simpa using hs)] at h
        by_cases hwnil : (q0 :: qs).drop k = []
        · rw [hwnil]
          exact List.nil_prefix
        · obtain ⟨d, w', hd⟩ := List.exists_cons_of_ne_nil hwnil
          rw [hd] at h ⊢
          rw [List.cons_prefix_cons] at h ⊢
          refine ⟨h.1, ?_⟩
          have hw' : w' = (q0 :: qs).drop (k + 1) := by
            have h2 := congrArg (List.drop 1) hd
            rw [List.drop_drop] at h2
            simpa [Nat.add_comm] using h2.symm
          have hcs : cs.length ≤ m := by
            simp only [List.length_cons] at hx
            omega
          have hres := ih cs hcs (k + 1) (by omega) (by rw [← hw']; exact h.2)
          rw [← hw'] at hres
          exact hres

theorem dropWhile_head_shape (d : Char) (l : List Char) :
    headIs d (l.dropWhile (fun x => x != d)) := by
  induction l with
  | nil => exact Or.inl rfl
  | cons c l' ih =>
    by_cases hc : (c != d) = true
    · simpa [List.dropWhile_cons, hc] using ih
    · have : c = d := by simpa using hc
      exact Or.inr (by simp [List.dropWhile_cons, this])

theorem segStep_stable {q0 : Char} {qs : List Char} {qsep : Char}
    {p0 : Char} {ps : List Char} {sep : Char} {marker : List Char}
    (Hlen : qs.length ≤ ps.length + 1)
    (HInner : ∀ j, j < qs.length →
      ((p0 :: ps).take (qs.length - j) ≠ (qs.drop j).take (ps.length + 1)) ∨
      (qs.length - j < ps.length + 1 ∧
        (qs.drop j = (p0 :: ps).take (qs.length - j) →
          ((p0 :: ps).drop (qs.length - j)).head? ≠ some qsep)))
    {c : Char} {cs : List Char}
    (hstep : segStep q0 qs qsep (c :: cs) = false) :
    segStep q0 qs qsep (c :: DataProcessor.segRewrite p0 ps sep marker cs) = false := by
  by_cases hpre : (q0 :: qs).isPrefixOf (c :: DataProcessor.segRewrite p0 ps sep marker cs) = true
  case neg =>
    unfold segStep
    cases hX : (q0 :: qs).isPrefixOf (c :: DataProcessor.segRewrite p0 ps sep marker cs) with
    | false => rfl
    | true => exact absurd hX hpre
  case pos =>
    have hqc := List.cons_prefix_cons.mp (List.isPrefixOf_iff_prefix.mp hpre)
    have hqs : qs <+: cs := by
      have h4 := @segRewrite_prefix_pullback q0 qs p0 ps sep marker Hlen cs.length cs le_rfl 1
        (by omega)
      exact h4 hqc.2
    have hpre0 : (q0 :: qs).isPrefixOf (c :: cs) = true := by
      rw [List.isPrefixOf_iff_prefix]
      exact List.cons_prefix_cons.mpr ⟨hqc.1, hqs⟩
    unfold segStep at hstep
    rw [hpre0, Bool.true_and] at hstep
    have hrun : ((c :: cs).drop (qs.length + 1)).takeWhile (fun x => x != qsep) = [] := by
      simpa using hstep
    have hy : headIs qsep (cs.drop qs.length) :=
      takeWhile_nil_headIs (by simpa using hrun)
    have hcs : cs = qs ++ cs.drop qs.length := by
      conv_lhs => rw [← List.take_append_drop qs.length cs]
      rw [← List.prefix_iff_eq_take.mp hqs]
    have hscan : DataProcessor.segRewrite p0 ps sep marker cs =
        qs ++ DataProcessor.segRewrite p0 ps sep marker (cs.drop qs.length) := by
      conv_lhs => rw [hcs]
      apply segRewrite_scanThrough
      intro j hj
      rcases HInner j hj with hri | ⟨hlt, hr2⟩
      · unfold segStep
        rw [isPrefixOf_append_false_of_take _ (by
          simpa only [List.length_drop, List.length_cons] using hri)]
        rfl
      · unfold segStep
        rw [isPrefixOf_append_shaped_false hy (by
            simpa only [List.length_drop, List.length_cons] using hlt) (fun heq => by
          simpa only [List.length_drop, List.length_cons] using hr2 (by
            simpa only [List.length_drop] using heq))]
        rfl
    unfold segStep
    rw [hscan]
    have hdrop : ((c :: (qs ++ DataProcessor.segRewrite p0 ps sep marker
        (cs.drop qs.length))).drop (qs.length + 1)) =
          DataProcessor.segRewrite p0 ps sep marker (cs.drop qs.length) := by
      rw [List.drop_succ_cons, List.drop_left]
    rw [hdrop]
    have hshape : headIs qsep (DataProcessor.segRewrite p0 ps sep marker (cs.drop qs.length)) :=
      segRewrite_headIs qsep hy
    rw [takeWhile_of_headIs hshape]
    simp

theorem SegFix_fixed {p0 : Char} {ps : List Char} {sep : Char} {marker : List Char}
    (HA1 : marker ≠ []) (HA2 : ∀ a ∈ marker, (a != sep) = true) :
    ∀ {z}, SegFix p0 ps sep marker z →
      DataProcessor.segRewrite p0 ps sep marker z = z := by
  intro z h
  induction h with
  | nil => simp [DataProcessor.segRewrite]
  | cons c cs hstep hfix ih => rw [segRewrite_cons_nomatch hstep, ih]
  | site t hshape hfix ih =>
    have hstep : segStep p0 ps sep (((p0 :: ps) ++ marker) ++ t) = true := by
      unfold segStep
      have hpre : (p0 :: ps).isPrefixOf (((p0 :: ps) ++ marker) ++ t) = true := by
        rw [List.isPrefixOf_iff_prefix, List.append_assoc]
        exact List.prefix_append _ _
      rw [hpre, Bool.true_and]
      have hdrop : ((((p0 :: ps) ++ marker) ++ t).drop (ps.length + 1)) = marker ++ t := by
        rw [List.append_assoc]
        exact List.drop_left' (by simp)
      rw [hdrop, takeWhile_append_all t HA2]
      have hne : marker ++ t.takeWhile (fun x => x != sep) ≠ [] := fun hh =>
        HA1 (List.append_eq_nil.mp hh).1
      simp [List.isEmpty_iff, hne]
    have hrw := @segRewrite_cons_match p0 ps sep marker p0 ((ps ++ marker) ++ t) hstep
    have harg : (((p0 :: ps) ++ marker) ++ t).drop (ps.length + 1) = marker ++ t := by
      rw [List.append_assoc]
      exact List.drop_left' (by simp)
    have harg2 : ((((p0 :: ps) ++ marker) ++ t).drop (ps.length + 1)).dropWhile
        (fun x => x != sep) = t := by
      rw [harg, dropWhile_append_all t HA2, dropWhile_of_headIs hshape]
    calc DataProcessor.segRewrite p0 ps sep marker (((p0 :: ps) ++ marker) ++ t)
        = ((p0 :: ps) ++ marker) ++ DataProcessor.segRewrite p0 ps sep marker
            ((((p0 :: ps) ++ marker) ++ t).drop (ps.length + 1) |>.dropWhile
              (fun x => x != sep)) := hrw
      _ = ((p0 :: ps) ++ marker) ++ t := by rw [harg2, ih]

theorem SegFix_suffix {p0 : Char} {ps : List Char} {sep : Char} {marker : List Char}
    (HC : ∀ j, j < ((p0 :: ps) ++ marker).length → 0 < j →
      (p0 :: ps).take (((p0 :: ps) ++ marker).length - j) ≠
        (((p0 :: ps) ++ marker).drop j).take (ps.length + 1)) :
    ∀ {z}, SegFix p0 ps sep marker z → ∀ s, s <:+ z → SegFix p0 ps sep marker s := by
  intro z h
  induction h with
  | nil =>
    intro s hs
    rw [List.suffix_nil.mp hs]
    exact SegFix.nil
  | cons c cs hstep hfix ih =>
    intro s hs
    rcases List.suffix_cons_iff.mp hs with h1 | h2
    · rw [h1]
      exact SegFix.cons c cs hstep hfix
    · exact ih s h2
  | site t hshape hfix ih =>
    intro s hs
    obtain ⟨r, hr⟩ := hs
    by_cases hlen : s.length ≤ t.length
    · apply ih
      have hrl : ((p0 :: ps) ++ marker).length ≤ r.length := by
        have := congrArg List.length hr
        simp only [List.length_append] at this ⊢
        omega
      have h2 := congrArg (List.drop ((p0 :: ps) ++ marker).length) hr
      rw [List.drop_append_eq_append_drop, Nat.sub_eq_zero_of_le hrl, List.drop_zero,
        List.drop_left] at h2
      exact ⟨r.drop ((p0 :: ps) ++ marker).length, h2⟩
    · have hj : r.length < ((p0 :: ps) ++ marker).length := by
        have := congrArg List.length hr
        simp only [List.length_append] at this ⊢
        omega
      have hs2 : s = ((p0 :: ps) ++ marker).drop r.length ++ t := by
        have h2 := congrArg (List.drop r.length) hr
        have hz1 : r.length - ((p0 :: ps) ++ marker).length = 0 :=
          Nat.sub_eq_zero_of_le (Nat.le_of_lt hj)
        rw [List.drop_append_eq_append_drop, List.drop_append_eq_append_drop, List.drop_length,
          Nat.sub_self, List.drop_zero, List.nil_append, hz1, List.drop_zero] at h2
        exact h2
      by_cases hj0 : r.length = 0
      · rw [hs2, hj0, List.drop_zero]
        exact SegFix.site t hshape hfix
      · rw [hs2]
        refine SegFix_append_chain ?_ hfix
        intro i hi
        have hdd : (((p0 :: ps) ++ marker).drop r.length).drop i =
            ((p0 :: ps) ++ marker).drop (r.length + i) := by
          rw [List.drop_drop, Nat.add_comm]
        rw [hdd]
        have hcc := HC (r.length + i) (by
          have h3 : i < (((p0 :: ps) ++ marker).drop r.length).length := hi
          simp only [List.length_drop] at h3
          omega) (by omega)
        unfold segStep
        rw [isPrefixOf_append_false_of_take _ (by
          simpa only [List.length_drop, List.length_cons] using hcc)]
        rfl

theorem SegFix_output {p0 : Char} {ps : List Char} {sep : Char} {marker : List Char}
    (HInner : ∀ j, j < ps.length →
      ((p0 :: ps).take (ps.length - j) ≠ (ps.drop j).take (ps.length + 1)) ∨
      (ps.length - j < ps.length + 1 ∧
        (ps.drop j = (p0 :: ps).take (ps.length - j) →
          ((p0 :: ps).drop (ps.length - j)).head? ≠ some sep))) :
    ∀ n (x : List Char), x.length ≤ n →
      SegFix p0 ps sep marker (DataProcessor.segRewrite p0 ps sep marker x) := by
  intro n
  induction n with
  | zero =>
    intro x hx
    have hx0 : x = [] := List.length_eq_zero.mp (Nat.le_zero.mp hx)
    subst hx0
    have h0 : DataProcessor.segRewrite p0 ps sep marker [] = [] := by
      simp [DataProcessor.segRewrite]
    rw [h0]
    exact SegFix.nil
  | succ m ih =>
    intro x hx
    cases x with
    | nil =>
      have h0 : DataProcessor.segRewrite p0 ps sep marker [] = [] := by
        simp [DataProcessor.segRewrite]
      rw [h0]
      exact SegFix.nil
    | cons c cs =>
      by_cases hs : segStep p0 ps sep (c :: cs) = true
      · rw [segRewrite_cons_match hs]
        have hshape : headIs sep (((c :: cs).drop (ps.length + 1)).dropWhile
            (fun x => x != sep)) := dropWhile_head_shape sep _
        have hlt : (((c :: cs).drop (ps.length + 1)).dropWhile (fun x => x != sep)).length
            ≤ m := by
          have h1 := (List.dropWhile_sublist (l := (c :: cs).drop (ps.length + 1))
            (fun x => x != sep)).length_le
          simp only [List.length_drop, List.length_cons] at h1 ⊢
          simp only [List.length_cons] at hx
          omega
        exact SegFix.site _ (segRewrite_headIs sep hshape) (ih _ hlt)
      · rw [segRewrite_cons_nomatch (by simpa using hs)]
        have hcslen : cs.length ≤ m := by
          simp only [List.length_cons] at hx
          omega
        exact SegFix.cons _ _
          (segStep_stable (Nat.le_succ _) HInner (by simpa using hs)) (ih cs hcslen)

theorem SegFix_cross {q0 : Char} {qs : List Char} {qsep : Char} {qmark : List Char}
    {p0 : Char} {ps : List Char} {sep : Char} {marker : List Char}
    (Hlen : qs.length ≤ ps.length + 1)
    (HInner : ∀ j, j < qs.length →
      ((p0 :: ps).take (qs.length - j) ≠ (qs.drop j).take (ps.length + 1)) ∨
      (qs.length - j < ps.length + 1 ∧
        (qs.drop j = (p0 :: ps).take (qs.length - j) →
          ((p0 :: ps).drop (qs.length - j)).head? ≠ some qsep)))
    (HCq : ∀ j, j < ((q0 :: qs) ++ qmark).length → 0 < j →
      (q0 :: qs).take (((q0 :: qs) ++ qmark).length - j) ≠
        (((q0 :: qs) ++ qmark).drop j).take (qs.length + 1))
    (HSiteCross : ∀ j, j < ((q0 :: qs) ++ qmark).length →
      (p0 :: ps).take (((q0 :: qs) ++ qmark).length - j) ≠
        (((q0 :: qs) ++ qmark).drop j).take (ps.length + 1))
    (HChain : ∀ j, j < ((p0 :: ps) ++ marker).length →
      (q0 :: qs).take (((p0 :: ps) ++ marker).length - j) ≠
        (((p0 :: ps) ++ marker).drop j).take (qs.length + 1)) :
    ∀ n (z : List Char), z.length ≤ n → SegFix q0 qs qsep qmark z →
      SegFix q0 qs qsep qmark (DataProcessor.segRewrite p0 ps sep marker z) := by
  intro n
  induction n with
  | zero =>
    intro z hz hfix
    have hz0 : z = [] := List.length_eq_zero.mp (Nat.le_zero.mp hz)
    subst hz0
    have h0 : DataProcessor.segRewrite p0 ps sep marker [] = [] := by
      simp [DataProcessor.segRewrite]
    rw [h0]
    exact SegFix.nil
  | succ m ih =>
    intro z hz hfix
    cases hfix with
    | nil =>
      have h0 : DataProcessor.segRewrite p0 ps sep marker [] = [] := by
        simp [DataProcessor.segRewrite]
      rw [h0]
      exact SegFix.nil
    | cons c cs hstep hfixcs =>
      by_cases hbs : segStep p0 ps sep (c :: cs) = true
      · rw [segRewrite_cons_match hbs]
        have hsuf : (((c :: cs).drop (ps.length + 1)).dropWhile (fun x => x != sep)) <:+
            (c :: cs) :=
          (List.dropWhile_suffix _).trans (List.drop_suffix _ _)
        have hfixt : SegFix q0 qs qsep qmark
            (((c :: cs).drop (ps.length + 1)).dropWhile (fun x => x != sep)) :=
          SegFix_suffix HCq (SegFix.cons c cs hstep hfixcs) _ hsuf
        have hlt : (((c :: cs).drop (ps.length + 1)).dropWhile (fun x => x != sep)).length
            ≤ m := by
          have h1 := (List.dropWhile_sublist (l := (c :: cs).drop (ps.length + 1))
            (fun x => x != sep)).length_le
          simp only [List.length_drop, List.length_cons] at h1 ⊢
          simp only [List.length_cons] at hz
          omega
        refine SegFix_append_chain ?_ (ih _ hlt hfixt)
        intro j hj
        unfold segStep
        rw [isPrefixOf_append_false_of_take _ (by
          simpa only [List.length_drop, List.length_cons] using HChain j hj)]
        rfl
      · rw [segRewrite_cons_nomatch (by simpa using hbs)]
        have hcslen : cs.length ≤ m := by
          simp only [List.length_cons] at hz
          omega
        exact SegFix.cons _ _ (segStep_stable Hlen HInner hstep) (ih cs hcslen hfixcs)
    | site t hshape hfixt =>
      have hscan : DataProcessor.segRewrite p0 ps sep marker (((q0 :: qs) ++ qmark) ++ t) =
          ((q0 :: qs) ++ qmark) ++ DataProcessor.segRewrite p0 ps sep marker t := by
        apply segRewrite_scanThrough
        intro j hj
        unfold segStep
        rw [isPrefixOf_append_false_of_take _ (by
          simpa only [List.length_drop, List.length_cons] using HSiteCross j hj)]
        rfl
      rw [hscan]
      have hlt : t.length ≤ m := by
        have := congrArg List.length (rfl :
          (((q0 :: qs) ++ qmark) ++ t) = (((q0 :: qs) ++ qmark) ++ t))
        simp only [List.length_append, List.length_cons] at hz
        omega
      exact SegFix.site _ (segRewrite_headIs qsep hshape) (ih t hlt hfixt)

theorem sanitizeFilePath_data_idem (l : List Char) :
    DataProcessor.segRewrite 'C' ":\\Users\\".data '\\' "[USER]".data
      (DataProcessor.segRewrite '/' "home/".data '/' "[USER]".data
        (DataProcessor.segRewrite '/' "Users/".data '/' "[USER]".data
          (DataProcessor.segRewrite 'C' ":\\Users\\".data '\\' "[USER]".data
            (DataProcessor.segRewrite '/' "home/".data '/' "[USER]".data
              (DataProcessor.segRewrite '/' "Users/".data '/' "[USER]".data l))))) =
    DataProcessor.segRewrite 'C' ":\\Users\\".data '\\' "[USER]".data
      (DataProcessor.segRewrite '/' "home/".data '/' "[USER]".data
        (DataProcessor.segRewrite '/' "Users/".data '/' "[USER]".data l)) := by
  have hf1 : SegFix '/' "Users/".data '/' "[USER]".data
      (DataProcessor.segRewrite '/' "Users/".data '/' "[USER]".data l) :=
    SegFix_output (by decide) _ _ le_rfl
  have hf2 : SegFix '/' "home/".data '/' "[USER]".data
      (DataProcessor.segRewrite '/' "home/".data '/' "[USER]".data
        (DataProcessor.segRewrite '/' "Users/".data '/' "[USER]".data l)) :=
    SegFix_output (by decide) _ _ le_rfl
  have hf3 : SegFix 'C' ":\\Users\\".data '\\' "[USER]".data
      (DataProcessor.segRewrite 'C' ":\\Users\\".data '\\' "[USER]".data
        (DataProcessor.segRewrite '/' "home/".data '/' "[USER]".data
          (DataProcessor.segRewrite '/' "Users/".data '/' "[USER]".data l))) :=
    SegFix_output (by decide) _ _ le_rfl
  have hc12 : SegFix '/' "Users/".data '/' "[USER]".data
      (DataProcessor.segRewrite '/' "home/".data '/' "[USER]".data
        (DataProcessor.segRewrite '/' "Users/".data '/' "[USER]".data l)) :=
    SegFix_cross (by decide) (by decide) (by decide) (by decide) (by decide) _ _ le_rfl hf1
  have hc13 : SegFix '/' "Users/".data '/' "[USER]".data
      (DataProcessor.segRewrite 'C' ":\\Users\\".data '\\' "[USER]".data
        (DataProcessor.segRewrite '/' "home/".data '/' "[USER]".data
          (DataProcessor.segRewrite '/' "Users/".data '/' "[USER]".data l))) :=
    SegFix_cross (by decide) (by decide) (by decide) (by decide) (by decide) _ _ le_rfl hc12
  have hc23 : SegFix '/' "home/".data '/' "[USER]".data
      (DataProcessor.segRewrite 'C' ":\\Users\\".data '\\' "[USER]".data
        (DataProcessor.segRewrite '/' "home/".data '/' "[USER]".data
          (DataProcessor.segRewrite '/' "Users/".data '/' "[USER]".data l))) :=
    SegFix_cross (by decide) (by decide) (by decide) (by decide) (by decide) _ _ le_rfl hf2
  rw [SegFix_fixed (by decide) (by decide) hc13, SegFix_fixed (by decide) (by decide) hc23,
    SegFix_fixed (by decide) (by decide) hf3]

theorem sanitizeFilePath_idem (f : String) :
    DataProcessor.sanitizeFilePath (DataProcessor.sanitizeFilePath f) =
      DataProcessor.sanitizeFilePath f :=
  congrArg (fun l => (⟨l⟩ : String)) (sanitizeFilePath_data_idem f.data)

/-! ### C2: fixed-point theory for the log scanner `sanPat`

`sanitizeLogMessage` folds the per-pattern global replacement `sanPat` over
the active sensitive patterns.  The development mirrors the `segRewrite`
one: outputs are characterised by an inductive fixed-point shape (`PatFix`)
— scanner-step failures everywhere except at emitted sites
`word ++ "=[REDACTED]" ++ tail` which rewrite to themselves — closed under
every later pass, under decidable non-interference conditions on the
concrete pattern words. -/

theorem char_toNat_ofNatAux {n : Nat} (h : n.isValidChar) :
    (Char.ofNatAux n h).toNat = n := rfl

theorem toLower_eq_of_not_lower {c d : Char} (h : c.toLower = d)
    (hd : d.toNat < 97 ∨ 122 < d.toNat) : c = d := by
  simp only [Char.toLower] at h
  split at h
  · exfalso
    rename_i hc
    have hv : (c.toNat + 32).isValidChar := Or.inl (by omega)
    rw [Char.ofNat, dif_pos hv] at h
    have h2 := congrArg Char.toNat h
    rw [char_toNat_ofNatAux] at h2
    omega
  · exact h

theorem isWs_cases {c : Char} (h : DataProcessor.isWs c = true) :
    c = ' ' ∨ c = '\t' ∨ c = '\n' ∨ c = '\r' ∨ c = '\x0b' ∨ c = '\x0c' := by
  unfold DataProcessor.isWs at h
  simp at h
  tauto

theorem isWs_toLower {c : Char} (h : DataProcessor.isWs c = true) : c.toLower = c := by
  rcases isWs_cases h with h | h | h | h | h | h <;> subst h <;> decide

theorem isWs_toNat_lt {c : Char} (h : DataProcessor.isWs c = true) : c.toNat < 97 := by
  rcases isWs_cases h with h | h | h | h | h | h <;> subst h <;> decide

/-- The lower-canonical word forms a pattern can match (for `/api[_-]?key/i`,
the three alternation branches). -/
def patForms : Pat → List (List Char)
  | .lit v => [v.data]
  | .apiKey => ["apikey".data, "api_key".data, "api-key".data]

theorem lowerL_append (u v : List Char) : lowerL (u ++ v) = lowerL u ++ lowerL v := by
  unfold lowerL
  exact List.map_append _ u v

theorem lowerL_take (n : Nat) (l : List Char) : lowerL (l.take n) = (lowerL l).take n := by
  unfold lowerL
  exact List.map_take _ l n

theorem lowerL_drop (n : Nat) (l : List Char) : lowerL (l.drop n) = (lowerL l).drop n := by
  unfold lowerL
  exact List.map_drop _ l n

theorem lowerL_length (l : List Char) : (lowerL l).length = l.length := by
  unfold lowerL
  exact List.length_map l _

theorem prefix_take_eq {f l : List Char} (h : f <+: l) : l.take f.length = f :=
  (List.prefix_iff_eq_take.mp h).symm

theorem take_one_of_head {l : List Char} {c : Char} (h : l.head? = some c) : l.take 1 = [c] := by
  cases l with
  | nil => simp at h
  | cons a l' =>
    simp only [List.head?_cons, Option.some.injEq] at h
    simp [h]

theorem lowerL_head? (l : List Char) : (lowerL l).head? = l.head?.map Char.toLower := by
  cases l <;> simp [lowerL]

/-- A successful word match returns a chunk whose lowering is one of the
pattern's canonical forms. -/
theorem patWordMatch_some_forms {p : Pat} {l w r : List Char}
    (h : DataProcessor.patWordMatch p l = some (w, r)) : lowerL w ∈ patForms p := by
  cases p with
  | lit v =>
    simp only [DataProcessor.patWordMatch] at h
    split at h
    · rename_i hc
      simp only [Option.some.injEq, Prod.mk.injEq] at h
      rw [← h.1]
      simp only [patForms, List.mem_singleton]
      exact hc
    · exact absurd h (by simp)
  | apiKey =>
    have htake3 : ∀ n : Nat, lowerL (l.take n) = (lowerL l).take n := fun n => lowerL_take n l
    simp only [DataProcessor.patWordMatch] at h
    split at h
    · rename_i hapi
      have hL3 : (lowerL l).take 3 = "api".data := by
        rw [← lowerL_take]
        exact hapi
      split at h
      · rename_i hbr1
        rw [Bool.and_eq_true] at hbr1
        have hsep : (l.drop 3).head? = some '_' ∨ (l.drop 3).head? = some '-' := by
          have h5 := hbr1.1
          simpa using h5
        have hkey : ((lowerL l).drop 4).take 3 = "key".data := by
          rw [← lowerL_drop, ← lowerL_take]
          exact of_decide_eq_true hbr1.2
        simp only [Option.some.injEq, Prod.mk.injEq] at h
        have hw7 : lowerL w = (lowerL l).take 7 := by
          rw [← h.1, lowerL_take]
        have e1 : (((lowerL l).drop 3).drop 1) = (lowerL l).drop 4 := by
          rw [List.drop_drop]
        have e2 : (lowerL l).take 7 = (lowerL l).take 3 ++ ((lowerL l).drop 3).take 4 :=
          List.take_add _ 3 4
        have e3 : ((lowerL l).drop 3).take 4 =
            ((lowerL l).drop 3).take 1 ++ (((lowerL l).drop 3).drop 1).take 3 :=
          List.take_add _ 1 3
        have hsplit : (lowerL l).take 7 =
            (lowerL l).take 3 ++ (((lowerL l).drop 3).take 1 ++ ((lowerL l).drop 4).take 3) := by
          rw [e2, e3, e1]
        rcases hsep with hd | hd
        · have h1 : ((lowerL l).drop 3).take 1 = ['_'] := by
            apply take_one_of_head
            rw [← lowerL_drop, lowerL_head?, hd]
            rfl
          rw [hw7, hsplit, hL3, h1, hkey]
          simp [patForms]
        · have h1 : ((lowerL l).drop 3).take 1 = ['-'] := by
            apply take_one_of_head
            rw [← lowerL_drop, lowerL_head?, hd]
            rfl
          rw [hw7, hsplit, hL3, h1, hkey]
          simp [patForms]
      · split at h
        · rename_i hbr2
          have hkey : ((lowerL l).drop 3).take 3 = "key".data := by
            rw [← lowerL_drop, ← lowerL_take]
            exact hbr2
          simp only [Option.some.injEq, Prod.mk.injEq] at h
          have hw6 : lowerL w = (lowerL l).take 6 := by
            rw [← h.1, lowerL_take]
          have hsplit : (lowerL l).take 6 =
              (lowerL l).take 3 ++ ((lowerL l).drop 3).take 3 :=
            List.take_add _ 3 3
          rw [hw6, hsplit, hL3, hkey]
          simp [patForms]
        · exact absurd h (by simp)
    · exact absurd h (by simp)

/-- A canonical form occurring (lowered) at the head of `l` makes the word
matcher succeed. -/
theorem patWordMatch_of_form {p : Pat} {l f : List Char}
    (hf : f ∈ patForms p) (hp : f <+: lowerL l) :
    DataProcessor.patWordMatch p l ≠ none := by
  cases p with
  | lit v =>
    simp only [patForms, List.mem_singleton] at hf
    subst hf
    have hc : (l.take v.data.length).map Char.toLower = v.data :=
      (lowerL_take v.data.length l).trans (prefix_take_eq hp)
    simp only [DataProcessor.patWordMatch]
    rw [if_pos hc]
    simp
  | apiKey =>
    simp only [patForms, List.mem_cons, List.not_mem_nil, or_false] at hf
    rcases hf with hf | hf | hf
    · -- form "apikey"
      subst hf
      obtain ⟨t, ht⟩ := hp
      rcases l with _ | ⟨a, _ | ⟨b, _ | ⟨c3, _ | ⟨d, _ | ⟨e, _ | ⟨f6, l6⟩⟩⟩⟩⟩⟩ <;>
        simp [lowerL] at ht
      obtain ⟨ha, hb, hc3, hd, he, hf6, hrest⟩ := ht
      have hd1 : d ≠ '_' := fun hh => by rw [hh] at hd; exact absurd hd.symm (by decide)
      have hd2 : d ≠ '-' := fun hh => by rw [hh] at hd; exact absurd hd.symm (by decide)
      simp only [DataProcessor.patWordMatch]
      rw [if_pos (by simp [ha.symm, hb.symm, hc3.symm])]
      rw [if_neg (by simp [hd1, hd2])]
      rw [if_pos (by simp [hd.symm, he.symm, hf6.symm])]
      simp
    · -- form "api_key"
      subst hf
      obtain ⟨t, ht⟩ := hp
      rcases l with _ | ⟨a, _ | ⟨b, _ | ⟨c3, _ | ⟨d, _ | ⟨e, _ | ⟨f6, _ | ⟨g, l7⟩⟩⟩⟩⟩⟩⟩ <;>
        simp [lowerL] at ht
      obtain ⟨ha, hb, hc3, hd, he, hf6, hg, hrest⟩ := ht
      have hd0 : d = '_' :=
        toLower_eq_of_not_lower hd.symm (by decide)
      simp only [DataProcessor.patWordMatch]
      rw [if_pos (by simp [ha.symm, hb.symm, hc3.symm])]
      rw [if_pos (by simp [hd0, he.symm, hf6.symm, hg.symm])]
      simp
    · -- form "api-key"
      subst hf
      obtain ⟨t, ht⟩ := hp
      rcases l with _ | ⟨a, _ | ⟨b, _ | ⟨c3, _ | ⟨d, _ | ⟨e, _ | ⟨f6, _ | ⟨g, l7⟩⟩⟩⟩⟩⟩⟩ <;>
        simp [lowerL] at ht
      obtain ⟨ha, hb, hc3, hd, he, hf6, hg, hrest⟩ := ht
      have hd0 : d = '-' :=
        toLower_eq_of_not_lower hd.symm (by decide)
      simp only [DataProcessor.patWordMatch]
      rw [if_pos (by simp [ha.symm, hb.symm, hc3.symm])]
      rw [if_pos (by simp [hd0, he.symm, hf6.symm, hg.symm])]
      simp

theorem patWordMatch_none {p : Pat} {l : List Char}
    (h : ∀ f ∈ patForms p, ¬ f <+: lowerL l) : DataProcessor.patWordMatch p l = none := by
  cases hm : DataProcessor.patWordMatch p l with
  | none => rfl
  | some wr =>
    obtain ⟨w, r⟩ := wr
    have h1 := patWordMatch_some_forms hm
    have h2 := DataProcessor.patWordMatch_append hm
    exact absurd (by rw [h2, lowerL_append]; exact List.prefix_append _ _) (h _ h1)

/-- At a site, the word matcher consumes exactly the stored word chunk. -/
theorem patWordMatch_of_shape {p : Pat} {w : List Char}
    (hw : lowerL w ∈ patForms p) (s : List Char) :
    DataProcessor.patWordMatch p (w ++ s) = some (w, s) := by
  cases p with
  | lit v =>
    simp only [patForms, List.mem_singleton] at hw
    have hlen : w.length = v.data.length := by
      rw [← hw, lowerL_length]
    have hc : ((w ++ s).take v.data.length).map Char.toLower = v.data := by
      rw [← hlen, List.take_left]
      exact hw
    simp only [DataProcessor.patWordMatch]
    rw [if_pos hc, ← hlen, List.take_left, List.drop_left]
  | apiKey =>
    simp only [patForms, List.mem_cons, List.not_mem_nil, or_false] at hw
    rcases hw with hw | hw | hw
    · rcases w with _ | ⟨a, _ | ⟨b, _ | ⟨c3, _ | ⟨d, _ | ⟨e, _ | ⟨f6, wtail⟩⟩⟩⟩⟩⟩ <;>
        simp [lowerL] at hw
      obtain ⟨ha, hb, hc3, hd, he, hf6, hnil⟩ := hw
      subst hnil
      have hd1 : d ≠ '_' := fun hh => by rw [hh] at hd; exact absurd hd (by decide)
      have hd2 : d ≠ '-' := fun hh => by rw [hh] at hd; exact absurd hd (by decide)
      simp only [DataProcessor.patWordMatch]
      rw [if_pos (by simp [ha, hb, hc3])]
      rw [if_neg (by simp [hd1, hd2])]
      rw [if_pos (by simp [hd, he, hf6])]
      rfl
    · rcases w with _ | ⟨a, _ | ⟨b, _ | ⟨c3, _ | ⟨d, _ | ⟨e, _ | ⟨f6, _ | ⟨g, wtail⟩⟩⟩⟩⟩⟩⟩ <;>
        simp [lowerL] at hw
      obtain ⟨ha, hb, hc3, hd, he, hf6, hg, hnil⟩ := hw
      subst hnil
      have hd0 : d = '_' := toLower_eq_of_not_lower hd (by decide)
      simp only [DataProcessor.patWordMatch]
      rw [if_pos (by simp [ha, hb, hc3])]
      rw [if_pos (by simp [hd0, he, hf6, hg])]
      rfl
    · rcases w with _ | ⟨a, _ | ⟨b, _ | ⟨c3, _ | ⟨d, _ | ⟨e, _ | ⟨f6, _ | ⟨g, wtail⟩⟩⟩⟩⟩⟩⟩ <;>
        simp [lowerL] at hw
      obtain ⟨ha, hb, hc3, hd, he, hf6, hg, hnil⟩ := hw
      subst hnil
      have hd0 : d = '-' := toLower_eq_of_not_lower hd (by decide)
      simp only [DataProcessor.patWordMatch]
      rw [if_pos (by simp [ha, hb, hc3])]
      rw [if_pos (by simp [hd0, he, hf6, hg])]
      rfl

/-- Head shape for post-value tails: empty or whitespace-headed. -/
def headWs (l : List Char) : Prop :=
  ∀ d, l.head? = some d → DataProcessor.isWs d = true

theorem site_sepValSplit {t : List Char} (ht : headWs t) :
    DataProcessor.sepValSplit ('=' :: ("[REDACTED]".data ++ t)) = some t := by
  have hws : ∀ a ∈ ("[REDACTED]" : String).data, (!DataProcessor.isWs a) = true := by decide
  have hdw : ("[REDACTED]".data ++ t).dropWhile DataProcessor.isWs = "[REDACTED]".data ++ t := by
    show (('[' :: "REDACTED]".data) ++ t).dropWhile DataProcessor.isWs = _
    rw [List.cons_append, List.dropWhile_cons]
    simp [show DataProcessor.isWs '[' = false by decide]
  have htw : ("[REDACTED]".data ++ t).takeWhile (fun x => !DataProcessor.isWs x) =
      "[REDACTED]".data := by
    rw [takeWhile_append_all t hws]
    have h2 : t.takeWhile (fun x => !DataProcessor.isWs x) = [] := by
      cases t with
      | nil => rfl
      | cons d t' =>
        have := ht d rfl
        simp [List.takeWhile_cons, this]
    rw [h2, List.append_nil]
  have hdv : ("[REDACTED]".data ++ t).dropWhile (fun x => !DataProcessor.isWs x) = t := by
    rw [dropWhile_append_all t hws]
    cases t with
    | nil => rfl
    | cons d t' =>
      have := ht d rfl
      simp [List.dropWhile_cons, this]
  simp only [DataProcessor.sepValSplit]
  rw [if_pos (by simp)]
  rw [hdw, htw, hdv]
  simp

theorem sanPat_nil (p : Pat) : DataProcessor.sanPat p [] = [] := by
  simp [DataProcessor.sanPat]

theorem sanPat_cons_nomatch {p : Pat} {c : Char} {cs : List Char}
    (h : DataProcessor.patWordMatch p (c :: cs) = none) :
    DataProcessor.sanPat p (c :: cs) = c :: DataProcessor.sanPat p cs := by
  rw [DataProcessor.sanPat]
  split
  · rename_i w2 r2 hm2
    rw [h] at hm2
    exact absurd hm2 (by simp)
  · rfl

theorem sanPat_cons_noval {p : Pat} {c : Char} {cs w r : List Char}
    (hm : DataProcessor.patWordMatch p (c :: cs) = some (w, r))
    (hs : DataProcessor.sepValSplit r = none) :
    DataProcessor.sanPat p (c :: cs) = c :: DataProcessor.sanPat p cs := by
  rw [DataProcessor.sanPat]
  split
  · rename_i w2 r2 hm2
    rw [hm] at hm2
    simp only [Option.some.injEq, Prod.mk.injEq] at hm2
    obtain ⟨hw2, hr2⟩ := hm2
    split
    · rename_i rest3 hs3
      rw [← hr2, hs] at hs3
      exact absurd hs3 (by simp)
    · rfl
  · rfl

theorem sanPat_cons_match {p : Pat} {c : Char} {cs w r rest : List Char}
    (hm : DataProcessor.patWordMatch p (c :: cs) = some (w, r))
    (hs : DataProcessor.sepValSplit r = some rest) :
    DataProcessor.sanPat p (c :: cs) =
      (w ++ '=' :: "[REDACTED]".data) ++ DataProcessor.sanPat p rest := by
  rw [DataProcessor.sanPat]
  split
  · rename_i w2 r2 hm2
    rw [hm] at hm2
    simp only [Option.some.injEq, Prod.mk.injEq] at hm2
    obtain ⟨hw2, hr2⟩ := hm2
    split
    · rename_i rest3 hs3
      rw [← hr2, hs] at hs3
      simp only [Option.some.injEq] at hs3
      rw [← hw2, ← hs3]
    · rename_i hs3
      rw [← hr2, hs] at hs3
      exact absurd hs3 (by simp)
  · rename_i hm2
    rw [hm] at hm2
    exact absurd hm2 (by simp)

theorem not_prefix_append_of_take {f u : List Char} (y : List Char)
    (h : f.take u.length ≠ u.take f.length) : ¬ f <+: (u ++ y) := by
  intro hp
  by_cases hl : f.length ≤ u.length
  · have h2 : f <+: u := prefix_append_short hp hl
    exact h (by rw [List.take_of_length_le hl, prefix_take_eq h2])
  · have h2 := prefix_append_long hp (Nat.le_of_not_le hl)
    refine h ?_
    rw [List.take_of_length_le (Nat.le_of_lt (Nat.lt_of_not_le hl))]
    exact h2.1.symm

abbrev patFormsNonempty (p : Pat) : Prop :=
  ∀ f ∈ patForms p, f ≠ []

def patFormsLetter (p : Pat) : Prop :=
  ∀ f ∈ patForms p, ∀ c, f.head? = some c → 97 ≤ c.toNat ∧ c.toNat ≤ 122

theorem sanPat_head {p : Pat} (hne : patFormsNonempty p) (l : List Char) :
    (DataProcessor.sanPat p l).head? = l.head? := by
  cases l with
  | nil => rw [sanPat_nil]
  | cons c cs =>
    cases hm : DataProcessor.patWordMatch p (c :: cs) with
    | none =>
      rw [sanPat_cons_nomatch hm]
      rfl
    | some wr =>
      obtain ⟨w, r⟩ := wr
      cases hsv : DataProcessor.sepValSplit r with
      | none =>
        rw [sanPat_cons_noval hm hsv]
        rfl
      | some rest =>
        rw [sanPat_cons_match hm hsv]
        have hforms := patWordMatch_some_forms hm
        have happ := DataProcessor.patWordMatch_append hm
        have hwne : w ≠ [] := by
          intro hnil
          apply hne _ hforms
          rw [hnil]
          rfl
        obtain ⟨w0, wtail, hw0⟩ := List.exists_cons_of_ne_nil hwne
        subst hw0
        have : w0 = c := by
          rw [List.cons_append] at happ
          exact (List.cons.injEq _ _ _ _ |>.mp happ.symm).1
        subst this
        rfl

theorem sanPat_headWs {p : Pat} (hne : patFormsNonempty p) {l : List Char} (hl : headWs l) :
    headWs (DataProcessor.sanPat p l) := by
  intro d hd
  exact hl d (by rw [← sanPat_head hne l]; exact hd)

theorem sanPat_allWs {p : Pat} (hne : patFormsNonempty p) (hlet : patFormsLetter p)
    {l : List Char} (hws : ∀ a ∈ l, DataProcessor.isWs a = true) :
    DataProcessor.sanPat p l = l := by
  induction l with
  | nil => exact sanPat_nil p
  | cons c cs ih =>
    have hnm : DataProcessor.patWordMatch p (c :: cs) = none := by
      apply patWordMatch_none
      intro f hf hpre
      have hfne := hne f hf
      obtain ⟨f0, ftail, hf0⟩ := List.exists_cons_of_ne_nil hfne
      subst hf0
      have hc : f0 = Char.toLower c := by
        have := prefix_take_eq hpre
        simpa [lowerL] using congrArg List.head? this.symm
      have hcw : DataProcessor.isWs c = true := hws c (by simp)
      rw [isWs_toLower hcw] at hc
      subst hc
      have hlow := isWs_toNat_lt hcw
      have := (hlet _ hf _ rfl).1
      omega
    rw [sanPat_cons_nomatch hnm, ih (fun a ha => hws a (by simp [ha]))]

theorem sanPat_scanThrough {p : Pat} {u y : List Char}
    (h : ∀ j, j < u.length → DataProcessor.patWordMatch p (u.drop j ++ y) = none) :
    DataProcessor.sanPat p (u ++ y) = u ++ DataProcessor.sanPat p y := by
  induction u with
  | nil => rfl
  | cons c u' ih =>
    have h0 : DataProcessor.patWordMatch p (c :: (u' ++ y)) = none := by
      simpa using h 0 (by simp)
    rw [List.cons_append, sanPat_cons_nomatch h0,
      ih (fun j hj => by simpa using h (j + 1) (by simpa using Nat.succ_lt_succ hj))]
    rfl

theorem lowerL_redbrace : lowerL ('=' :: "[REDACTED]".data) = '=' :: "[redacted]".data := by
  decide

theorem sanPat_lower_pullback {p : Pat} :
    ∀ n (x : List Char), x.length ≤ n → ∀ s : List Char, '=' ∉ s →
      s <+: lowerL (DataProcessor.sanPat p x) → s <+: lowerL x := by
  intro n
  induction n with
  | zero =>
    intro x hx s hs h
    have hx0 : x = [] := List.length_eq_zero.mp (Nat.le_zero.mp hx)
    subst hx0
    rw [sanPat_nil] at h
    exact h
  | succ m ih =>
    intro x hx s hs h
    cases x with
    | nil =>
      rw [sanPat_nil] at h
      exact h
    | cons c cs =>
      have hcs : cs.length ≤ m := by
        simp only [List.length_cons] at hx
        omega
      cases hm : DataProcessor.patWordMatch p (c :: cs) with
      | none =>
        rw [sanPat_cons_nomatch hm] at h
        cases s with
        | nil => exact List.nil_prefix
        | cons d s' =>
          simp only [lowerL, List.map_cons] at h ⊢
          rw [List.cons_prefix_cons] at h ⊢
          refine ⟨h.1, ?_⟩
          exact ih cs hcs s' (fun hmem => hs (by simp [hmem])) h.2
      | some wr =>
        obtain ⟨w, r⟩ := wr
        cases hsv : DataProcessor.sepValSplit r with
        | none =>
          rw [sanPat_cons_noval hm hsv] at h
          cases s with
          | nil => exact List.nil_prefix
          | cons d s' =>
            simp only [lowerL, List.map_cons] at h ⊢
            rw [List.cons_prefix_cons] at h ⊢
            refine ⟨h.1, ?_⟩
            exact ih cs hcs s' (fun hmem => hs (by simp [hmem])) h.2
        | some rest =>
          rw [sanPat_cons_match hm hsv] at h
          have happ := DataProcessor.patWordMatch_append hm
          by_cases hlen : s.length ≤ w.length
          · have h0 : s <+: lowerL (w ++ '=' :: "[REDACTED]".data) ++
                lowerL (DataProcessor.sanPat p rest) := by
              rw [← lowerL_append]
              exact h
            have h1 : s <+: lowerL (w ++ '=' :: "[REDACTED]".data) :=
              prefix_append_short h0 (by rw [lowerL_length, List.length_append]; omega)
            rw [lowerL_append] at h1
            have h2 : s <+: lowerL w :=
              prefix_append_short h1 (by rw [lowerL_length]; omega)
            rw [happ, lowerL_append]
            exact h2.trans (List.prefix_append _ _)
          · exfalso
            have h1 : s <+: lowerL w ++ ('=' :: "[redacted]".data ++
                lowerL (DataProcessor.sanPat p rest)) := by
              rw [← List.append_assoc, ← lowerL_redbrace, ← lowerL_append, ← lowerL_append]
              exact h
            have h2 := prefix_append_long h1 (by rw [lowerL_length]; omega)
            have h3 := h2.2
            have hne2 : s.drop (lowerL w).length ≠ [] := by
              intro hnil
              have := congrArg List.length hnil
              simp only [List.length_drop, List.length_nil, lowerL_length] at this
              omega
            obtain ⟨e, es, he⟩ := List.exists_cons_of_ne_nil hne2
            rw [he] at h3
            rw [List.cons_append, List.cons_prefix_cons] at h3
            apply hs
            have : e ∈ s.drop (lowerL w).length := by rw [he]; simp
            rw [h3.1] at this
            exact List.mem_of_mem_drop this

theorem dropWhile_head_false {q : Char → Bool} {l : List Char} {a : Char} {as : List Char}
    (h : l.dropWhile q = a :: as) : q a = false := by
  induction l with
  | nil => simp at h
  | cons c cs ih =>
    rw [List.dropWhile_cons] at h
    by_cases hc : q c = true
    · rw [if_pos hc] at h
      exact ih h
    · rw [if_neg hc] at h
      have hca : c = a := (List.cons.injEq _ _ _ _ |>.mp h).1
      subst hca
      simpa using hc

theorem sepValSplit_none_stable {p : Pat} (hne : patFormsNonempty p) (hlet : patFormsLetter p)
    {r : List Char} (h : DataProcessor.sepValSplit r = none) :
    DataProcessor.sepValSplit (DataProcessor.sanPat p r) = none := by
  cases r with
  | nil =>
    rw [sanPat_nil]
    rfl
  | cons c r' =>
    by_cases hcsep : (c = '=' ∨ c = ':')
    · have hcB : (decide (c = '=') || decide (c = ':')) = true := by
        rcases hcsep with hh | hh <;> simp [hh]
      have hval : ((r'.dropWhile DataProcessor.isWs).takeWhile
          (fun x => !DataProcessor.isWs x)).isEmpty = true := by
        simp only [DataProcessor.sepValSplit] at h
        rw [if_pos hcB] at h
        by_contra hE
        rw [if_neg hE] at h
        exact absurd h (by simp)
      have hr2 : r'.dropWhile DataProcessor.isWs = [] := by
        cases hr2 : r'.dropWhile DataProcessor.isWs with
        | nil => rfl
        | cons a as =>
          have hfa := dropWhile_head_false hr2
          rw [hr2] at hval
          simp [List.takeWhile_cons, hfa] at hval
      have hws : ∀ a ∈ r', DataProcessor.isWs a = true := by
        intro a ha
        have := List.dropWhile_eq_nil_iff.mp hr2
        simpa using this a ha
      have hseplow : Char.toLower c = c ∧ c.toNat < 97 := by
        rcases hcsep with hh | hh <;> subst hh <;> exact ⟨by decide, by decide⟩
      have hnm : DataProcessor.patWordMatch p (c :: r') = none := by
        apply patWordMatch_none
        intro f hf hpre
        obtain ⟨f0, ftail, hf0⟩ := List.exists_cons_of_ne_nil (hne f hf)
        subst hf0
        have hc0 : f0 = Char.toLower c := by
          simpa [lowerL] using congrArg List.head? (prefix_take_eq hpre).symm
        rw [hseplow.1] at hc0
        subst hc0
        have h1 := (hlet _ hf _ rfl).1
        have h2 := hseplow.2
        omega
      rw [sanPat_cons_nomatch hnm, sanPat_allWs hne hlet hws]
      exact h
    · have hhead : (DataProcessor.sanPat p (c :: r')).head? = some c := by
        rw [sanPat_head hne]
        rfl
      cases hout : DataProcessor.sanPat p (c :: r') with
      | nil => rw [hout] at hhead; simp at hhead
      | cons o0 otail =>
        rw [hout] at hhead
        simp only [List.head?_cons, Option.some.injEq] at hhead
        subst hhead
        simp only [DataProcessor.sepValSplit]
        rw [if_neg (show ¬((decide (o0 = '=') || decide (o0 = ':')) = true) by
          simp [(not_or.mp hcsep).1, (not_or.mp hcsep).2])]

/-- No scanner step fires at the head: either the word does not match, or no
separator-and-value follows. -/
def noStep (p : Pat) (l : List Char) : Prop :=
  ∀ w r, DataProcessor.patWordMatch p l = some (w, r) → DataProcessor.sepValSplit r = none

/-- Fixed-point shape for `sanPat` outputs: no scanner step fires at any
position, except at emitted sites `word ++ "=[REDACTED]" ++ tail` (tail
empty or whitespace-headed) which rewrite to themselves. -/
inductive PatFix (p : Pat) : List Char → Prop where
  | nil : PatFix p []
  | cons (c : Char) (cs : List Char) (hstep : noStep p (c :: cs)) (hfix : PatFix p cs) :
      PatFix p (c :: cs)
  | site (w t : List Char) (hw : lowerL w ∈ patForms p) (ht : headWs t) (hfix : PatFix p t) :
      PatFix p ((w ++ '=' :: "[REDACTED]".data) ++ t)

theorem noStep_of_none {q : Pat} {l : List Char}
    (h : DataProcessor.patWordMatch q l = none) : noStep q l :=
  fun _ _ hx => absurd (h.symm.trans hx) (by simp)

theorem sepValSplit_some_headWs {r rest : List Char}
    (h : DataProcessor.sepValSplit r = some rest) : headWs rest := by
  intro d hd
  cases r with
  | nil => simp [DataProcessor.sepValSplit] at h
  | cons c r' =>
    simp only [DataProcessor.sepValSplit] at h
    split at h
    · split at h
      · exact absurd h (by simp)
      · simp only [Option.some.injEq] at h
        subst h
        cases hrest : (r'.dropWhile DataProcessor.isWs).dropWhile
            (fun x => !DataProcessor.isWs x) with
        | nil => rw [hrest] at hd; simp at hd
        | cons a as =>
          rw [hrest] at hd
          simp only [List.head?_cons, Option.some.injEq] at hd
          subst hd
          simpa using dropWhile_head_false hrest
    · exact absurd h (by simp)

theorem sepValSplit_suffix {r rest : List Char}
    (h : DataProcessor.sepValSplit r = some rest) : rest <:+ r := by
  cases r with
  | nil => simp [DataProcessor.sepValSplit] at h
  | cons c r' =>
    simp only [DataProcessor.sepValSplit] at h
    split at h
    · split at h
      · exact absurd h (by simp)
      · simp only [Option.some.injEq] at h
        subst h
        refine List.IsSuffix.trans ?_ (List.suffix_cons c r')
        exact ((r'.dropWhile DataProcessor.isWs).dropWhile_suffix _).trans
          (r'.dropWhile_suffix _)
    · exact absurd h (by simp)

theorem PatFix_append_chain {q : Pat} {u T : List Char}
    (h : ∀ j, j < u.length → noStep q (u.drop j ++ T)) (hT : PatFix q T) :
    PatFix q (u ++ T) := by
  induction u with
  | nil => exact hT
  | cons c u' ih =>
    have h0 : noStep q (c :: (u' ++ T)) := by simpa using h 0 (by simp)
    exact PatFix.cons c (u' ++ T) h0
      (ih (fun j hj => by simpa using h (j + 1) (by simpa using Nat.succ_lt_succ hj)))

theorem sanPat_scanNoStep {p : Pat} : ∀ {u y : List Char},
    (∀ j, j < u.length → noStep p (u.drop j ++ y)) →
    DataProcessor.sanPat p (u ++ y) = u ++ DataProcessor.sanPat p y := by
  intro u
  induction u with
  | nil => intro y _; rfl
  | cons a u' ih =>
    intro y h
    have h0 : noStep p (a :: (u' ++ y)) := by simpa using h 0 (by simp)
    have hrest : ∀ j, j < u'.length → noStep p (u'.drop j ++ y) := fun j hj => by
      simpa using h (j + 1) (by simpa using Nat.succ_lt_succ hj)
    cases hm : DataProcessor.patWordMatch p (a :: (u' ++ y)) with
    | none =>
      rw [List.cons_append, sanPat_cons_nomatch hm, ih hrest]
      rfl
    | some wr =>
      obtain ⟨w, r⟩ := wr
      rw [List.cons_append, sanPat_cons_noval hm (h0 w r hm), ih hrest]
      rfl

theorem PatFix_fixed {p : Pat} (hne : patFormsNonempty p) :
    ∀ {z}, PatFix p z → DataProcessor.sanPat p z = z := by
  intro z h
  induction h with
  | nil => exact sanPat_nil p
  | cons c cs hstep hfix ih =>
    cases hm : DataProcessor.patWordMatch p (c :: cs) with
    | none => rw [sanPat_cons_nomatch hm, ih]
    | some wr =>
      obtain ⟨w, r⟩ := wr
      rw [sanPat_cons_noval hm (hstep w r hm), ih]
  | site w t hw ht hfix ih =>
    have hwne : w ≠ [] := fun hnil => hne _ hw (by rw [hnil]; rfl)
    obtain ⟨w0, wtail, hw0⟩ := List.exists_cons_of_ne_nil hwne
    subst hw0
    have hm : DataProcessor.patWordMatch p
        (w0 :: ((wtail ++ '=' :: "[REDACTED]".data) ++ t)) =
        some (w0 :: wtail, ('=' :: "[REDACTED]".data) ++ t) := by
      have h0 := patWordMatch_of_shape hw (('=' :: "[REDACTED]".data) ++ t)
      rw [← List.append_assoc] at h0
      exact h0
    have hsv : DataProcessor.sepValSplit (('=' :: "[REDACTED]".data) ++ t) = some t :=
      site_sepValSplit ht
    show DataProcessor.sanPat p (w0 :: ((wtail ++ '=' :: "[REDACTED]".data) ++ t)) =
      w0 :: ((wtail ++ '=' :: "[REDACTED]".data) ++ t)
    rw [sanPat_cons_match hm hsv, ih]
    rfl

/-- Non-interference of a later pattern `p` with the interior of a matched
word of pattern `q`: at every interior offset, either the overlap test fails
outright, or the exact suffix-prefix overlap occurs and the first
post-overlap character of the `p`-form is not a separator (so the rebuilt
match still has no value part). -/
abbrev InnerOK (q p : Pat) : Prop :=
  ∀ g ∈ patForms q, ∀ f ∈ patForms p, ∀ j, j < g.length → 0 < j →
    f.take (g.length - j) ≠ (g.drop j).take f.length ∨
    (g.length - j < f.length ∧ g.drop j = f.take (g.length - j) ∧
      (f.drop (g.length - j)).head? ≠ some '=' ∧
      (f.drop (g.length - j)).head? ≠ some ':')

/-- Scanning `u ++ y`, either no step fires within `u` (and the scan passes
through), or the scan fires first at some offset of `u`. -/
theorem sanPat_first_fire (p : Pat) : ∀ (u y : List Char),
    (DataProcessor.sanPat p (u ++ y) = u ++ DataProcessor.sanPat p y ∧
      ∀ j, j < u.length → noStep p (u.drop j ++ y)) ∨
    (∃ j wp rr rest, j < u.length ∧
      DataProcessor.patWordMatch p (u.drop j ++ y) = some (wp, rr) ∧
      DataProcessor.sepValSplit rr = some rest ∧
      DataProcessor.sanPat p (u ++ y) =
        u.take j ++ ((wp ++ '=' :: "[REDACTED]".data) ++ DataProcessor.sanPat p rest)) := by
  intro u
  induction u with
  | nil => exact fun y => Or.inl ⟨rfl, fun j hj => absurd hj (by simp)⟩
  | cons a u' ih =>
    intro y
    cases hm : DataProcessor.patWordMatch p (a :: (u' ++ y)) with
    | none =>
      rcases ih y with ⟨heq, hall⟩ | ⟨j, wp, rr, rest, hj, hm2, hsv2, heq⟩
      · left
        refine ⟨?_, ?_⟩
        · rw [List.cons_append, sanPat_cons_nomatch hm, heq]
          rfl
        · intro j hj
          cases j with
          | zero => simpa using noStep_of_none hm
          | succ j' =>
            simp only [List.length_cons] at hj
            simpa using hall j' (by omega)
      · right
        refine ⟨j + 1, wp, rr, rest, ?_, by simpa using hm2, hsv2, ?_⟩
        · simp only [List.length_cons]
          omega
        · rw [List.cons_append, sanPat_cons_nomatch hm, heq]
          rfl
    | some wr =>
      obtain ⟨w, r⟩ := wr
      cases hsv : DataProcessor.sepValSplit r with
      | none =>
        have h0 : noStep p (a :: (u' ++ y)) := by
          intro w2 r2 hx
          rw [hm] at hx
          simp only [Option.some.injEq, Prod.mk.injEq] at hx
          rw [← hx.2]
          exact hsv
        rcases ih y with ⟨heq, hall⟩ | ⟨j, wp, rr, rest, hj, hm2, hsv2, heq⟩
        · left
          refine ⟨?_, ?_⟩
          · rw [List.cons_append, sanPat_cons_noval hm hsv, heq]
            rfl
          · intro j hj
            cases j with
            | zero => simpa using h0
            | succ j' =>
              simp only [List.length_cons] at hj
              simpa using hall j' (by omega)
        · right
          refine ⟨j + 1, wp, rr, rest, ?_, by simpa using hm2, hsv2, ?_⟩
          · simp only [List.length_cons]
            omega
          · rw [List.cons_append, sanPat_cons_noval hm hsv, heq]
            rfl
      | some rest0 =>
        right
        refine ⟨0, w, r, rest0, by simp, by simpa using hm, hsv, ?_⟩
        rw [List.cons_append, sanPat_cons_match hm hsv]
        rfl

/-- If no step fires at the head of a line, none fires there after a later
pattern pass rewrites the tail, provided the later pattern cannot disturb
the interior of a matched word except by an exact tracked overlap. -/
theorem noStep_stable {q p : Pat}
    (hqne : patFormsNonempty q) (hpne : patFormsNonempty p) (hplet : patFormsLetter p)
    (hqeq : ∀ f ∈ patForms q, '=' ∉ f)
    (hInner : InnerOK q p)
    {c : Char} {cs : List Char}
    (hstep : noStep q (c :: cs)) :
    noStep q (c :: DataProcessor.sanPat p cs) := by
  intro w2 r2 hm2
  cases hm : DataProcessor.patWordMatch q (c :: cs) with
  | none =>
    exfalso
    have hforms2 := patWordMatch_some_forms hm2
    have happ2 := DataProcessor.patWordMatch_append hm2
    have hpre2 : lowerL w2 <+: lowerL (c :: DataProcessor.sanPat p cs) := by
      rw [happ2, lowerL_append]
      exact List.prefix_append _ _
    have hw2ne : w2 ≠ [] := fun hnil => hqne _ hforms2 (by rw [hnil]; rfl)
    obtain ⟨w0, wtail, hw0⟩ := List.exists_cons_of_ne_nil hw2ne
    subst hw0
    have hpre2' : Char.toLower w0 :: lowerL wtail <+:
        Char.toLower c :: lowerL (DataProcessor.sanPat p cs) := hpre2
    rw [List.cons_prefix_cons] at hpre2'
    have hwteq : '=' ∉ lowerL wtail := fun hmem => hqeq _ hforms2
      (show '=' ∈ lowerL (w0 :: wtail) from List.mem_cons_of_mem _ hmem)
    have htail := sanPat_lower_pullback cs.length cs le_rfl (lowerL wtail) hwteq hpre2'.2
    have hold : lowerL (w0 :: wtail) <+: lowerL (c :: cs) := by
      show Char.toLower w0 :: lowerL wtail <+: Char.toLower c :: lowerL cs
      exact List.cons_prefix_cons.mpr ⟨hpre2'.1, htail⟩
    exact patWordMatch_of_form hforms2 hold hm
  | some wr =>
    obtain ⟨w, r⟩ := wr
    have hval := hstep w r hm
    have hforms := patWordMatch_some_forms hm
    have happ := DataProcessor.patWordMatch_append hm
    have hwne : w ≠ [] := fun hnil => hqne _ hforms (by rw [hnil]; rfl)
    obtain ⟨w0, wtail, hw0⟩ := List.exists_cons_of_ne_nil hwne
    subst hw0
    rw [List.cons_append] at happ
    have hinj := List.cons.injEq _ _ _ _ |>.mp happ
    have hw0c : w0 = c := hinj.1.symm
    subst hw0c
    have hcs : cs = wtail ++ r := hinj.2
    rcases sanPat_first_fire p wtail r with ⟨heq, _⟩ |
      ⟨j, wp, rr, rest, hj, hmf, hsvf, heqf⟩
    · have hnew : DataProcessor.patWordMatch q (w0 :: DataProcessor.sanPat p cs) =
          some (w0 :: wtail, DataProcessor.sanPat p r) := by
        rw [hcs, heq]
        exact patWordMatch_of_shape hforms _
      rw [hnew] at hm2
      simp only [Option.some.injEq, Prod.mk.injEq] at hm2
      rw [← hm2.2]
      exact sepValSplit_none_stable hpne hplet hval
    · have hfp := patWordMatch_some_forms hmf
      have happf := DataProcessor.patWordMatch_append hmf
      have hb1 : j + 1 < (lowerL (w0 :: wtail)).length := by
        simp only [lowerL_length, List.length_cons]
        omega
      rcases hInner _ hforms _ hfp (j + 1) hb1 (by omega) with hL | ⟨hk, hov, hne1, hne2⟩
      · exfalso
        have hpre : lowerL wp <+: lowerL (wtail.drop j) ++ lowerL r := by
          rw [← lowerL_append, happf, lowerL_append]
          exact List.prefix_append _ _
        refine not_prefix_append_of_take (lowerL r) ?_ hpre
        have e1 : lowerL (wtail.drop j) = (lowerL (w0 :: wtail)).drop (j + 1) := by
          rw [lowerL_drop]
          rfl
        rw [e1]
        simpa only [List.length_drop] using hL
      · have hKeq : (lowerL (w0 :: wtail)).length - (j + 1) = wtail.length - j := by
          simp only [lowerL_length, List.length_cons]
          omega
        have hKlt : wtail.length - j < wp.length := by
          rw [hKeq, lowerL_length] at hk
          exact hk
        have hlw : lowerL (w0 :: (wtail.take j ++ wp.take (wtail.length - j))) =
            lowerL (w0 :: wtail) := by
          show Char.toLower w0 :: lowerL (wtail.take j ++ wp.take (wtail.length - j)) =
            Char.toLower w0 :: lowerL wtail
          rw [lowerL_append, lowerL_take, lowerL_take, ← hKeq, ← hov]
          rw [show (lowerL (w0 :: wtail)).drop (j + 1) = (lowerL wtail).drop j from rfl]
          rw [List.take_append_drop]
        have hlist : w0 :: (wtail.take j ++ ((wp ++ '=' :: "[REDACTED]".data) ++
              DataProcessor.sanPat p rest)) =
            (w0 :: (wtail.take j ++ wp.take (wtail.length - j))) ++
              (wp.drop (wtail.length - j) ++
                ('=' :: "[REDACTED]".data ++ DataProcessor.sanPat p rest)) := by
          simp only [List.cons_append, List.cons.injEq, true_and, List.append_assoc]
          rw [← List.append_assoc (wp.take (wtail.length - j)), List.take_append_drop]
        have hmatch : DataProcessor.patWordMatch q
            (w0 :: DataProcessor.sanPat p cs) =
            some (w0 :: (wtail.take j ++ wp.take (wtail.length - j)),
              wp.drop (wtail.length - j) ++
                ('=' :: "[REDACTED]".data ++ DataProcessor.sanPat p rest)) := by
          rw [hcs, heqf, hlist]
          exact patWordMatch_of_shape (by rw [hlw]; exact hforms) _
        rw [hmatch] at hm2
        simp only [Option.some.injEq, Prod.mk.injEq] at hm2
        rw [← hm2.2]
        have hdne : wp.drop (wtail.length - j) ≠ [] := by
          intro hnil
          have := congrArg List.length hnil
          simp only [List.length_drop, List.length_nil] at this
          omega
        obtain ⟨d, dtail, hdrop⟩ := List.exists_cons_of_ne_nil hdne
        have hdl : (lowerL wp).drop (wtail.length - j) = Char.toLower d :: lowerL dtail := by
          rw [← lowerL_drop, hdrop]
          rfl
        have hd1 : ¬ d = '=' := by
          intro hdd
          apply hne1
          rw [hKeq, hdl, hdd]
          rfl
        have hd2 : ¬ d = ':' := by
          intro hdd
          apply hne2
          rw [hKeq, hdl, hdd]
          rfl
        rw [hdrop, List.cons_append]
        simp only [DataProcessor.sepValSplit]
        rw [if_neg (by simp [hd1, hd2])]

theorem PatFix_output {p : Pat} (hne : patFormsNonempty p) (hlet : patFormsLetter p)
    (heq : ∀ f ∈ patForms p, '=' ∉ f) (hInner : InnerOK p p) :
    ∀ n (x : List Char), x.length ≤ n → PatFix p (DataProcessor.sanPat p x) := by
  intro n
  induction n with
  | zero =>
    intro x hx
    have hx0 : x = [] := List.length_eq_zero.mp (Nat.le_zero.mp hx)
    subst hx0
    rw [sanPat_nil]
    exact PatFix.nil
  | succ m ih =>
    intro x hx
    cases x with
    | nil =>
      rw [sanPat_nil]
      exact PatFix.nil
    | cons c cs =>
      have hcs : cs.length ≤ m := by
        simp only [List.length_cons] at hx
        omega
      cases hm : DataProcessor.patWordMatch p (c :: cs) with
      | none =>
        rw [sanPat_cons_nomatch hm]
        exact PatFix.cons c _ (noStep_stable hne hne hlet heq hInner (noStep_of_none hm))
          (ih cs hcs)
      | some wr =>
        obtain ⟨w, r⟩ := wr
        cases hsv : DataProcessor.sepValSplit r with
        | none =>
          rw [sanPat_cons_noval hm hsv]
          have h0 : noStep p (c :: cs) := by
            intro w2 r2 hx2
            rw [hm] at hx2
            simp only [Option.some.injEq, Prod.mk.injEq] at hx2
            rw [← hx2.2]
            exact hsv
          exact PatFix.cons c _ (noStep_stable hne hne hlet heq hInner h0) (ih cs hcs)
        | some rest =>
          rw [sanPat_cons_match hm hsv]
          have happ := DataProcessor.patWordMatch_append hm
          have hrest : rest.length ≤ m := by
            have h1 := DataProcessor.sepValSplit_length hsv
            have h2 := congrArg List.length happ
            simp only [List.length_cons, List.length_append] at h2 hx
            omega
          exact PatFix.site w _ (patWordMatch_some_forms hm)
            (sanPat_headWs hne (sepValSplit_some_headWs hsv)) (ih rest hrest)

/-- Interior non-overlap of a pattern with its own emitted blocks (used to
cut a suffix through a site). -/
abbrev HCqOK (q : Pat) : Prop :=
  ∀ g ∈ patForms q, ∀ f ∈ patForms q, ∀ j, j < (g ++ '=' :: "[redacted]".data).length →
    0 < j →
    f.take ((g ++ '=' :: "[redacted]".data).length - j) ≠
      ((g ++ '=' :: "[redacted]".data).drop j).take f.length

theorem PatFix_suffix {q : Pat} (hCq : HCqOK q) :
    ∀ {z}, PatFix q z → ∀ s, s <:+ z → PatFix q s := by
  intro z h
  induction h with
  | nil =>
    intro s hs
    rw [List.suffix_nil.mp hs]
    exact PatFix.nil
  | cons c cs hstep hfix ih =>
    intro s hs
    rcases List.suffix_cons_iff.mp hs with h1 | h2
    · rw [h1]
      exact PatFix.cons c cs hstep hfix
    · exact ih s h2
  | site w t hw ht hfix ih =>
    intro s hs
    obtain ⟨r, hr⟩ := hs
    by_cases hlen : s.length ≤ t.length
    · apply ih
      have hrl : (w ++ '=' :: "[REDACTED]".data).length ≤ r.length := by
        have := congrArg List.length hr
        simp only [List.length_append] at this ⊢
        omega
      have h2 := congrArg (List.drop (w ++ '=' :: "[REDACTED]".data).length) hr
      rw [List.drop_append_eq_append_drop, Nat.sub_eq_zero_of_le hrl, List.drop_zero,
        List.drop_left] at h2
      exact ⟨r.drop (w ++ '=' :: "[REDACTED]".data).length, h2⟩
    · have hj : r.length < (w ++ '=' :: "[REDACTED]".data).length := by
        have := congrArg List.length hr
        simp only [List.length_append] at this ⊢
        omega
      have hs2 : s = (w ++ '=' :: "[REDACTED]".data).drop r.length ++ t := by
        have h2 := congrArg (List.drop r.length) hr
        have hz1 : r.length - (w ++ '=' :: "[REDACTED]".data).length = 0 :=
          Nat.sub_eq_zero_of_le (Nat.le_of_lt hj)
        rw [List.drop_append_eq_append_drop, List.drop_append_eq_append_drop, List.drop_length,
          Nat.sub_self, List.drop_zero, List.nil_append, hz1, List.drop_zero] at h2
        exact h2
      by_cases hj0 : r.length = 0
      · rw [hs2, hj0, List.drop_zero]
        exact PatFix.site w t hw ht hfix
      · rw [hs2]
        refine PatFix_append_chain ?_ hfix
        intro i hi
        have hdd : ((w ++ '=' :: "[REDACTED]".data).drop r.length).drop i =
            (w ++ '=' :: "[REDACTED]".data).drop (r.length + i) := by
          rw [List.drop_drop, Nat.add_comm]
        rw [hdd]
        apply noStep_of_none
        apply patWordMatch_none
        intro f hf hpre
        rw [lowerL_append, lowerL_drop, lowerL_append, lowerL_redbrace] at hpre
        refine not_prefix_append_of_take (lowerL t) ?_ hpre
        have hlenB : i < ((w ++ '=' :: "[REDACTED]".data).drop r.length).length := hi
        simp only [List.length_drop, List.length_append, List.length_cons,
          List.length_nil] at hlenB
        have hcc := hCq _ hw f hf (r.length + i) (by
          simp only [List.length_append, lowerL_length, List.length_cons, List.length_nil]
          omega) (by omega)
        simpa only [List.length_drop] using hcc

/-- Scanning by `p` steps nowhere inside the block of a `q`-site. -/
abbrev SiteOK (q p : Pat) : Prop :=
  ∀ g ∈ patForms q, ∀ f ∈ patForms p, ∀ j, j < (g ++ '=' :: "[redacted]".data).length →
    f.take ((g ++ '=' :: "[redacted]".data).length - j) ≠
      ((g ++ '=' :: "[redacted]".data).drop j).take f.length

/-- The emitted blocks of pattern `p` never host a live step of pattern `q`:
prepending a `p`-site block to a `q`-fixed tail keeps it `q`-fixed. -/
def blockOK (q p : Pat) : Prop :=
  ∀ wp T, lowerL wp ∈ patForms p → headWs T → PatFix q T →
    PatFix q ((wp ++ '=' :: "[REDACTED]".data) ++ T)

/-- Decidable sufficient condition for `blockOK`: no `q`-word match at any
offset of a `p`-block. -/
abbrev BlockDec (q p : Pat) : Prop :=
  ∀ g ∈ patForms p, ∀ f ∈ patForms q, ∀ j, j < (g ++ '=' :: "[redacted]".data).length →
    f.take ((g ++ '=' :: "[redacted]".data).length - j) ≠
      ((g ++ '=' :: "[redacted]".data).drop j).take f.length

theorem blockOK_of_dec {q p : Pat} (h : BlockDec q p) : blockOK q p := by
  intro wp T hw ht hfix
  refine PatFix_append_chain ?_ hfix
  intro j hj
  apply noStep_of_none
  apply patWordMatch_none
  intro f hf hpre
  rw [lowerL_append, lowerL_drop, lowerL_append, lowerL_redbrace] at hpre
  refine not_prefix_append_of_take (lowerL T) ?_ hpre
  have hj2 : j < (lowerL wp ++ '=' :: "[redacted]".data).length := by
    simp only [List.length_append, lowerL_length, List.length_cons, List.length_nil] at hj ⊢
    omega
  simpa only [List.length_drop] using h _ hw f hf j hj2

theorem PatFix_cross {q p : Pat}
    (hqne : patFormsNonempty q) (hpne : patFormsNonempty p) (hplet : patFormsLetter p)
    (hqeq : ∀ f ∈ patForms q, '=' ∉ f)
    (hInner : InnerOK q p) (hCq : HCqOK q) (hSite : SiteOK q p) (hblock : blockOK q p) :
    ∀ n (z : List Char), z.length ≤ n → PatFix q z →
      PatFix q (DataProcessor.sanPat p z) := by
  intro n
  induction n with
  | zero =>
    intro z hz hfix
    have hz0 : z = [] := List.length_eq_zero.mp (Nat.le_zero.mp hz)
    subst hz0
    rw [sanPat_nil]
    exact PatFix.nil
  | succ m ih =>
    intro z hz hfix
    cases hfix with
    | nil =>
      rw [sanPat_nil]
      exact PatFix.nil
    | cons c cs hstep hfixcs =>
      cases hm : DataProcessor.patWordMatch p (c :: cs) with
      | none =>
        rw [sanPat_cons_nomatch hm]
        have hcs : cs.length ≤ m := by
          simp only [List.length_cons] at hz
          omega
        exact PatFix.cons c _ (noStep_stable hqne hpne hplet hqeq hInner hstep)
          (ih cs hcs hfixcs)
      | some wr =>
        obtain ⟨w, r⟩ := wr
        cases hsv : DataProcessor.sepValSplit r with
        | none =>
          rw [sanPat_cons_noval hm hsv]
          have hcs : cs.length ≤ m := by
            simp only [List.length_cons] at hz
            omega
          exact PatFix.cons c _ (noStep_stable hqne hpne hplet hqeq hInner hstep)
            (ih cs hcs hfixcs)
        | some rest =>
          rw [sanPat_cons_match hm hsv]
          have happ := DataProcessor.patWordMatch_append hm
          have hrfx : PatFix q rest := by
            refine PatFix_suffix hCq (PatFix.cons c cs hstep hfixcs) rest ?_
            refine (sepValSplit_suffix hsv).trans ?_
            rw [happ]
            exact ⟨w, rfl⟩
          have hrl : rest.length ≤ m := by
            have h1 := DataProcessor.sepValSplit_length hsv
            have h2 := congrArg List.length happ
            simp only [List.length_cons, List.length_append] at h2 hz
            omega
          exact hblock w _ (patWordMatch_some_forms hm)
            (sanPat_headWs hpne (sepValSplit_some_headWs hsv)) (ih rest hrl hrfx)
    | site w t hw ht hfixt =>
      have hscan : DataProcessor.sanPat p ((w ++ '=' :: "[REDACTED]".data) ++ t) =
          (w ++ '=' :: "[REDACTED]".data) ++ DataProcessor.sanPat p t := by
        apply sanPat_scanThrough
        intro j hj
        apply patWordMatch_none
        intro f hf hpre
        rw [lowerL_append, lowerL_drop, lowerL_append, lowerL_redbrace] at hpre
        refine not_prefix_append_of_take (lowerL t) ?_ hpre
        have hj2 : j < (lowerL w ++ '=' :: "[redacted]".data).length := by
          simp only [List.length_append, lowerL_length, List.length_cons,
            List.length_nil] at hj ⊢
          omega
        simpa only [List.length_drop] using hSite _ hw f hf j hj2
      rw [hscan]
      have hlt : t.length ≤ m := by
        simp only [List.length_append, List.length_cons] at hz
        omega
      exact PatFix.site w _ hw (sanPat_headWs hpne ht) (ih t hlt hfixt)

/-- The one genuinely overlapping pair: `key` occurs inside every emitted
`api[_-]?key` block, but there at the stored-word position of an embedded
`key`-site, so the block still `key`-fixes. -/
theorem blockOK_key_apiKey : blockOK (Pat.lit "key") Pat.apiKey := by
  have hnok : ∀ (x : Char) (L : List Char), Char.toLower x ≠ 'k' →
      DataProcessor.patWordMatch (Pat.lit "key") (x :: L) = none := by
    intro x L hx
    apply patWordMatch_none
    intro f hf hpre
    simp only [patForms, List.mem_singleton] at hf
    subst hf
    exact hx (List.cons_prefix_cons.mp hpre).1.symm
  intro wp T hw ht hfix
  simp only [patForms, List.mem_cons, List.not_mem_nil, or_false] at hw
  rcases hw with hw | hw | hw
  · rcases wp with _ | ⟨a, _ | ⟨b, _ | ⟨c3, _ | ⟨d, _ | ⟨e, _ | ⟨f6, wt⟩⟩⟩⟩⟩⟩ <;>
      simp [lowerL] at hw
    obtain ⟨ha, hb, hc3, hd, he, hf6, hnil⟩ := hw
    subst hnil
    have hsite : PatFix (Pat.lit "key") (([d, e, f6] ++ '=' :: "[REDACTED]".data) ++ T) := by
      refine PatFix.site [d, e, f6] T ?_ ht hfix
      simp only [patForms, List.mem_singleton]
      show [Char.toLower d, Char.toLower e, Char.toLower f6] = "key".data
      rw [hd, he, hf6]
    exact PatFix.cons a _ (noStep_of_none (hnok a _ (by rw [ha]; decide)))
      (PatFix.cons b _ (noStep_of_none (hnok b _ (by rw [hb]; decide)))
        (PatFix.cons c3 _ (noStep_of_none (hnok c3 _ (by rw [hc3]; decide))) hsite))
  · rcases wp with _ | ⟨a, _ | ⟨b, _ | ⟨c3, _ | ⟨d, _ | ⟨e, _ | ⟨f6, _ | ⟨g, wt⟩⟩⟩⟩⟩⟩⟩ <;>
      simp [lowerL] at hw
    obtain ⟨ha, hb, hc3, hd, he, hf6, hg, hnil⟩ := hw
    subst hnil
    have hsite : PatFix (Pat.lit "key") (([e, f6, g] ++ '=' :: "[REDACTED]".data) ++ T) := by
      refine PatFix.site [e, f6, g] T ?_ ht hfix
      simp only [patForms, List.mem_singleton]
      show [Char.toLower e, Char.toLower f6, Char.toLower g] = "key".data
      rw [he, hf6, hg]
    exact PatFix.cons a _ (noStep_of_none (hnok a _ (by rw [ha]; decide)))
      (PatFix.cons b _ (noStep_of_none (hnok b _ (by rw [hb]; decide)))
        (PatFix.cons c3 _ (noStep_of_none (hnok c3 _ (by rw [hc3]; decide)))
          (PatFix.cons d _ (noStep_of_none (hnok d _ (by rw [hd]; decide))) hsite)))
  · rcases wp with _ | ⟨a, _ | ⟨b, _ | ⟨c3, _ | ⟨d, _ | ⟨e, _ | ⟨f6, _ | ⟨g, wt⟩⟩⟩⟩⟩⟩⟩ <;>
      simp [lowerL] at hw
    obtain ⟨ha, hb, hc3, hd, he, hf6, hg, hnil⟩ := hw
    subst hnil
    have hsite : PatFix (Pat.lit "key") (([e, f6, g] ++ '=' :: "[REDACTED]".data) ++ T) := by
      refine PatFix.site [e, f6, g] T ?_ ht hfix
      simp only [patForms, List.mem_singleton]
      show [Char.toLower e, Char.toLower f6, Char.toLower g] = "key".data
      rw [he, hf6, hg]
    exact PatFix.cons a _ (noStep_of_none (hnok a _ (by rw [ha]; decide)))
      (PatFix.cons b _ (noStep_of_none (hnok b _ (by rw [hb]; decide)))
        (PatFix.cons c3 _ (noStep_of_none (hnok c3 _ (by rw [hc3]; decide)))
          (PatFix.cons d _ (noStep_of_none (hnok d _ (by rw [hd]; decide))) hsite)))

/-- Conditions a pattern needs for its own pass (decidable form). -/
abbrev SelfDec (p : Pat) : Prop :=
  patFormsNonempty p ∧
    (∀ f ∈ patForms p, 97 ≤ (f.headD 'a').toNat ∧ (f.headD 'a').toNat ≤ 122) ∧
    (∀ f ∈ patForms p, '=' ∉ f) ∧ InnerOK p p ∧ HCqOK p

/-- Conditions a pattern needs for its own pass. -/
def SelfOK (p : Pat) : Prop :=
  patFormsNonempty p ∧ patFormsLetter p ∧ (∀ f ∈ patForms p, '=' ∉ f) ∧
    InnerOK p p ∧ HCqOK p

theorem patFormsLetter_of_dec {p : Pat}
    (h : ∀ f ∈ patForms p, 97 ≤ (f.headD 'a').toNat ∧ (f.headD 'a').toNat ≤ 122) :
    patFormsLetter p := by
  intro f hf c hc
  have h2 := h f hf
  cases f with
  | nil => simp at hc
  | cons x xs =>
    simp only [List.head?_cons, Option.some.injEq] at hc
    subst hc
    simpa using h2

theorem selfOK_of_dec {p : Pat} (h : SelfDec p) : SelfOK p :=
  ⟨h.1, patFormsLetter_of_dec h.2.1, h.2.2.1, h.2.2.2.1, h.2.2.2.2⟩

/-- Pairwise conditions for a later pass `p` over the output of an earlier
pass `q`. -/
def CrossOK (q p : Pat) : Prop :=
  InnerOK q p ∧ SiteOK q p ∧ blockOK q p

theorem highPatterns_selfDec : ∀ p ∈ DataProcessor.highPatterns, SelfDec p := by decide

theorem highPatterns_crossDec :
    DataProcessor.highPatterns.Pairwise (fun q p => InnerOK q p ∧ SiteOK q p) := by decide

theorem highPatterns_blockDec :
    DataProcessor.highPatterns.Pairwise (fun q p =>
      (q = Pat.lit "key" ∧ p = Pat.apiKey) ∨ BlockDec q p) := by decide

theorem highPatterns_crossOK : DataProcessor.highPatterns.Pairwise CrossOK := by
  have h3 := highPatterns_crossDec.and highPatterns_blockDec
  refine h3.imp ?_
  rintro a b ⟨⟨hi, hs⟩, hb⟩
  refine ⟨hi, hs, ?_⟩
  rcases hb with ⟨hq, hp⟩ | hd
  · subst hq
    subst hp
    exact blockOK_key_apiKey
  · exact blockOK_of_dec hd

theorem getSensitivePatterns_pairwise (level : String) :
    (DataProcessor.getSensitivePatterns level).Pairwise CrossOK := by
  have hm : DataProcessor.mediumPatterns.Sublist DataProcessor.highPatterns := by
    unfold DataProcessor.highPatterns
    exact List.sublist_append_left _ _
  have hb : DataProcessor.basePatterns.Sublist DataProcessor.highPatterns := by
    refine List.Sublist.trans ?_ hm
    unfold DataProcessor.mediumPatterns
    exact List.sublist_append_left _ _
  unfold DataProcessor.getSensitivePatterns
  split
  · exact highPatterns_crossOK
  · split
    · exact highPatterns_crossOK.sublist hm
    · split
      · exact highPatterns_crossOK.sublist hb
      · exact highPatterns_crossOK.sublist hm

theorem getSensitivePatterns_selfOK {level : String} :
    ∀ p ∈ DataProcessor.getSensitivePatterns level, SelfOK p :=
  fun p hp => selfOK_of_dec (highPatterns_selfDec p (getSensitivePatterns_subset hp))

/-- Fold invariant: after the passes in `PS` run over an accumulator already
fixed for every pattern in `done`, the result is fixed for all of them. -/
theorem foldl_sanPat_fix_all :
    ∀ (PS : List Pat) (done : List Pat) (acc : List Char),
      (∀ p ∈ PS, SelfOK p) → PS.Pairwise CrossOK →
      (∀ q ∈ done, SelfOK q) →
      (∀ q ∈ done, ∀ p ∈ PS, CrossOK q p) →
      (∀ q ∈ done, PatFix q acc) →
      ∀ q, q ∈ done ∨ q ∈ PS →
        PatFix q (PS.foldl (fun a p => DataProcessor.sanPat p a) acc) := by
  intro PS
  induction PS with
  | nil =>
    intro done acc hself hpair hdself hcross hfix q hq
    rcases hq with hq | hq
    · exact hfix q hq
    · exact absurd hq (by simp)
  | cons p PS' ih =>
    intro done acc hself hpair hdself hcross hfix q hq
    have hpS : SelfOK p := hself p (by simp)
    have hpairh := List.pairwise_cons.mp hpair
    have hfix' : ∀ q2 ∈ p :: done, PatFix q2 (DataProcessor.sanPat p acc) := by
      intro q2 hq2
      rcases List.mem_cons.mp hq2 with hq2 | hq2
      · subst hq2
        exact PatFix_output hpS.1 hpS.2.1 hpS.2.2.1 hpS.2.2.2.1 acc.length acc le_rfl
      · have hqS := hdself q2 hq2
        have hc := hcross q2 hq2 p (by simp)
        exact PatFix_cross hqS.1 hpS.1 hpS.2.1 hqS.2.2.1 hc.1 hqS.2.2.2.2 hc.2.1 hc.2.2
          acc.length acc le_rfl (hfix q2 hq2)
    have hrec := ih (p :: done) (DataProcessor.sanPat p acc)
      (fun p2 hp2 => hself p2 (by simp [hp2]))
      hpairh.2
      (fun q2 hq2 => by
        rcases List.mem_cons.mp hq2 with h | h
        · subst h
          exact hpS
        · exact hdself q2 h)
      (fun q2 hq2 p2 hp2 => by
        rcases List.mem_cons.mp hq2 with h | h
        · subst h
          have hc2 := hpairh.1 p2 hp2
          exact hc2
        · exact hcross q2 h p2 (by simp [hp2]))
      hfix'
    rcases hq with hq | hq
    · exact hrec q (Or.inl (by simp [hq]))
    · rcases List.mem_cons.mp hq with h | h
      · exact hrec q (Or.inl (by simp [h]))
      · exact hrec q (Or.inr h)

theorem foldl_sanPat_id {PS : List Pat} {l : List Char}
    (h : ∀ p ∈ PS, patFormsNonempty p ∧ PatFix p l) :
    PS.foldl (fun a p => DataProcessor.sanPat p a) l = l := by
  induction PS with
  | nil => rfl
  | cons p PS' ih =>
    have h0 : DataProcessor.sanPat p l = l :=
      PatFix_fixed (h p (by simp)).1 (h p (by simp)).2
    show PS'.foldl (fun a p2 => DataProcessor.sanPat p2 a) (DataProcessor.sanPat p l) = l
    rw [h0]
    exact ih (fun p2 hp2 => h p2 (by simp [hp2]))

theorem sanitizeLogMessage_idem (settings : DataProcessor.PrivacySettings) (m : String) :
    DataProcessor.sanitizeLogMessage settings (DataProcessor.sanitizeLogMessage settings m) =
      DataProcessor.sanitizeLogMessage settings m := by
  by_cases hr : settings.redactSensitiveVariables = true
  · have e1 : ∀ s : String, DataProcessor.sanitizeLogMessage settings s =
        ⟨(DataProcessor.getSensitivePatterns settings.sensitivityLevel).foldl
          (fun a p => DataProcessor.sanPat p a) s.data⟩ := by
      intro s
      unfold DataProcessor.sanitizeLogMessage
      rw [hr]
      rfl
    have hfixall : ∀ p ∈ DataProcessor.getSensitivePatterns settings.sensitivityLevel,
        patFormsNonempty p ∧ PatFix p
          ((DataProcessor.getSensitivePatterns settings.sensitivityLevel).foldl
            (fun a p2 => DataProcessor.sanPat p2 a) m.data) := by
      intro p hp
      refine ⟨(getSensitivePatterns_selfOK p hp).1, ?_⟩
      exact foldl_sanPat_fix_all _ [] m.data getSensitivePatterns_selfOK
        (getSensitivePatterns_pairwise _) (fun q hq => absurd hq (by simp))
        (fun q hq => absurd hq (by simp)) (fun q hq => absurd hq (by simp)) p (Or.inr hp)
    rw [e1, e1]
    exact congrArg (fun l => (⟨l⟩ : String)) (foldl_sanPat_id hfixall)
  · have hr' : settings.redactSensitiveVariables = false := by
      cases hb : settings.redactSensitiveVariables
      · rfl
      · exact absurd hb hr
    have e0 : ∀ s : String, DataProcessor.sanitizeLogMessage settings s = s := by
      intro s
      unfold DataProcessor.sanitizeLogMessage
      rw [hr']
      rfl
    rw [e0, e0]

theorem filterVariables_idem (settings : DataProcessor.PrivacySettings)
    (vars : List VariableSnapshot) :
    DataProcessor.filterVariables settings (DataProcessor.filterVariables settings vars) =
      DataProcessor.filterVariables settings vars := by
  by_cases h : settings.redactSensitiveVariables = true
  · unfold DataProcessor.filterVariables
    simp only [h, Bool.not_true, Bool.false_eq_true, if_false, List.map_map]
    exact List.map_congr_left fun v _ => filterOneVariable_idem settings v
  · unfold DataProcessor.filterVariables
    simp [h]

theorem jsSliceNeg_idem {α : Type} (n : Nat) (xs : List α) :
    JS.jsSliceNeg n (JS.jsSliceNeg n xs) = JS.jsSliceNeg n xs := by
  by_cases h : n = 0
  · simp [JS.jsSliceNeg, h]
  · simp only [JS.jsSliceNeg, if_neg h]
    rw [show (xs.drop (xs.length - n)).length - n = 0 by
      simp only [List.length_drop]; omega]
    rw [List.drop_zero]

theorem jsSliceNeg_map {α β : Type} (n : Nat) (f : α → β) (l : List α) :
    JS.jsSliceNeg n (l.map f) = (JS.jsSliceNeg n l).map f := by
  by_cases h : n = 0
  · simp [JS.jsSliceNeg, h]
  · simp only [JS.jsSliceNeg, if_neg h, List.length_map, List.map_drop]

theorem filterConsoleOutput_idem (settings : DataProcessor.PrivacySettings)
    (out : List LogEntry) :
    DataProcessor.filterConsoleOutput settings (DataProcessor.filterConsoleOutput settings out) =
      DataProcessor.filterConsoleOutput settings out := by
  unfold DataProcessor.filterConsoleOutput
  rw [jsSliceNeg_map, jsSliceNeg_idem, List.map_map]
  refine List.map_congr_left fun e _ => ?_
  show { { e with message := DataProcessor.sanitizeLogMessage settings e.message } with
      message := DataProcessor.sanitizeLogMessage settings
        (DataProcessor.sanitizeLogMessage settings e.message) } = _
  rw [sanitizeLogMessage_idem]

theorem filterStackTrace_idem (settings : DataProcessor.PrivacySettings)
    (st : List StackFrame) :
    DataProcessor.filterStackTrace settings (DataProcessor.filterStackTrace settings st) =
      DataProcessor.filterStackTrace settings st := by
  by_cases h : settings.redactFileContents = true
  · unfold DataProcessor.filterStackTrace
    simp only [h, Bool.not_true, Bool.false_eq_true, if_false]
    rw [← List.map_take, List.take_take, Nat.min_self, List.map_map]
    refine List.map_congr_left fun fr _ => ?_
    show { { fr with file := DataProcessor.sanitizeFilePath fr.file } with
        file := DataProcessor.sanitizeFilePath (DataProcessor.sanitizeFilePath fr.file) } = _
    rw [sanitizeFilePath_idem]
  · unfold DataProcessor.filterStackTrace
    simp [h, List.take_take]

theorem filterSourceLocation_idem (settings : DataProcessor.PrivacySettings)
    (loc : SourceLocation) :
    DataProcessor.filterSourceLocation settings
        (DataProcessor.filterSourceLocation settings loc) =
      DataProcessor.filterSourceLocation settings loc := by
  by_cases h : settings.redactFileContents = true
  · unfold DataProcessor.filterSourceLocation
    simp only [h, Bool.not_true, Bool.false_eq_true, if_false]
    show { { loc with file := DataProcessor.sanitizeFilePath loc.file } with
        file := DataProcessor.sanitizeFilePath (DataProcessor.sanitizeFilePath loc.file) } = _
    rw [sanitizeFilePath_idem]
  · unfold DataProcessor.filterSourceLocation
    simp [h]

/-- C2: for every context, applying the privacy filters twice gives the same
context as applying them once — redaction of variables, console messages,
network records, stack traces and source locations is idempotent, including
the interaction of redaction markers with truncation and nested-object
sanitization. -/
theorem c2_applyPrivacyFilters_idem (config : DataProcessor.PrivacyConfig)
    (context : DebugContext) :
    DataProcessor.applyPrivacyFilters config
        (DataProcessor.applyPrivacyFilters config context) =
      DataProcessor.applyPrivacyFilters config context := by
  have e : ∀ c : DebugContext, DataProcessor.applyPrivacyFilters config c =
      { c with
        «variables» := DataProcessor.filterVariables
          (DataProcessor.getPrivacySettings config) c.«variables»
        consoleOutput := DataProcessor.filterConsoleOutput
          (DataProcessor.getPrivacySettings config) c.consoleOutput
        networkActivity := DataProcessor.filterNetworkActivity
          (DataProcessor.getPrivacySettings config) c.networkActivity
        stackTrace := DataProcessor.filterStackTrace
          (DataProcessor.getPrivacySettings config) c.stackTrace
        sourceLocation := DataProcessor.filterSourceLocation
          (DataProcessor.getPrivacySettings config) c.sourceLocation } := fun c => rfl
  rw [e, e]
  dsimp only
  rw [filterVariables_idem, filterConsoleOutput_idem, filterNetworkActivity_idem,
    filterStackTrace_idem, filterSourceLocation_idem]
